import Mathlib

/-! # Boundary-tag memory allocator (`mem.c`): embedding and verification

The allocator keeps an implicit list of blocks inside one region.  Every block
starts with a one-word header `size_status`; free blocks end with a one-word
footer.  The embedding below follows `Alloc_Mem`, `Free_Mem` and `Init_Mem` of
`mem.c` statement by statement on the 32-bit target (`int` and pointers are
4 bytes wide): memory is a map from byte addresses to the `int` stored there,
`int` arithmetic wraps to 32-bit two's complement, pointer arithmetic wraps
modulo `2^32`, and the bit operators act on the 32-bit patterns.
-/

namespace Mem

/-! ## Machine arithmetic -/

/-- The 32-bit two's complement `int` that an integer result is stored as. -/
def wrap32 (x : Int) : Int := (x + 2147483648) % 4294967296 - 2147483648

/-- The 32-bit address that a pointer computation yields. -/
def ptr32 (x : Int) : Int := x % 4294967296

/-- The unsigned 32-bit pattern of an `int`. -/
def toU32 (x : Int) : Nat := (x % 4294967296).toNat

/-- C `a + b` on `int`. -/
def iadd (a b : Int) : Int := wrap32 (a + b)

/-- C `a - b` on `int`. -/
def isub (a b : Int) : Int := wrap32 (a - b)

/-- C `a & b` on `int`. -/
def band (a b : Int) : Int := wrap32 (Int.ofNat (Nat.land (toU32 a) (toU32 b)))

/-- C `a | b` on `int`. -/
def bor (a b : Int) : Int := wrap32 (Int.ofNat (Nat.lor (toU32 a) (toU32 b)))

/-- C `a % b` on `int` (truncating remainder). -/
def imod (a b : Int) : Int := Int.tmod a b

/-- C `p + n` on `void*` with an `int` offset. -/
def padd (p n : Int) : Int := ptr32 (p + n)

/-- C `p - n` on `void*` with an `int` offset. -/
def psub (p n : Int) : Int := ptr32 (p - n)

/-- The value of `sizeof(blk_hdr*)`, which is also `sizeof(blk_hdr)`. -/
def blk_size : Int := 4

/-! ## State -/

/-- Memory: the `int` stored at each byte address. -/
abbrev Memory := Int → Int

/-- Assignment `((blk_hdr*)a)->size_status = v`. -/
def store (m : Memory) (a v : Int) : Memory := fun x => if x = a then v else m x

/-- The globals of `mem.c` together with memory: `first_blk` (`0` is `NULL`) and
the static flag `allocated_once` of `Init_Mem`. -/
structure Heap where
  mem : Memory
  first_blk : Int
  allocated_once : Int

/-! ## `Alloc_Mem` -/

/-- Lines 78-79 of `Alloc_Mem`: the request plus the header, rounded up to a
multiple of 8, as the `int` variable `size` holds it when the search starts. -/
def roundSize (size : Int) : Int :=
  let size1 :=
    if imod (iadd size blk_size) 8 ≠ 0 then
      iadd (isub 8 (imod (iadd size blk_size) 8)) size
    else size
  iadd size1 blk_size

/-- One iteration of the body of the search loop (lines 84-91): the new values
of `store` and `fit_exist`. -/
def scanStep (m : Memory) (first_blk size current store0 fit_exist : Int) : Int × Int :=
  if band (m current) 1 = 0 then
    if band (m current) (-4) ≥ size then
      if store0 = first_blk ∨ band (m current) (-4) < band (m store0) (-4) then
        (current, 1)
      else (store0, fit_exist)
    else (store0, fit_exist)
  else (store0, fit_exist)

/-- The search loop of `Alloc_Mem` (lines 82-93), run for at most `fuel`
iterations; `none` when the end mark was not reached within them.  The result
is the final `(store, fit_exist)`. -/
def scan (m : Memory) (first_blk size : Int) : Nat → Int → Int → Int → Option (Int × Int)
  | 0, _, _, _ => none
  | fuel + 1, current, store0, fit_exist =>
    if m current ≠ 1 then
      scan m first_blk size fuel (padd current (band (m current) (-4)))
        (scanStep m first_blk size current store0 fit_exist).1
        (scanStep m first_blk size current store0 fit_exist).2
    else some (store0, fit_exist)

/-- Lines 94-104 of `Alloc_Mem`, after the search ended with `store0` and
`fit_exist`; `size` is the rounded size.  Returns the new memory and the
returned pointer (`0` is `NULL`). -/
def allocFinish (m : Memory) (size store0 fit_exist : Int) : Memory × Int :=
  if fit_exist = 0 then (m, 0)
  else if band (m store0) (-4) < size then (m, 0)
  else if band (m store0) (-4) > size then
    let split_header := padd store0 size
    let m1 := store m split_header (bor (isub (band (m store0) (-4)) size) 2)
    let m2 := store m1 store0 (bor (bor (band (m1 store0) 2) size) 1)
    let m3 := store m2
      (psub (padd split_header (band (m2 split_header) (-4))) blk_size)
      (band (m2 split_header) (-4))
    (m3, padd store0 blk_size)
  else (m, padd store0 blk_size)

/-- `Alloc_Mem(size)` with the search loop bounded by `fuel` iterations; `none`
when the loop did not end within them. -/
def Alloc_Mem (fuel : Nat) (h : Heap) (size : Int) : Option (Heap × Int) :=
  if size ≤ 0 then some (h, 0)
  else
    match scan h.mem h.first_blk (roundSize size) fuel h.first_blk h.first_blk 0 with
    | none => none
    | some (store0, fit_exist) =>
      some ({ h with mem := (allocFinish h.mem (roundSize size) store0 fit_exist).1 },
            (allocFinish h.mem (roundSize size) store0 fit_exist).2)

/-! ## `Free_Mem` -/

/-- Lines 128-132 of `Free_Mem`: footer of the freed block, allocated bit
cleared, previous-allocated bit of the next block cleared unless it is the end
mark.  `footer` is the address computed on line 128.  Returns memory and
`flag`. -/
def freeMark (m : Memory) (cur footer : Int) : Memory × Int :=
  let m1 := store m footer (band (m cur) (-4))
  let m2 := store m1 cur (band (m1 cur) (-2))
  if m2 (padd footer 4) = 1 then (m2, 1)
  else (store m2 (padd footer 4) (isub (m2 (padd footer 4)) 2), 0)

/-- Lines 136-145 of `Free_Mem`: merge with the previous block when the
previous-allocated bit of `cur` is clear.  Returns memory and the new `cur`. -/
def freeBack (m : Memory) (cur footer : Int) : Memory × Int :=
  if band (m cur) 2 = 0 then
    let m1 :=
      if band (m (psub cur (m (psub cur 4)))) 2 = 2 then
        store m (psub cur (m (psub cur 4))) (iadd (iadd (m (psub cur 4)) (m footer)) 2)
      else
        store m (psub cur (m (psub cur 4))) (iadd (m (psub cur 4)) (m footer))
    let old_footer_size := m1 footer
    let m2 := store m1 footer (band (m1 (psub cur (m1 (psub cur 4)))) (-4))
    (m2, psub cur (isub (m2 footer) old_footer_size))
  else (m, cur)

/-- Lines 148-156 of `Free_Mem`: merge with the next block when it is free and
`flag` (next block is the end mark) is not set. -/
def freeFwd (m : Memory) (cur footer flag : Int) : Memory :=
  if flag = 1 then m
  else if band (m (padd footer 4)) 1 = 0 then
    let temp := band (m (padd footer 4)) (-4)
    let temp2 := m footer
    let footer1 := padd footer temp
    let m1 := store m footer1 (iadd temp temp2)
    let pbit := band (m1 cur) 3
    store m1 cur (iadd (m1 footer1) pbit)
  else m

/-- Lines 126-156 of `Free_Mem`: the memory after freeing the block whose
header is at `cur`. -/
def freeBody (m : Memory) (cur : Int) : Memory :=
  let footer := psub (padd cur (band (m cur) (-4))) blk_size
  let r1 := freeMark m cur footer
  let r2 := freeBack r1.1 cur footer
  freeFwd r2.1 r2.2 footer r1.2

/-- `Free_Mem(ptr)`: the new state and the returned `int`. -/
def Free_Mem (h : Heap) (ptr : Int) : Heap × Int :=
  if ptr = 0 then (h, -1)
  else if imod (wrap32 ptr) 8 ≠ 0 ∨ band (h.mem (psub ptr blk_size)) 1 = 0 then (h, -1)
  else ({ h with mem := freeBody h.mem (psub ptr blk_size) }, 0)

/-! ## `Init_Mem` -/

/-- `Init_Mem(sizeOfRegion)`.  The collaborators are parameters: `pagesize` is
the result of `getpagesize()`, `fd` the result of `open`, and `space_ptr` the
result of `mmap` (`none` is `MAP_FAILED`); a successful `mmap` zero-fills the
`alloc_size` bytes from `space_ptr`. -/
def Init_Mem (pagesize fd : Int) (space_ptr : Option Int) (h : Heap) (sizeOfRegion : Int) :
    Heap × Int :=
  if h.allocated_once ≠ 0 then (h, -1)
  else if sizeOfRegion ≤ 0 then (h, -1)
  else
    let padsize := imod (isub pagesize (imod sizeOfRegion pagesize)) pagesize
    let alloc_size := iadd sizeOfRegion padsize
    if fd = -1 then (h, -1)
    else
      match space_ptr with
      | none => ({ h with allocated_once := 0 }, -1)
      | some sp =>
        let m0 : Memory := fun x => if sp ≤ x ∧ x < sp + alloc_size then 0 else h.mem x
        let alloc_size1 := isub alloc_size 8
        let first := padd sp 4
        let end_mark := padd first alloc_size1
        let m1 := store m0 first alloc_size1
        let m2 := store m1 first (iadd (m1 first) 2)
        let m3 := store m2 end_mark 1
        let footer := psub (padd first alloc_size1) 4
        let m4 := store m3 footer alloc_size1
        ({ mem := m4, first_blk := first, allocated_once := 1 }, 0)

/-- The state of the program before any call: `first_blk` is `NULL`, the flag
is clear and nothing is mapped. -/
def initial : Heap := { mem := fun _ => 0, first_blk := 0, allocated_once := 0 }

/-! ## The block list and well-formed heaps -/

/-- Size field of a header word, the value of `size_status & -4` for a 32-bit
`int` (lemma `band_neg4`). -/
def sz (x : Int) : Int := x - x % 4

/-- Sum of the size fields of a list of header words. -/
def total : List Int → Int
  | [] => 0
  | x :: xs => sz x + total xs

/-- Memory from address `a` on holds consecutive blocks whose header words are
the given list: each header is in place, and each free block (bit 0 clear)
has its size field in its last word. -/
def Seg (m : Memory) : Int → List Int → Prop
  | _, [] => True
  | a, x :: xs => m a = x ∧ (x % 2 = 0 → m (a + sz x - 4) = sz x) ∧ Seg m (a + sz x) xs

/-- Every block size is a positive multiple of 8. -/
def Sizes (hs : List Int) : Prop := ∀ x ∈ hs, 0 < sz x ∧ sz x % 8 = 0

/-- Status bits along the list; `p` is the allocated bit of the block before
the list (`1` before the first block).  Bit 1 of each header equals the
allocated bit of its predecessor, and a block after a free block is
allocated. -/
def Bits : Int → List Int → Prop
  | _, [] => True
  | p, x :: xs => x % 4 = 2 * p + x % 2 ∧ (p = 0 → x % 2 = 1) ∧ Bits (x % 2) xs

/-- The invariants of the data model for a heap whose block list has the header
words `hs`: the blocks lie back to back from `first_blk` and the end mark
follows them; sizes are positive multiples of 8; free blocks carry footers;
previous-allocated bits are true; no two neighbours are free; payloads are
8-byte aligned; the region lies in the 32-bit address space, and the size of
the mapping, the blocks plus 8 bytes, is an `int`. -/
structure WF (h : Heap) (hs : List Int) : Prop where
  seg : Seg h.mem h.first_blk hs
  endm : h.mem (h.first_blk + total hs) = 1
  sizes : Sizes hs
  bits : Bits 1 hs
  align : h.first_blk % 8 = 4
  lo : 0 < h.first_blk
  hi : h.first_blk + total hs + 4 ≤ 4294967296
  small : total hs ≤ 2147483640
  region : total hs + 8 ≤ 2147483647

/-- The walk of `Dump_Mem` and of the search loop: from header address `a`, add
each block's size field until the end mark; the result lists the visited header
addresses with their header words.  `none` when the end mark is not reached
within `fuel` blocks. -/
def walk (m : Memory) : Nat → Int → Option (List (Int × Int))
  | 0, _ => none
  | fuel + 1, a =>
    if m a = 1 then some []
    else (walk m fuel (padd a (band (m a) (-4)))).map (fun l => (a, m a) :: l)

/-- Header addresses of consecutive blocks starting at `a`. -/
def addrs : Int → List Int → List Int
  | _, [] => []
  | a, x :: xs => a :: addrs (a + sz x) xs

/-- The required block size `R` of a request: `size + 4` rounded up to a
multiple of 8. -/
def reqSize (size : Int) : Int := (size + 4 + 7) / 8 * 8

/-- Allocated bit of the last block of a list, `p` when the list is empty. -/
def lastBit : Int → List Int → Int
  | p, [] => p
  | _, x :: xs => lastBit (x % 2) xs

/-- State of the search loop of `Alloc_Mem` after the blocks `pre` of the list
`hs` have been visited: either nothing fitted so far (`fit_exist` is 0 and
`store` is still `first_blk`), or `store` is the header address of a free block
of the list whose size is at least the rounded request `R`. -/
def ScanInv (fb R : Int) (hs pre : List Int) (st fit : Int) : Prop :=
  (fit = 0 ∧ st = fb ∧ ∀ x ∈ pre, ¬ (x % 2 = 0 ∧ R ≤ sz x)) ∨
  (fit = 1 ∧ ∃ l1 x l2, hs = l1 ++ x :: l2 ∧ st = fb + total l1 ∧ x % 2 = 0 ∧ R ≤ sz x)

/-! ## List-level description of `Free_Mem` -/

/-- List-level effect of the forward half of `Free_Mem`: a new free block of size `S` is placed
before the blocks `post`; it absorbs a free successor, and an allocated successor gets its
previous-allocated bit cleared. -/
def fwdBlocks (S : Int) : List Int → List Int
  | [] => [S + 2]
  | z :: zs => if z % 2 = 0 then (S + sz z + 2) :: zs else (S + 2) :: (z - 2) :: zs

/-! ## Reachable heaps -/

/-- The region size of `Init_Mem`: `n` rounded up to a multiple of the page size. -/
def roundUp (pagesize n : Int) : Int := n + (pagesize - n % pagesize) % pagesize

/-- The address `p` is the payload address of a block that the walk from `first_blk` meets
before the end mark. -/
def OnList (h : Heap) (p : Int) : Prop :=
  ∃ fuel l, walk h.mem fuel h.first_blk = some l ∧ (p - 4) ∈ l.map Prod.fst

/-- What the allocator expects of its platform: the page size is an `int` multiple of 8 that
is at least 16, the rounded region size fits `int`, and the mapping is page aligned and lies
inside the 32-bit address space. -/
structure Env (pagesize sp n : Int) : Prop where
  page16 : 16 ≤ pagesize
  page8 : pagesize % 8 = 0
  pageInt : pagesize ≤ 2147483647
  fits : roundUp pagesize n ≤ 2147483647
  base0 : 0 ≤ sp
  aligned : sp % pagesize = 0
  top : sp + roundUp pagesize n ≤ 4294967296

/-- Heap states reached from a successful `Init_Mem` by calls of `Alloc_Mem` whose request
rounding does not overflow `int` and calls of `Free_Mem` on `NULL` or on the payload address
of a block of the block list. The index is the usable region size fixed by `Init_Mem`. -/
inductive Reach : Int → Heap → Prop
  | init (pagesize fd sp n : Int) (h0 h : Heap) :
      Env pagesize sp n → Init_Mem pagesize fd (some sp) h0 n = (h, 0) →
      Reach (roundUp pagesize n - 8) h
  | alloc (U : Int) (h h1 : Heap) (fuel : Nat) (size p : Int) :
      Reach U h → size ≤ 0 ∨ size + 11 ≤ 2147483647 →
      Alloc_Mem fuel h size = some (h1, p) → Reach U h1
  | free (U : Int) (h h1 : Heap) (p r : Int) :
      Reach U h → p = 0 ∨ OnList h p → Free_Mem h p = (h1, r) → Reach U h1

/-- Heaps that later calls can find: `Later h h1` when `h1` comes from `h` by any calls of
`Alloc_Mem`, `Free_Mem` and `Init_Mem`, with any arguments and any outcome. -/
inductive Later : Heap → Heap → Prop
  | refl (h : Heap) : Later h h
  | alloc (h h1 h2 : Heap) (fuel : Nat) (size p : Int) :
      Later h h1 → Alloc_Mem fuel h1 size = some (h2, p) → Later h h2
  | free (h h1 h2 : Heap) (p r : Int) :
      Later h h1 → Free_Mem h1 p = (h2, r) → Later h h2
  | init (h h1 h2 : Heap) (pagesize fd n r : Int) (sp : Option Int) :
      Later h h1 → Init_Mem pagesize fd sp h1 n = (h2, r) → Later h h2

/-! ## Concrete heaps -/

/-- The heap left by `Init_Mem(4096)` with page size 4096 and the mapping at address 65536. -/
def heap0 : Heap := (Init_Mem 4096 3 (some 65536) initial 4096).1

/-- The heap `heap0` after `Alloc_Mem(20)`. -/
def heap1 : Heap := ((Alloc_Mem 5 heap0 20).getD (heap0, 0)).1

/-- The heap `heap1` after `Alloc_Mem(4)`. -/
def heap2 : Heap := ((Alloc_Mem 5 heap1 4).getD (heap1, 0)).1

/-- The heap `heap2` after `Free_Mem` of the first payload address: a free block of 24
bytes, an allocated block of 8 bytes, a free block of 4056 bytes. -/
def heap3 : Heap := (Free_Mem heap2 65544).1

/-- The heap `heap2` after `Alloc_Mem(12)`. -/
def heap4 : Heap := ((Alloc_Mem 8 heap2 12).getD (heap2, 0)).1

/-- The heap `heap4` after `Alloc_Mem(4)`: allocated blocks of 24, 8, 16 and 8 bytes, then a
free block. -/
def heap5 : Heap := ((Alloc_Mem 8 heap4 4).getD (heap4, 0)).1

/-- The heap `heap0` after `Alloc_Mem(2147483644)`, a request whose rounding overflows. -/
def heapY1 : Heap := ((Alloc_Mem 8 heap0 2147483644).getD (heap0, 0)).1

/-- Size of the block that follows, when it is free; 0 at the end mark or before an
allocated block. -/
def succSize : List Int → Int
  | [] => 0
  | z :: _ => if z % 2 = 0 then sz z else 0

/-- Calls `Free_Mem` on each address in turn; returns the last heap and the return codes. -/
def freeSeq (h : Heap) : List Int → Heap × List Int
  | [] => (h, [])
  | p :: ps =>
    ((freeSeq (Free_Mem h p).1 ps).1, (Free_Mem h p).2 :: (freeSeq (Free_Mem h p).1 ps).2)

/-! ## Decision procedures for concrete heaps -/

/-- The layout predicate can be checked on a concrete memory and list. -/
instance decSeg (m : Memory) : ∀ (a : Int) (l : List Int), Decidable (Seg m a l)
  | _, [] => isTrue trivial
  | a, x :: xs =>
    have := decSeg m (a + sz x) xs
    inferInstanceAs
      (Decidable (m a = x ∧ (x % 2 = 0 → m (a + sz x - 4) = sz x) ∧ Seg m (a + sz x) xs))

/-- The size predicate can be checked on a concrete list. -/
instance decSizes (hs : List Int) : Decidable (Sizes hs) :=
  inferInstanceAs (Decidable (∀ x ∈ hs, 0 < sz x ∧ sz x % 8 = 0))

/-- The status-bit predicate can be checked on a concrete list. -/
instance decBits : ∀ (p : Int) (l : List Int), Decidable (Bits p l)
  | _, [] => isTrue trivial
  | p, x :: xs =>
    have := decBits (x % 2) xs
    inferInstanceAs
      (Decidable (x % 4 = 2 * p + x % 2 ∧ (p = 0 → x % 2 = 1) ∧ Bits (x % 2) xs))

/-- Well-formedness can be checked on a concrete heap and list. -/
instance decWF (h : Heap) (hs : List Int) : Decidable (WF h hs) :=
  decidable_of_iff
    (Seg h.mem h.first_blk hs ∧ h.mem (h.first_blk + total hs) = 1 ∧ Sizes hs ∧ Bits 1 hs ∧
      h.first_blk % 8 = 4 ∧ 0 < h.first_blk ∧ h.first_blk + total hs + 4 ≤ 4294967296 ∧
      total hs ≤ 2147483640 ∧ total hs + 8 ≤ 2147483647)
    ⟨fun ⟨a, b, c, d, e, f, g, i, j⟩ => ⟨a, b, c, d, e, f, g, i, j⟩,
     fun w => ⟨w.seg, w.endm, w.sizes, w.bits, w.align, w.lo, w.hi, w.small, w.region⟩⟩

/-! # Verification -/

/-! ## Bit operators as arithmetic -/

theorem nat_testBit_high (n i : Nat) (h : n < 4294967296) (hi : 32 ≤ i) :
    n.testBit i = false := by
  apply Nat.testBit_lt_two_pow
  calc n < 2 ^ 32 := h
    _ ≤ 2 ^ i := Nat.pow_le_pow_right (by decide) hi

theorem nat_and_mask (k : Nat) (hk : k ≤ 32) (n : Nat) (h : n < 4294967296) :
    Nat.land n (4294967296 - 2 ^ k) = n - n % 2 ^ k := by
  show n &&& (4294967296 - 2 ^ k) = n - n % 2 ^ k
  apply Nat.eq_of_testBit_eq
  intro i
  rw [Nat.testBit_and]
  have e : n - n % 2 ^ k = 2 ^ k * (n >>> k) := by
    rw [Nat.shiftRight_eq_div_pow]
    have := Nat.div_add_mod n (2 ^ k)
    omega
  have e2 : 4294967296 - 2 ^ k = 2 ^ k * (2 ^ (32 - k) - 1) := by
    rw [Nat.mul_sub, ← Nat.pow_add]
    have : k + (32 - k) = 32 := by omega
    rw [this]; norm_num
  rw [e, e2, Nat.testBit_mul_pow_two, Nat.testBit_mul_pow_two, Nat.testBit_shiftRight,
    Nat.testBit_two_pow_sub_one]
  by_cases hik : k ≤ i
  · have e3 : k + (i - k) = i := by omega
    rw [e3]
    by_cases hi : i < 32
    · have : i - k < 32 - k := by omega
      simp [hik, this]
    · rw [nat_testBit_high n i h (by omega)]; simp
  · simp [hik]

theorem nat_and_two (n : Nat) : Nat.land n 2 = n % 4 - n % 2 := by
  show n &&& 2 = _
  have h3 : n &&& 3 = n % 4 := Nat.and_pow_two_sub_one_eq_mod n 2
  have : n &&& 2 = (n &&& 3) &&& 2 := by
    rw [Nat.and_assoc]; rfl
  rw [this, h3]
  have h4 : n % 4 < 4 := Nat.mod_lt _ (by decide)
  have h5 : n % 4 % 2 = n % 2 := by omega
  rw [← h5]
  generalize n % 4 = r at h4
  interval_cases r <;> rfl

theorem nat_or_low (n b : Nat) (hn : n % 4 = 0) (hb : b < 4) : Nat.lor n b = n + b := by
  show n ||| b = n + b
  have e : n = 2 ^ 2 * (n / 4) := by omega
  have hb2 : b < 2 ^ 2 := by simpa using hb
  rw [e, ← Nat.mul_add_lt_is_or hb2]

theorem nat_or_one (n : Nat) (hn : n % 2 = 0) : Nat.lor n 1 = n + 1 := by
  show n ||| 1 = n + 1
  have e : n = 2 ^ 1 * (n / 2) := by omega
  have hb2 : 1 < 2 ^ 1 := by decide
  rw [e, ← Nat.mul_add_lt_is_or hb2]

theorem toU32_cast (x : Int) : ((toU32 x : Nat) : Int) = x % 4294967296 := by
  unfold toU32
  exact Int.toNat_of_nonneg (Int.emod_nonneg _ (by decide))

theorem toU32_lt (x : Int) : toU32 x < 4294967296 := by
  have h := toU32_cast x
  have := Int.emod_lt_of_pos x (show (0 : Int) < 4294967296 by decide)
  omega

theorem band_one (x : Int) : band x 1 = x % 2 := by
  unfold band
  have h1 : toU32 1 = 1 := by decide
  have h2 : Nat.land (toU32 x) 1 = toU32 x % 2 := Nat.and_one_is_mod _
  have h3 := toU32_cast x
  rw [h1, h2]
  simp only [wrap32, Int.ofNat_eq_coe]
  omega

theorem band_three (x : Int) : band x 3 = x % 4 := by
  unfold band
  have h1 : toU32 3 = 3 := by decide
  have h2 : Nat.land (toU32 x) 3 = toU32 x % 4 := Nat.and_pow_two_sub_one_eq_mod _ 2
  have h3 := toU32_cast x
  rw [h1, h2]
  simp only [wrap32, Int.ofNat_eq_coe]
  omega

theorem band_two (x : Int) : band x 2 = x % 4 - x % 2 := by
  unfold band
  have h1 : toU32 2 = 2 := by decide
  have h2 := nat_and_two (toU32 x)
  have h3 := toU32_cast x
  rw [h1, h2]
  simp only [wrap32, Int.ofNat_eq_coe]
  omega

theorem band_neg4 (x : Int) (h : -2147483648 ≤ x ∧ x < 2147483648) : band x (-4) = x - x % 4 := by
  unfold band
  have h1 : toU32 (-4) = 4294967296 - 2 ^ 2 := by decide
  have h2 := nat_and_mask 2 (by decide) (toU32 x) (toU32_lt x)
  have h3 := toU32_cast x
  rw [h1, h2]
  simp only [wrap32, Int.ofNat_eq_coe]
  omega

theorem band_neg2 (x : Int) (h : -2147483648 ≤ x ∧ x < 2147483648) : band x (-2) = x - x % 2 := by
  unfold band
  have h1 : toU32 (-2) = 4294967296 - 2 ^ 1 := by decide
  have h2 := nat_and_mask 1 (by decide) (toU32 x) (toU32_lt x)
  have h3 := toU32_cast x
  rw [h1, h2]
  simp only [wrap32, Int.ofNat_eq_coe]
  omega

theorem bor_low (x b : Int) (hx : -2147483648 ≤ x ∧ x < 2147483644) (h4 : x % 4 = 0)
    (hb : 0 ≤ b ∧ b < 4) : bor x b = x + b := by
  unfold bor
  have h3 := toU32_cast x
  have h5 := toU32_cast b
  have h2 := nat_or_low (toU32 x) (toU32 b) (by omega) (by omega)
  rw [h2]
  simp only [wrap32, Int.ofNat_eq_coe]
  omega

theorem bor_low_left (b x : Int) (hx : -2147483648 ≤ x ∧ x < 2147483644) (h4 : x % 4 = 0)
    (hb : 0 ≤ b ∧ b < 4) : bor b x = x + b := by
  have : bor b x = bor x b := by
    unfold bor
    rw [show Nat.lor (toU32 b) (toU32 x) = Nat.lor (toU32 x) (toU32 b) from Nat.lor_comm _ _]
  rw [this]
  exact bor_low x b hx h4 hb

theorem bor_one (x : Int) (hx : -2147483648 ≤ x ∧ x < 2147483647) (h2 : x % 2 = 0) :
    bor x 1 = x + 1 := by
  unfold bor
  have h3 := toU32_cast x
  have h1 : toU32 1 = 1 := by decide
  have h2 := nat_or_one (toU32 x) (by omega)
  rw [h1, h2]
  simp only [wrap32, Int.ofNat_eq_coe]
  omega

/-! ## Lists of blocks -/

theorem total_append (l1 l2 : List Int) : total (l1 ++ l2) = total l1 + total l2 := by
  induction l1 with
  | nil => simp [total]
  | cons x xs ih =>
    show sz x + total (xs ++ l2) = sz x + total xs + total l2
    rw [ih]; omega

theorem Sizes_cons (x : Int) (xs : List Int) :
    Sizes (x :: xs) ↔ (0 < sz x ∧ sz x % 8 = 0) ∧ Sizes xs := by
  simp [Sizes]

theorem Sizes_append (l1 l2 : List Int) : Sizes (l1 ++ l2) ↔ Sizes l1 ∧ Sizes l2 := by
  simp only [Sizes, List.mem_append]
  constructor
  · intro h
    exact ⟨fun x hx => h x (Or.inl hx), fun x hx => h x (Or.inr hx)⟩
  · rintro ⟨h1, h2⟩ x (hx | hx)
    · exact h1 x hx
    · exact h2 x hx

theorem total_nonneg (hs : List Int) (h : Sizes hs) : 0 ≤ total hs := by
  induction hs with
  | nil => simp [total]
  | cons x xs ih =>
    rw [Sizes_cons] at h
    have := ih h.2
    simp only [total]; omega

theorem Seg_append (m : Memory) (l1 l2 : List Int) (a : Int) :
    Seg m a (l1 ++ l2) ↔ Seg m a l1 ∧ Seg m (a + total l1) l2 := by
  induction l1 generalizing a with
  | nil => simp [Seg, total]
  | cons x xs ih =>
    show (m a = x ∧ (x % 2 = 0 → m (a + sz x - 4) = sz x) ∧ Seg m (a + sz x) (xs ++ l2)) ↔
      (m a = x ∧ (x % 2 = 0 → m (a + sz x - 4) = sz x) ∧ Seg m (a + sz x) xs) ∧
        Seg m (a + (sz x + total xs)) l2
    rw [ih, show a + sz x + total xs = a + (sz x + total xs) by omega]
    tauto

theorem Seg_frame (m m1 : Memory) (l : List Int) (a : Int) (hs : Sizes l) (h : Seg m a l)
    (hf : ∀ x, a ≤ x → x < a + total l → m1 x = m x) : Seg m1 a l := by
  induction l generalizing a with
  | nil => trivial
  | cons x xs ih =>
    rw [Sizes_cons] at hs
    obtain ⟨h1, h2, h3⟩ := h
    have hn := total_nonneg xs hs.2
    simp only [total] at hf
    have hx4 : 0 ≤ x % 4 ∧ x % 4 < 4 := by omega
    have hsz : sz x % 4 = 0 := by omega
    refine ⟨?_, ?_, ?_⟩
    · rw [hf a (by omega) (by omega)]; exact h1
    · intro hfree
      rw [hf _ (by omega) (by omega)]; exact h2 hfree
    · exact ih (a + sz x) hs.2 h3 (fun y hy1 hy2 => hf y (by omega) (by omega))

theorem Bits_append (l1 l2 : List Int) (p : Int) :
    Bits p (l1 ++ l2) ↔ Bits p l1 ∧ Bits (lastBit p l1) l2 := by
  induction l1 generalizing p with
  | nil => simp [Bits, lastBit]
  | cons x xs ih =>
    show (x % 4 = 2 * p + x % 2 ∧ (p = 0 → x % 2 = 1) ∧ Bits (x % 2) (xs ++ l2)) ↔
      (x % 4 = 2 * p + x % 2 ∧ (p = 0 → x % 2 = 1) ∧ Bits (x % 2) xs) ∧
        Bits (lastBit (x % 2) xs) l2
    rw [ih]
    tauto

theorem lastBit_append_cons (l : List Int) (x p : Int) : lastBit p (l ++ [x]) = x % 2 := by
  induction l generalizing p with
  | nil => simp [lastBit]
  | cons y ys ih =>
    show lastBit (y % 2) (ys ++ [x]) = x % 2
    exact ih _

theorem store_same (m : Memory) (a v : Int) : store m a v a = v := by
  simp [store]

theorem store_other (m : Memory) (a v x : Int) (h : x ≠ a) : store m a v x = m x := by
  simp [store, h]

theorem sz_le_total (hs : List Int) (h : Sizes hs) (x : Int) (hx : x ∈ hs) :
    sz x ≤ total hs := by
  induction hs with
  | nil => cases hx
  | cons y ys ih =>
    rw [Sizes_cons] at h
    have hn := total_nonneg ys h.2
    simp only [total]
    rcases List.mem_cons.mp hx with rfl | hx
    · omega
    · have := ih h.2 hx
      omega

/-- A header word of a well-formed list: its size is at least 8 and it is an
`int` on which the bit operators are plain arithmetic. -/
theorem hdr_facts (hs : List Int) (h : Sizes hs) (hsmall : total hs ≤ 2147483640)
    (x : Int) (hx : x ∈ hs) :
    8 ≤ sz x ∧ sz x ≤ total hs ∧ 8 ≤ x ∧ x ≤ 2147483643 ∧ sz x % 8 = 0 ∧
      band x (-4) = sz x ∧ band x 1 = x % 2 := by
  have h1 := h x hx
  have h2 := sz_le_total hs h x hx
  have h3 : x - x % 4 = sz x := rfl
  have h4 : band x (-4) = x - x % 4 := band_neg4 x (by omega)
  refine ⟨by omega, h2, by omega, by omega, h1.2, ?_, band_one x⟩
  rw [h4]; rfl

/-! ## The search loop -/

theorem padd_eq (a b : Int) (h1 : 0 ≤ a + b) (h2 : a + b < 4294967296) : padd a b = a + b := by
  unfold padd ptr32
  exact Int.emod_eq_of_lt h1 h2

theorem psub_eq (a b : Int) (h1 : 0 ≤ a - b) (h2 : a - b < 4294967296) : psub a b = a - b := by
  unfold psub ptr32
  exact Int.emod_eq_of_lt h1 h2

/-- One iteration of the search loop keeps `ScanInv`. -/
theorem scanStep_inv (m : Memory) (fb R cur st fit x : Int) (hs pre xs : List Int)
    (hpre : hs = pre ++ x :: xs) (hcur : cur = fb + total pre)
    (hb4 : band (m cur) (-4) = sz x) (hb1 : band (m cur) 1 = x % 2)
    (hinv : ScanInv fb R hs pre st fit) :
    ScanInv fb R hs (pre ++ [x]) (scanStep m fb R cur st fit).1 (scanStep m fb R cur st fit).2 := by
  have hext : ∀ (q : Int → Prop), (∀ y ∈ pre, q y) → q x → ∀ y ∈ pre ++ [x], q y := by
    intro q h1 h2 y hy
    rcases List.mem_append.mp hy with hy | hy
    · exact h1 y hy
    · rw [List.mem_singleton.mp hy]; exact h2
  unfold scanStep
  simp only [hb4, hb1]
  by_cases hfree : x % 2 = 0
  · rw [if_pos hfree]
    by_cases hfit : sz x ≥ R
    · rw [if_pos hfit]
      by_cases hc : st = fb ∨ sz x < band (m st) (-4)
      · rw [if_pos hc]
        exact Or.inr ⟨rfl, pre, x, xs, hpre, hcur, hfree, hfit⟩
      · rw [if_neg hc]
        rcases hinv with ⟨-, h2, -⟩ | h
        · exact absurd (Or.inl h2) hc
        · exact Or.inr h
    · rw [if_neg hfit]
      rcases hinv with ⟨h1, h2, h3⟩ | h
      · exact Or.inl ⟨h1, h2, hext _ h3 (fun hh => hfit hh.2)⟩
      · exact Or.inr h
  · rw [if_neg hfree]
    rcases hinv with ⟨h1, h2, h3⟩ | h
    · exact Or.inl ⟨h1, h2, hext _ h3 (fun hh => hfree hh.1)⟩
    · exact Or.inr h

/-- Facts about the block `x` at position `pre` of a well-formed list. -/
theorem block_at (m : Memory) (fb : Int) (hs pre xs : List Int) (x : Int)
    (hseg : Seg m fb hs) (hsz : Sizes hs)
    (hlo : 0 < fb) (hhi : fb + total hs + 4 ≤ 4294967296) (hsmall : total hs ≤ 2147483640)
    (hpre : hs = pre ++ x :: xs) :
    m (fb + total pre) = x ∧ 8 ≤ sz x ∧ sz x % 8 = 0 ∧ 8 ≤ x ∧ x ≤ 2147483643 ∧
      0 ≤ total pre ∧ 0 ≤ total xs ∧ total hs = total pre + sz x + total xs ∧
      band x (-4) = sz x ∧ (x % 2 = 0 → m (fb + total pre + sz x - 4) = sz x) := by
  have hxmem : x ∈ hs := by rw [hpre]; simp
  obtain ⟨hx8, -, hx8', hxr, hx0, hband4, -⟩ := hdr_facts hs hsz hsmall x hxmem
  have hseg2 := hseg
  rw [hpre, Seg_append] at hseg2
  obtain ⟨-, hmx, hft, -⟩ := hseg2
  have htot : total hs = total pre + (sz x + total xs) := by
    rw [hpre, total_append]; rfl
  have hszs := hsz
  rw [hpre, Sizes_append, Sizes_cons] at hszs
  have hn1 := total_nonneg pre hszs.1
  have hn2 := total_nonneg xs hszs.2.2
  exact ⟨hmx, hx8, hx0, hx8', hxr, hn1, hn2, by omega, hband4, hft⟩

theorem scan_spec (m : Memory) (fb R : Int) (hs : List Int)
    (hseg : Seg m fb hs) (hend : m (fb + total hs) = 1) (hsz : Sizes hs)
    (hlo : 0 < fb) (hhi : fb + total hs + 4 ≤ 4294967296) (hsmall : total hs ≤ 2147483640) :
    ∀ (post pre : List Int) (cur st fit : Int), hs = pre ++ post →
      cur = fb + total pre → ScanInv fb R hs pre st fit →
      ∃ st1 fit1, ScanInv fb R hs hs st1 fit1 ∧
        ∀ fuel : Nat, post.length < fuel → scan m fb R fuel cur st fit = some (st1, fit1) := by
  intro post
  induction post with
  | nil =>
    intro pre cur st fit hpre hcur hinv
    simp only [List.append_nil] at hpre
    subst hpre
    refine ⟨st, fit, hinv, ?_⟩
    intro fuel hfuel
    have h1 : m cur = 1 := by rw [hcur]; exact hend
    cases fuel with
    | zero => simp at hfuel
    | succ f =>
      unfold scan
      rw [if_neg (by simp [h1])]
  | cons x xs ih =>
    intro pre cur st fit hpre hcur hinv
    obtain ⟨hmx, hx8, -, hx8', hxr, hn1, hn2, htot, hband4, -⟩ :=
      block_at m fb hs pre xs x hseg hsz hlo hhi hsmall hpre
    rw [← hcur] at hmx
    have hpadd : padd cur (sz x) = fb + total (pre ++ [x]) := by
      rw [total_append, padd_eq cur (sz x) (by omega) (by omega)]
      show cur + sz x = fb + (total pre + (sz x + 0))
      omega
    have hne : m cur ≠ 1 := by
      rw [hmx]; intro h; rw [h] at hx8'; exact absurd hx8' (by decide)
    have hb4 : band (m cur) (-4) = sz x := by rw [hmx]; exact hband4
    have hb1 : band (m cur) 1 = x % 2 := by rw [hmx]; exact band_one x
    have hstep := scanStep_inv m fb R cur st fit x hs pre xs hpre hcur hb4 hb1 hinv
    obtain ⟨st1, fit1, hfin, hrun⟩ := ih (pre ++ [x]) (fb + total (pre ++ [x])) _ _
      (by rw [hpre]; simp) rfl hstep
    refine ⟨st1, fit1, hfin, ?_⟩
    intro fuel hfuel
    cases fuel with
    | zero => simp at hfuel
    | succ f =>
      have hlen : xs.length < f := by simpa using hfuel
      unfold scan
      rw [if_pos hne, hb4, hpadd]
      exact hrun f hlen

/-! ## Request rounding -/

theorem reqSize_facts (size : Int) :
    reqSize size % 8 = 0 ∧ size + 4 ≤ reqSize size ∧ reqSize size < size + 12 := by
  unfold reqSize
  omega

theorem roundSize_eq (size : Int) (h0 : 0 < size) (h1 : size + 11 ≤ 2147483647) :
    roundSize size = reqSize size := by
  unfold roundSize reqSize
  have e1 : iadd size blk_size = size + 4 := by
    unfold iadd wrap32 blk_size; omega
  have e2 : imod (size + 4) 8 = (size + 4) % 8 := by
    unfold imod; exact Int.tmod_eq_emod (by omega) (by decide)
  simp only [e1, e2]
  by_cases hz : (size + 4) % 8 = 0
  · rw [if_neg (by simpa using hz)]
    unfold iadd wrap32 blk_size; omega
  · rw [if_pos hz]
    unfold iadd isub wrap32 blk_size; omega

/-! ## Replacing a run of blocks -/

theorem WF_replace (h : Heap) (m1 : Memory) (pre mid mid1 post : List Int)
    (hwf : WF h (pre ++ (mid ++ post)))
    (htot : total mid1 = total mid) (hsz : Sizes mid1)
    (hframe : ∀ a, a < h.first_blk + total pre ∨ h.first_blk + total pre + total mid ≤ a →
      m1 a = h.mem a)
    (hseg : Seg m1 (h.first_blk + total pre) mid1)
    (hbits : Bits (lastBit 1 pre) (mid1 ++ post)) :
    WF { h with mem := m1 } (pre ++ (mid1 ++ post)) := by
  obtain ⟨wseg, wend, wsizes, wbits, walign, wlo, whi, wsmall, wregion⟩ := hwf
  have hT : total (pre ++ (mid1 ++ post)) = total (pre ++ (mid ++ post)) := by
    simp only [total_append, htot]
  rw [Sizes_append, Sizes_append] at wsizes
  obtain ⟨sz1, sz2, sz3⟩ := wsizes
  have n1 := total_nonneg pre sz1
  have n2 := total_nonneg mid sz2
  have n3 := total_nonneg post sz3
  rw [Seg_append, Seg_append] at wseg
  obtain ⟨sg1, sg2, sg3⟩ := wseg
  rw [Bits_append] at wbits
  simp only [total_append] at wend whi wsmall wregion hT
  refine ⟨?_, ?_, ?_, ?_, walign, wlo, ?_, ?_, ?_⟩
  · show Seg m1 h.first_blk (pre ++ (mid1 ++ post))
    rw [Seg_append, Seg_append]
    refine ⟨?_, hseg, ?_⟩
    · exact Seg_frame h.mem m1 pre _ sz1 sg1 (fun a h1 h2 => hframe a (Or.inl h2))
    · rw [htot]
      exact Seg_frame h.mem m1 post _ sz3 sg3 (fun a h1 h2 => hframe a (Or.inr (by omega)))
  · show m1 (h.first_blk + total (pre ++ (mid1 ++ post))) = 1
    simp only [total_append, htot]
    rw [hframe _ (Or.inr (by omega))]
    exact wend
  · rw [Sizes_append, Sizes_append]
    exact ⟨sz1, hsz, sz3⟩
  · rw [Bits_append]
    exact ⟨wbits.1, hbits⟩
  · show h.first_blk + total (pre ++ (mid1 ++ post)) + 4 ≤ 4294967296
    simp only [total_append, htot]; exact whi
  · simp only [total_append, htot]; exact wsmall
  · simp only [total_append, htot]; exact wregion

/-! ## `Alloc_Mem`: the split -/

theorem allocFinish_split (m : Memory) (a R x : Int) (hx : m a = x)
    (hfree : x % 2 = 0) (hR8 : 8 ≤ R) (hRm : R % 8 = 0) (hlt : R < sz x) (hs8 : sz x % 8 = 0)
    (hxr : x ≤ 2147483643) (ha : 0 < a) (hhi : a + sz x + 4 ≤ 4294967296) :
    allocFinish m R a 1 =
      (store (store (store m (a + R) (sz x - R + 2)) a (R + (x % 4 - x % 2) + 1))
        (a + sz x - 4) (sz x - R), a + 4) := by
  have hsz : sz x = x - x % 4 := rfl
  have b4 : band (m a) (-4) = sz x := by rw [hx]; exact band_neg4 x (by omega)
  have e1 : padd a R = a + R := padd_eq a R (by omega) (by omega)
  have e2 : isub (sz x) R = sz x - R := by unfold isub wrap32; omega
  have e3 : bor (sz x - R) 2 = sz x - R + 2 :=
    bor_low (sz x - R) 2 (by omega) (by omega) (by decide)
  have e4 : store m (a + R) (sz x - R + 2) a = x := by
    rw [store_other _ _ _ _ (by omega)]; exact hx
  have e5 : band x 2 = x % 4 - x % 2 := band_two x
  have e6 : bor (x % 4 - x % 2) R = R + (x % 4 - x % 2) :=
    bor_low_left (x % 4 - x % 2) R (by omega) (by omega) (by omega)
  have e7 : bor (R + (x % 4 - x % 2)) 1 = R + (x % 4 - x % 2) + 1 :=
    bor_one _ (by omega) (by omega)
  have e8 : store (store m (a + R) (sz x - R + 2)) a (R + (x % 4 - x % 2) + 1) (a + R)
      = sz x - R + 2 := by
    rw [store_other _ _ _ _ (by omega), store_same]
  have e9 : band (sz x - R + 2) (-4) = sz x - R := by
    rw [band_neg4 _ (by omega)]; omega
  have e10 : padd (a + R) (sz x - R) = a + sz x := by
    rw [padd_eq _ _ (by omega) (by omega)]; omega
  have e11 : psub (a + sz x) blk_size = a + sz x - 4 := by
    unfold blk_size; exact psub_eq _ _ (by omega) (by omega)
  have e12 : padd a blk_size = a + 4 := by
    unfold blk_size; exact padd_eq _ _ (by omega) (by omega)
  unfold allocFinish
  rw [if_neg (by decide), b4, if_neg (by omega), if_pos (by omega)]
  simp only [e1, e2, e3, e4, e5, e6, e7, e8, e9, e10, e11, e12]

theorem allocFinish_exact (m : Memory) (a R x : Int) (hx : m a = x)
    (heq : sz x = R) (hx0 : -2147483648 ≤ x) (hxr : x ≤ 2147483643) (ha : 0 < a)
    (hhi : a + 4 < 4294967296) :
    allocFinish m R a 1 = (m, a + 4) := by
  have hsz : sz x = x - x % 4 := rfl
  have b4 : band (m a) (-4) = sz x := by rw [hx]; exact band_neg4 x (by omega)
  have e12 : padd a blk_size = a + 4 := by
    unfold blk_size; exact padd_eq _ _ (by omega) (by omega)
  unfold allocFinish
  rw [if_neg (by decide), b4, if_neg (by omega), if_neg (by omega), e12]

/-! ## `Alloc_Mem` on a well-formed heap -/

/-- A free block of a well-formed list has its previous-allocated bit set. -/
theorem free_pbit (p : Int) (pre xs : List Int) (x : Int) (hp : p = 1)
    (hb : Bits p (pre ++ x :: xs)) (hfree : x % 2 = 0) : x % 4 = 2 := by
  rw [Bits_append] at hb
  obtain ⟨-, h1, h2, -⟩ := hb
  omega

/-- The three outcomes of `Alloc_Mem` on a well-formed heap, for a positive request whose
rounding does not overflow: no fit, exact fit, split. -/
theorem alloc_spec (h : Heap) (hs : List Int) (hwf : WF h hs) (size : Int)
    (h0 : 0 < size) (h1 : size + 11 ≤ 2147483647) :
    ((∀ x ∈ hs, ¬ (x % 2 = 0 ∧ reqSize size ≤ sz x)) ∧
        ∀ fuel : Nat, hs.length < fuel → Alloc_Mem fuel h size = some (h, 0)) ∨
    (∃ l1 x l2, hs = l1 ++ x :: l2 ∧ x % 2 = 0 ∧ reqSize size ≤ sz x ∧
      ((sz x = reqSize size ∧ ∀ fuel : Nat, hs.length < fuel →
          Alloc_Mem fuel h size = some (h, h.first_blk + total l1 + 4)) ∨
       (reqSize size < sz x ∧ ∀ fuel : Nat, hs.length < fuel →
          Alloc_Mem fuel h size =
            some ({ h with mem :=
                    (store (store (store h.mem (h.first_blk + total l1 + reqSize size)
                        (sz x - reqSize size + 2))
                      (h.first_blk + total l1) (reqSize size + 3))
                      (h.first_blk + total l1 + sz x - 4) (sz x - reqSize size)) },
                  h.first_blk + total l1 + 4)))) := by
  obtain ⟨st1, fit1, hinv, hscan⟩ :=
    scan_spec h.mem h.first_blk (reqSize size) hs hwf.seg hwf.endm hwf.sizes hwf.lo hwf.hi
      hwf.small hs [] h.first_blk h.first_blk 0 (by simp) (by simp [total])
      (Or.inl ⟨rfl, rfl, by simp⟩)
  have hR := reqSize_facts size
  have hrs := roundSize_eq size h0 h1
  have hunf : ∀ fuel : Nat, hs.length < fuel → Alloc_Mem fuel h size =
      some ({ h with mem := (allocFinish h.mem (reqSize size) st1 fit1).1 },
        (allocFinish h.mem (reqSize size) st1 fit1).2) := by
    intro fuel hf
    unfold Alloc_Mem
    rw [if_neg (not_le.mpr h0), hrs, hscan fuel hf]
  rcases hinv with ⟨hfit, -, hnone⟩ | ⟨hfit, l1, x, l2, hsplit, hst, hfree, hge⟩
  · left
    refine ⟨hnone, ?_⟩
    intro fuel hf
    rw [hunf fuel hf, hfit]
    unfold allocFinish
    rw [if_pos rfl]
  · right
    refine ⟨l1, x, l2, hsplit, hfree, hge, ?_⟩
    obtain ⟨hmx, hx8, hx8m, hxlo, hxr, hp0, hq0, htot, -, -⟩ :=
      block_at h.mem h.first_blk hs l1 l2 x hwf.seg hwf.sizes hwf.lo hwf.hi hwf.small hsplit
    have hlo := hwf.lo
    have hhi := hwf.hi
    have hbits := hwf.bits
    rw [hsplit] at hbits
    have hx4 := free_pbit 1 l1 l2 x rfl hbits hfree
    rcases eq_or_lt_of_le hge with heq | hlt
    · left
      refine ⟨heq.symm, ?_⟩
      have e := allocFinish_exact h.mem (h.first_blk + total l1) (reqSize size) x hmx heq.symm
        (by omega) hxr (by omega) (by omega)
      intro fuel hf
      rw [hunf fuel hf, hfit, hst, e]
    · right
      refine ⟨hlt, ?_⟩
      have e := allocFinish_split h.mem (h.first_blk + total l1) (reqSize size) x hmx hfree
        (by omega) hR.1 hlt hx8m hxr (by omega) (by omega)
      have e3 : reqSize size + (x % 4 - x % 2) + 1 = reqSize size + 3 := by omega
      rw [e3] at e
      intro fuel hf
      rw [hunf fuel hf, hfit, hst, e]

/-- Splitting a free block keeps the heap well formed: the block `x` is replaced by an
allocated block of size `R` followed by a free remainder. -/
theorem split_WF (h : Heap) (l1 l2 : List Int) (x R : Int) (hwf : WF h (l1 ++ x :: l2))
    (hfree : x % 2 = 0) (hR0 : 0 < R) (hR8 : R % 8 = 0) (hlt : R < sz x) :
    WF { h with mem :=
          (store (store (store h.mem (h.first_blk + total l1 + R) (sz x - R + 2))
            (h.first_blk + total l1) (R + 3))
            (h.first_blk + total l1 + sz x - 4) (sz x - R)) }
       (l1 ++ (R + 3) :: (sz x - R + 2) :: l2) := by
  have hsx : sz x = x - x % 4 := rfl
  obtain ⟨-, hx8, hx8m, -, -, -, -, -, -, -⟩ :=
    block_at h.mem h.first_blk (l1 ++ x :: l2) l1 l2 x hwf.seg hwf.sizes hwf.lo hwf.hi
      hwf.small rfl
  have s1 : sz (R + 3) = R := by unfold sz; omega
  have s2 : sz (sz x - R + 2) = sz x - R := by unfold sz; omega
  have hbits := hwf.bits
  rw [Bits_append] at hbits
  obtain ⟨-, hb1, hb2, hb3⟩ := hbits
  have key := WF_replace h
    (store (store (store h.mem (h.first_blk + total l1 + R) (sz x - R + 2))
            (h.first_blk + total l1) (R + 3))
            (h.first_blk + total l1 + sz x - 4) (sz x - R))
    l1 [x] [R + 3, sz x - R + 2] l2 hwf
    (by show sz (R + 3) + (sz (sz x - R + 2) + 0) = sz x + 0; rw [s1, s2]; omega)
    (by
      intro y hy
      simp only [List.mem_cons, List.mem_singleton, List.not_mem_nil, or_false] at hy
      rcases hy with hy | hy
      · rw [hy, s1]; omega
      · rw [hy, s2]; omega)
    (by
      intro a ha
      have t : total [x] = sz x := by show sz x + 0 = sz x; omega
      rw [t] at ha
      rw [store_other _ _ _ _ (by omega), store_other _ _ _ _ (by omega),
        store_other _ _ _ _ (by omega)])
    (by
      refine ⟨?_, ?_, ?_, ?_, trivial⟩
      · rw [store_other _ _ _ _ (by omega), store_same]
      · intro hh; omega
      · rw [s1, store_other _ _ _ _ (by omega), store_other _ _ _ _ (by omega), store_same]
      · intro _
        rw [s1, s2]
        have e : h.first_blk + total l1 + R + (sz x - R) - 4 = h.first_blk + total l1 + sz x - 4 := by
          omega
        rw [e, store_same])
    (by
      refine ⟨by omega, by omega, ?_, by omega, ?_⟩
      · have e : (R + 3) % 2 = 1 := by omega
        rw [e]; omega
      · have e : (sz x - R + 2) % 2 = x % 2 := by omega
        rw [e]; exact hb3)
  exact key

/-! ## `Free_Mem`: the three stages -/

theorem isub_eq (a b : Int) (h1 : -2147483648 ≤ a - b) (h2 : a - b < 2147483648) :
    isub a b = a - b := by
  unfold isub wrap32; omega

theorem iadd_eq (a b : Int) (h1 : -2147483648 ≤ a + b) (h2 : a + b < 2147483648) :
    iadd a b = a + b := by
  unfold iadd wrap32; omega

/-- Marking the block free: footer written, allocated bit cleared, and the next header's
previous-allocated bit cleared unless the next word is the end mark. -/
theorem freeMark_eq (m : Memory) (a x nx : Int) (hma : m a = x) (hx1 : x % 2 = 1)
    (hx8 : 8 ≤ x) (hxr : x ≤ 2147483643) (ha : 0 < a) (hhi : a + sz x + 4 ≤ 4294967296)
    (hn : m (a + sz x) = nx) (hnr : -2147483646 ≤ nx) (hnu : nx ≤ 2147483647) :
    freeMark m a (a + sz x - 4) =
      if nx = 1 then (store (store m (a + sz x - 4) (sz x)) a (x - 1), 1)
      else (store (store (store m (a + sz x - 4) (sz x)) a (x - 1)) (a + sz x) (nx - 2), 0) := by
  have hsx : sz x = x - x % 4 := rfl
  have b4 : band (m a) (-4) = sz x := by rw [hma]; exact band_neg4 x (by omega)
  have e1 : store m (a + sz x - 4) (sz x) a = x := by
    rw [store_other _ _ _ _ (by omega)]; exact hma
  have e2 : band x (-2) = x - 1 := by rw [band_neg2 x (by omega)]; omega
  have e3 : padd (a + sz x - 4) 4 = a + sz x := by
    rw [padd_eq _ _ (by omega) (by omega)]; omega
  have e4 : store (store m (a + sz x - 4) (sz x)) a (x - 1) (a + sz x) = nx := by
    rw [store_other _ _ _ _ (by omega), store_other _ _ _ _ (by omega)]; exact hn
  have e5 : isub nx 2 = nx - 2 := isub_eq nx 2 (by omega) (by omega)
  unfold freeMark
  simp only [b4, e1, e2, e3, e4, e5]

/-- No backward merge when the previous-allocated bit of the freed block is set. -/
theorem freeBack_no (m : Memory) (a ft c : Int) (hma : m a = c) (hc : 2 ≤ c % 4) :
    freeBack m a ft = (m, a) := by
  have e : band (m a) 2 ≠ 0 := by rw [hma, band_two]; omega
  unfold freeBack
  rw [if_neg e]

/-- Backward merge: the predecessor (found through its footer) absorbs the freed block. -/
theorem freeBack_yes (m : Memory) (a ft c ps y s : Int) (hma : m a = c) (hc : c % 4 < 2)
    (hps : m (a - 4) = ps) (hps8 : 8 ≤ ps) (hps4 : ps % 4 = 0)
    (hy : m (a - ps) = y) (hy4 : y % 4 = 2)
    (hft : m ft = s) (hs8 : 8 ≤ s) (hs4 : s % 4 = 0) (hfa : a < ft)
    (hlo : 0 < a - ps) (hhi : a < 4294967296) (hsum : ps + s + 2 < 2147483648) :
    freeBack m a ft = (store (store m (a - ps) (ps + s + 2)) ft (ps + s), a - ps) := by
  have e0 : band (m a) 2 = 0 := by rw [hma, band_two]; omega
  have e1 : psub a 4 = a - 4 := psub_eq a 4 (by omega) (by omega)
  have e2 : psub a ps = a - ps := psub_eq a ps (by omega) (by omega)
  have e3 : band y 2 = 2 := by rw [band_two]; omega
  have e4 : iadd ps s = ps + s := iadd_eq ps s (by omega) (by omega)
  have e5 : iadd (ps + s) 2 = ps + s + 2 := iadd_eq _ 2 (by omega) (by omega)
  have e6 : store m (a - ps) (ps + s + 2) ft = s := by
    rw [store_other _ _ _ _ (by omega)]; exact hft
  have e7 : store m (a - ps) (ps + s + 2) (a - 4) = ps := by
    rw [store_other _ _ _ _ (by omega)]; exact hps
  have e8 : store m (a - ps) (ps + s + 2) (a - ps) = ps + s + 2 := store_same _ _ _
  have e9 : band (ps + s + 2) (-4) = ps + s := by
    rw [band_neg4 _ (by omega)]; omega
  have e10 : store (store m (a - ps) (ps + s + 2)) ft (ps + s) ft = ps + s := store_same _ _ _
  have e11 : isub (ps + s) s = ps := by rw [isub_eq _ _ (by omega) (by omega)]; omega
  unfold freeBack
  rw [if_pos e0]
  simp only [e1, hps, e2, hy, e3, hft, e4, e5, e6, e7, e8, e9, e10, e11, if_true]

/-- No forward merge next to the end mark. -/
theorem freeFwd_flag (m : Memory) (cur ft : Int) : freeFwd m cur ft 1 = m := by
  unfold freeFwd
  rw [if_pos rfl]

/-- No forward merge when the next block is allocated. -/
theorem freeFwd_alloc (m : Memory) (cur ft w : Int) (h0 : 0 ≤ ft + 4) (h1 : ft + 4 < 4294967296)
    (hw : m (ft + 4) = w) (hw1 : w % 2 = 1) : freeFwd m cur ft 0 = m := by
  have e1 : padd ft 4 = ft + 4 := padd_eq ft 4 h0 h1
  have e2 : band (m (padd ft 4)) 1 ≠ 0 := by rw [e1, hw, band_one]; omega
  unfold freeFwd
  rw [if_neg (by decide), if_neg e2]

/-- Forward merge: the freed block absorbs the free block that follows it. -/
theorem freeFwd_free (m : Memory) (cur ft w S c : Int) (h0 : 0 ≤ ft) (h1 : ft + 4 + w ≤ 4294967296)
    (hw : m (ft + 4) = w) (hw4 : w % 4 = 0) (hw8 : 8 ≤ w)
    (hft : m ft = S) (hS0 : 0 ≤ S) (hsum : S + w + 4 < 2147483648)
    (hc : m cur = c) (hcf : cur < ft) :
    freeFwd m cur ft 0 = store (store m (ft + w) (w + S)) cur (w + S + c % 4) := by
  have e9 : iadd (w + S) (c % 4) = w + S + c % 4 := iadd_eq _ _ (by omega) (by omega)
  have e1 : padd ft 4 = ft + 4 := padd_eq ft 4 (by omega) (by omega)
  have e2 : band w 1 = 0 := by rw [band_one]; omega
  have e3 : band w (-4) = w := by rw [band_neg4 _ (by omega)]; omega
  have e4 : padd ft w = ft + w := padd_eq ft w (by omega) (by omega)
  have e5 : iadd w S = w + S := iadd_eq w S (by omega) (by omega)
  have e6 : store m (ft + w) (w + S) cur = c := by
    rw [store_other _ _ _ _ (by omega)]; exact hc
  have e7 : band c 3 = c % 4 := band_three c
  have e8 : store m (ft + w) (w + S) (ft + w) = w + S := store_same _ _ _
  unfold freeFwd
  rw [if_neg (by decide)]
  simp only [e1, hw, e2, e3, hft, e4, e5, e6, e7, e8, e9, if_true]

/-! ## `Free_Mem` on a well-formed heap -/

theorem total_mod8 (hs : List Int) (h : Sizes hs) : total hs % 8 = 0 := by
  induction hs with
  | nil => rfl
  | cons x xs ih =>
    rw [Sizes_cons] at h
    have h2 := ih h.2
    show (sz x + total xs) % 8 = 0
    omega

/-- Last stage of `Free_Mem`: once the new free block of size `total mid0` is in place at
the position of the blocks `mid0`, the forward merge leaves a well-formed heap. -/
theorem free_final (h : Heap) (preA mid0 post : List Int) (m2 : Memory) (flag : Int)
    (hwf : WF h (preA ++ (mid0 ++ post))) (hS8 : 8 ≤ total mid0)
    (hlast : lastBit 1 preA = 1) (hb : Bits 1 post)
    (hA : m2 (h.first_blk + total preA) = total mid0 + 2)
    (hF : m2 (h.first_blk + total preA + total mid0 - 4) = total mid0)
    (hframe : ∀ addr, addr < h.first_blk + total preA ∨
        h.first_blk + total preA + total mid0 < addr → m2 addr = h.mem addr)
    (hend : post = [] → m2 (h.first_blk + total preA + total mid0) = 1 ∧ flag = 1)
    (hnx : ∀ z zs, post = z :: zs →
        m2 (h.first_blk + total preA + total mid0) = z - 2 ∧ flag = 0) :
    WF { h with mem := (freeFwd m2 (h.first_blk + total preA)
          (h.first_blk + total preA + total mid0 - 4) flag) }
      (preA ++ fwdBlocks (total mid0) post) ∧
    (freeFwd m2 (h.first_blk + total preA)
          (h.first_blk + total preA + total mid0 - 4) flag) (h.first_blk + total preA) % 2 = 0 ∧
    ∀ addr, h.first_blk + total preA < addr →
      addr < h.first_blk + total preA + total mid0 - 4 →
      (freeFwd m2 (h.first_blk + total preA)
          (h.first_blk + total preA + total mid0 - 4) flag) addr = m2 addr := by
  have hsz := hwf.sizes
  rw [Sizes_append, Sizes_append] at hsz
  obtain ⟨sz1, sz2, sz3⟩ := hsz
  have n1 := total_nonneg preA sz1
  have n3 := total_nonneg post sz3
  have m8 := total_mod8 mid0 sz2
  have htot : total (preA ++ (mid0 ++ post)) = total preA + (total mid0 + total post) := by
    rw [total_append, total_append]
  have hlo := hwf.lo
  have hhi := hwf.hi
  have hsmall := hwf.small
  have hendm := hwf.endm
  rw [htot] at hhi hsmall hendm
  have sS : sz (total mid0 + 2) = total mid0 := by unfold sz; omega
  cases post with
  | nil =>
    obtain ⟨he1, he2⟩ := hend rfl
    have t0 : total ([] : List Int) = 0 := rfl
    rw [t0] at hendm
    rw [he2, freeFwd_flag]
    refine ⟨WF_replace h m2 preA mid0 [total mid0 + 2] [] hwf
      (by show sz (total mid0 + 2) + 0 = total mid0; rw [sS]; omega)
      (by intro y hy; rw [List.mem_singleton.mp hy, sS]; omega)
      (by
        intro a ha
        rcases ha with ha | ha
        · exact hframe a (Or.inl ha)
        · rcases eq_or_lt_of_le ha with ha | ha
          · rw [← ha, he1]
            have e : h.first_blk + (total preA + (total mid0 + 0)) =
                h.first_blk + total preA + total mid0 := by omega
            rw [e] at hendm
            exact hendm.symm
          · exact hframe a (Or.inr ha))
      (by
        refine ⟨hA, ?_, trivial⟩
        intro _
        rw [sS]; exact hF)
      (by
        rw [hlast]
        refine ⟨by omega, by omega, trivial⟩), ?_, ?_⟩
    · rw [hA]; omega
    · intro addr _ _; rfl
  | cons z zs =>
    obtain ⟨hz1, hz2⟩ := hnx z zs rfl
    rw [Sizes_cons] at sz3
    have n4 := total_nonneg zs sz3.2
    have tz : total (z :: zs) = sz z + total zs := rfl
    rw [tz] at hhi hsmall hendm
    have hsz : sz z = z - z % 4 := rfl
    obtain ⟨hb1, hb2, hb3⟩ := hb
    have hre : preA ++ (mid0 ++ z :: zs) = preA ++ ((mid0 ++ [z]) ++ zs) := by simp
    rw [hre] at hwf
    have tm : total (mid0 ++ [z]) = total mid0 + sz z := by
      rw [total_append]; show total mid0 + (sz z + 0) = _; omega
    by_cases hzf : z % 2 = 0
    · have hw : z - 2 = sz z := by omega
      have hz8 : 8 ≤ sz z := by omega
      have e : freeFwd m2 (h.first_blk + total preA)
          (h.first_blk + total preA + total mid0 - 4) flag =
          store (store m2 (h.first_blk + total preA + total mid0 - 4 + sz z)
            (sz z + total mid0)) (h.first_blk + total preA)
            (sz z + total mid0 + (total mid0 + 2) % 4) := by
        rw [hz2]
        exact freeFwd_free m2 _ _ (sz z) (total mid0) (total mid0 + 2) (by omega) (by omega)
          (by
            have e2 : h.first_blk + total preA + total mid0 - 4 + 4 =
              h.first_blk + total preA + total mid0 := by omega
            rw [e2, hz1, hw])
          (by omega) hz8 hF (by omega) (by omega) hA (by omega)
      have e4 : sz z + total mid0 + (total mid0 + 2) % 4 = total mid0 + sz z + 2 := by omega
      have e5 : sz z + total mid0 = total mid0 + sz z := by omega
      have e6 : h.first_blk + total preA + total mid0 - 4 + sz z =
          h.first_blk + total preA + (total mid0 + sz z) - 4 := by omega
      rw [e, e4, e5, e6]
      have hfb : fwdBlocks (total mid0) (z :: zs) = [total mid0 + sz z + 2] ++ zs := by
        show (if z % 2 = 0 then _ else _) = _
        rw [if_pos hzf]; rfl
      rw [hfb]
      have s3 : sz (total mid0 + sz z + 2) = total mid0 + sz z := by unfold sz; omega
      refine ⟨WF_replace h _ preA (mid0 ++ [z]) [total mid0 + sz z + 2] zs hwf
        (by
          rw [tm]
          show sz (total mid0 + sz z + 2) + 0 = _
          rw [s3]; omega)
        (by
          intro y hy
          rw [List.mem_singleton.mp hy, s3]; omega)
        (by
          intro a ha
          rw [tm] at ha
          rw [store_other _ _ _ _ (by omega), store_other _ _ _ _ (by omega)]
          exact hframe a (by omega))
        (by
          refine ⟨store_same _ _ _, ?_, trivial⟩
          intro _
          rw [s3, store_other _ _ _ _ (by omega), store_same])
        (by
          rw [hlast]
          refine ⟨by omega, by omega, ?_⟩
          have e3 : (total mid0 + sz z + 2) % 2 = z % 2 := by omega
          rw [e3]; exact hb3), ?_, ?_⟩
      · rw [store_same]; omega
      · intro addr h1 h2
        rw [store_other _ _ _ _ (by omega), store_other _ _ _ _ (by omega)]
    · have e : freeFwd m2 (h.first_blk + total preA)
          (h.first_blk + total preA + total mid0 - 4) flag = m2 := by
        rw [hz2]
        exact freeFwd_alloc m2 _ _ (z - 2) (by omega) (by omega)
          (by
            have e2 : h.first_blk + total preA + total mid0 - 4 + 4 =
              h.first_blk + total preA + total mid0 := by omega
            rw [e2]; exact hz1)
          (by omega)
      rw [e]
      have hfb : fwdBlocks (total mid0) (z :: zs) = [total mid0 + 2, z - 2] ++ zs := by
        show (if z % 2 = 0 then _ else _) = _
        rw [if_neg hzf]; rfl
      rw [hfb]
      have s2 : sz (z - 2) = sz z := by unfold sz; omega
      refine ⟨WF_replace h m2 preA (mid0 ++ [z]) [total mid0 + 2, z - 2] zs hwf
        (by
          rw [tm]
          show sz (total mid0 + 2) + (sz (z - 2) + 0) = _
          rw [sS, s2]; omega)
        (by
          intro y hy
          simp only [List.mem_cons, List.mem_singleton, List.not_mem_nil, or_false] at hy
          rcases hy with hy | hy
          · rw [hy, sS]; omega
          · rw [hy, s2]; exact sz3.1)
        (by
          intro a ha
          rw [tm] at ha
          exact hframe a (by omega))
        (by
          refine ⟨hA, ?_, ?_, ?_, trivial⟩
          · intro _; rw [sS]; exact hF
          · rw [sS]; exact hz1
          · intro hh; omega)
        (by
          rw [hlast]
          refine ⟨by omega, by omega, by omega, by omega, ?_⟩
          have e3 : (z - 2) % 2 = z % 2 := by omega
          rw [e3]; exact hb3), ?_, ?_⟩
      · rw [hA]; omega
      · intro addr _ _; rfl

theorem imod8_wrap (p : Int) : imod (wrap32 p) 8 = 0 ↔ p % 8 = 0 := by
  unfold imod
  constructor
  · intro h
    have h2 := Int.emod_eq_zero_of_dvd (Int.dvd_of_tmod_eq_zero h)
    unfold wrap32 at h2; omega
  · intro h
    apply Int.tmod_eq_zero_of_dvd
    apply Int.dvd_of_emod_eq_zero
    unfold wrap32; omega

/-- What `freeMark` leaves in memory. -/
theorem freeMark_facts (m : Memory) (a x nx : Int) (hma : m a = x) (hx1 : x % 2 = 1)
    (hx8 : 8 ≤ x) (hxr : x ≤ 2147483643) (ha : 0 < a) (hhi : a + sz x + 4 ≤ 4294967296)
    (hn : m (a + sz x) = nx) (hnr : -2147483646 ≤ nx) (hnu : nx ≤ 2147483647) :
    (freeMark m a (a + sz x - 4)).1 a = x - 1 ∧
    (freeMark m a (a + sz x - 4)).1 (a + sz x - 4) = sz x ∧
    (∀ addr, addr ≠ a → addr ≠ a + sz x - 4 → addr ≠ a + sz x →
      (freeMark m a (a + sz x - 4)).1 addr = m addr) ∧
    (nx = 1 → (freeMark m a (a + sz x - 4)).1 (a + sz x) = 1 ∧
      (freeMark m a (a + sz x - 4)).2 = 1) ∧
    (nx ≠ 1 → (freeMark m a (a + sz x - 4)).1 (a + sz x) = nx - 2 ∧
      (freeMark m a (a + sz x - 4)).2 = 0) := by
  have hsx : sz x = x - x % 4 := rfl
  rw [freeMark_eq m a x nx hma hx1 hx8 hxr ha hhi hn hnr hnu]
  by_cases h1 : nx = 1
  · rw [if_pos h1]
    dsimp only
    refine ⟨store_same _ _ _, ?_, ?_, ?_, fun hh => absurd h1 hh⟩
    · rw [store_other _ _ _ _ (by omega), store_same]
    · intro addr h2 h3 _
      rw [store_other _ _ _ _ h2, store_other _ _ _ _ h3]
    · intro _
      refine ⟨?_, rfl⟩
      show store (store m (a + sz x - 4) (sz x)) a (x - 1) (a + sz x) = 1
      rw [store_other _ _ _ _ (by omega), store_other _ _ _ _ (by omega), hn, h1]
  · rw [if_neg h1]
    dsimp only
    refine ⟨?_, ?_, ?_, fun hh => absurd hh h1, ?_⟩
    · show store (store (store m (a + sz x - 4) (sz x)) a (x - 1)) (a + sz x) (nx - 2) a = x - 1
      rw [store_other _ _ _ _ (by omega), store_same]
    · show store (store (store m (a + sz x - 4) (sz x)) a (x - 1)) (a + sz x) (nx - 2)
        (a + sz x - 4) = sz x
      rw [store_other _ _ _ _ (by omega), store_other _ _ _ _ (by omega), store_same]
    · intro addr h2 h3 h4
      show store (store (store m (a + sz x - 4) (sz x)) a (x - 1)) (a + sz x) (nx - 2) addr = m addr
      rw [store_other _ _ _ _ h4, store_other _ _ _ _ h2, store_other _ _ _ _ h3]
    · intro _
      exact ⟨store_same _ _ _, rfl⟩

theorem freeBody_eq (m : Memory) (a x : Int) (hma : m a = x)
    (hx8 : 8 ≤ x) (hxr : x ≤ 2147483643) (ha : 0 < a) (hhi : a + sz x + 4 ≤ 4294967296) :
    freeBody m a =
      freeFwd (freeBack (freeMark m a (a + sz x - 4)).1 a (a + sz x - 4)).1
        (freeBack (freeMark m a (a + sz x - 4)).1 a (a + sz x - 4)).2 (a + sz x - 4)
        (freeMark m a (a + sz x - 4)).2 := by
  have hsx : sz x = x - x % 4 := rfl
  have b4 : band (m a) (-4) = sz x := by rw [hma]; exact band_neg4 x (by omega)
  have e1 : padd a (sz x) = a + sz x := padd_eq _ _ (by omega) (by omega)
  have e2 : psub (a + sz x) blk_size = a + sz x - 4 := by
    unfold blk_size; exact psub_eq _ _ (by omega) (by omega)
  unfold freeBody
  simp only [b4, e1, e2]

/-- The call `Free_Mem(a + 4)` on an allocated block of the list passes both checks. -/
theorem free_entry (h : Heap) (pre post : List Int) (x : Int) (hwf : WF h (pre ++ x :: post))
    (hx : x % 2 = 1) :
    Free_Mem h (h.first_blk + total pre + 4) =
      ({ h with mem := freeBody h.mem (h.first_blk + total pre) }, 0) := by
  obtain ⟨hmx, hx8, hx8m, hxlo, hxr, hp0, hq0, htot, -, -⟩ :=
    block_at h.mem h.first_blk (pre ++ x :: post) pre post x hwf.seg hwf.sizes hwf.lo hwf.hi
      hwf.small rfl
  have hsz := hwf.sizes
  rw [Sizes_append] at hsz
  have m8 := total_mod8 pre hsz.1
  have hlo := hwf.lo
  have hhi := hwf.hi
  have hal := hwf.align
  rw [htot] at hhi
  have e1 : ¬ (h.first_blk + total pre + 4 = 0) := by omega
  have e2 : psub (h.first_blk + total pre + 4) blk_size = h.first_blk + total pre := by
    unfold blk_size
    rw [psub_eq _ _ (by omega) (by omega)]; omega
  have e3 : imod (wrap32 (h.first_blk + total pre + 4)) 8 = 0 :=
    (imod8_wrap _).mpr (by omega)
  have e4 : band (h.mem (h.first_blk + total pre)) 1 = 1 := by
    rw [hmx, band_one]; exact hx
  unfold Free_Mem
  rw [if_neg e1, e2, e3, e4, if_neg (by decide)]

/-- The word that follows a block of the list: the end mark, or the next header. -/
theorem next_word (h : Heap) (pre post : List Int) (x : Int) (hwf : WF h (pre ++ x :: post)) :
    -2147483646 ≤ h.mem (h.first_blk + total pre + sz x) ∧
    h.mem (h.first_blk + total pre + sz x) ≤ 2147483647 ∧
    (post = [] → h.mem (h.first_blk + total pre + sz x) = 1) ∧
    (∀ z zs, post = z :: zs → h.mem (h.first_blk + total pre + sz x) = z ∧ z ≠ 1) := by
  have t1 : total (pre ++ [x]) = total pre + sz x := by
    rw [total_append]; show total pre + (sz x + 0) = _; omega
  cases post with
  | nil =>
    have he := hwf.endm
    have e : h.first_blk + total (pre ++ [x]) = h.first_blk + total pre + sz x := by
      rw [t1]; omega
    rw [e] at he
    rw [he]
    exact ⟨by decide, by decide, fun _ => rfl, fun z zs hh => by cases hh⟩
  | cons z zs =>
    obtain ⟨hmz, -, -, hz8, hzr, -, -, -, -, -⟩ :=
      block_at h.mem h.first_blk (pre ++ x :: z :: zs) (pre ++ [x]) zs z hwf.seg hwf.sizes
        hwf.lo hwf.hi hwf.small (by simp)
    have e : h.first_blk + total (pre ++ [x]) = h.first_blk + total pre + sz x := by
      rw [t1]; omega
    rw [e] at hmz
    rw [hmz]
    refine ⟨by omega, by omega, fun hh => (by cases hh), ?_⟩
    intro z1 zs1 hh
    injection hh with h1 h2
    subst h1
    exact ⟨rfl, by omega⟩

/-- Freeing a block whose predecessor is allocated (or which is the first block). -/
theorem free_nb (h : Heap) (pre post : List Int) (x : Int) (hwf : WF h (pre ++ x :: post))
    (hx : x % 4 = 3) :
    WF { h with mem := freeBody h.mem (h.first_blk + total pre) }
      (pre ++ fwdBlocks (sz x) post) ∧
    freeBody h.mem (h.first_blk + total pre) (h.first_blk + total pre) % 2 = 0 := by
  obtain ⟨hmx, hx8, hx8m, hxlo, hxr, hp0, hq0, htot, -, -⟩ :=
    block_at h.mem h.first_blk (pre ++ x :: post) pre post x hwf.seg hwf.sizes hwf.lo hwf.hi
      hwf.small rfl
  obtain ⟨hn1, hn2, hn3, hn4⟩ := next_word h pre post x hwf
  have hlo := hwf.lo
  have hhi := hwf.hi
  rw [htot] at hhi
  have hsx : sz x = x - x % 4 := rfl
  obtain ⟨f1, f2, f3, f4, f5⟩ :=
    freeMark_facts h.mem (h.first_blk + total pre) x _ hmx (by omega) hxlo hxr (by omega)
      (by omega) rfl hn1 hn2
  have hbits := hwf.bits
  rw [Bits_append] at hbits
  obtain ⟨-, hb1, hb2, hb3⟩ := hbits
  have hx2 : x % 2 = 1 := by omega
  rw [hx2] at hb3
  have hlast : lastBit 1 pre = 1 := by omega
  have t : total [x] = sz x := by show sz x + 0 = sz x; omega
  rw [freeBody_eq h.mem _ x hmx hxlo hxr (by omega) (by omega),
    freeBack_no _ _ _ (x - 1) f1 (by omega)]
  have ff := free_final h pre [x] post
    (freeMark h.mem (h.first_blk + total pre) (h.first_blk + total pre + sz x - 4)).1
    (freeMark h.mem (h.first_blk + total pre) (h.first_blk + total pre + sz x - 4)).2
    hwf (by rw [t]; exact hx8) hlast hb3
    (by rw [t, f1]; omega)
    (by rw [t]; exact f2)
    (by
      rw [t]
      intro addr ha
      exact f3 addr (by omega) (by omega) (by omega))
    (by
      rw [t]
      intro hp
      exact f4 (hn3 hp))
    (by
      rw [t]
      intro z zs hp
      obtain ⟨h1, h2⟩ := hn4 z zs hp
      rw [h1] at f5
      exact f5 h2)
  rw [t] at ff
  exact ⟨ff.1, ff.2.1⟩

/-- Freeing a block whose predecessor `y` is free: the two merge (and a free successor too). -/
theorem free_b (h : Heap) (pre post : List Int) (y x : Int)
    (hwf : WF h (pre ++ y :: x :: post)) (hx : x % 4 = 1) :
    WF { h with mem := freeBody h.mem (h.first_blk + total pre + sz y) }
      (pre ++ fwdBlocks (sz y + sz x) post) ∧
    freeBody h.mem (h.first_blk + total pre + sz y) (h.first_blk + total pre + sz y) % 2 = 0 := by
  have hre : pre ++ y :: x :: post = (pre ++ [y]) ++ x :: post := by simp
  have hwf1 : WF h ((pre ++ [y]) ++ x :: post) := hre ▸ hwf
  have t1 : total (pre ++ [y]) = total pre + sz y := by
    rw [total_append]; show total pre + (sz y + 0) = _; omega
  have ea : h.first_blk + total (pre ++ [y]) = h.first_blk + total pre + sz y := by
    rw [t1]; omega
  have t2 : total [y, x] = sz y + sz x := by show sz y + (sz x + 0) = _; omega
  obtain ⟨hmx, hx8, hx8m, hxlo, hxr, -, hq0, htot, -, -⟩ :=
    block_at h.mem h.first_blk ((pre ++ [y]) ++ x :: post) (pre ++ [y]) post x hwf1.seg
      hwf1.sizes hwf1.lo hwf1.hi hwf1.small rfl
  obtain ⟨hmy, hy8, hy8m, hylo, hyr, hp0, -, -, -, hyft⟩ :=
    block_at h.mem h.first_blk (pre ++ y :: x :: post) pre (x :: post) y hwf.seg
      hwf.sizes hwf.lo hwf.hi hwf.small rfl
  obtain ⟨hn1, hn2, hn3, hn4⟩ := next_word h (pre ++ [y]) post x hwf1
  rw [ea] at hmx hn1 hn2 hn3 hn4
  have hlo := hwf.lo
  have hhi := hwf1.hi
  have hsmall := hwf1.small
  rw [htot, t1] at hhi hsmall
  have hsx : sz x = x - x % 4 := rfl
  have hsy : sz y = y - y % 4 := rfl
  have hbits := hwf.bits
  rw [Bits_append] at hbits
  obtain ⟨-, hb1, hb2, hb3, hb4, hb5⟩ := hbits
  have hx2 : x % 2 = 1 := by omega
  have hy2 : y % 2 = 0 := by omega
  rw [hx2] at hb5
  have hlast : lastBit 1 pre = 1 := by omega
  have hy4 : y % 4 = 2 := by omega
  have hyft2 := hyft hy2
  obtain ⟨f1, f2, f3, f4, f5⟩ :=
    freeMark_facts h.mem (h.first_blk + total pre + sz y) x _ hmx hx2 hxlo hxr (by omega)
      (by omega) rfl hn1 hn2
  have eA : h.first_blk + total pre + sz y - sz y = h.first_blk + total pre := by omega
  have eF : h.first_blk + total pre + sz y + sz x - 4 =
      h.first_blk + total pre + (sz y + sz x) - 4 := by omega
  have eE : h.first_blk + total pre + sz y + sz x =
      h.first_blk + total pre + (sz y + sz x) := by omega
  have fb := freeBack_yes
    (freeMark h.mem (h.first_blk + total pre + sz y)
      (h.first_blk + total pre + sz y + sz x - 4)).1
    (h.first_blk + total pre + sz y) (h.first_blk + total pre + sz y + sz x - 4)
    (x - 1) (sz y) y (sz x) f1 (by omega)
    (by rw [f3 _ (by omega) (by omega) (by omega)]; exact hyft2)
    hy8 (by omega)
    (by rw [f3 _ (by omega) (by omega) (by omega), eA]; exact hmy)
    hy4 f2 hx8 (by omega) (by omega) (by omega) (by omega) (by omega)
  rw [freeBody_eq h.mem _ x hmx hxlo hxr (by omega) (by omega), fb]
  dsimp only
  rw [eA, eF]
  rw [eF] at f1 f2 f3
  rw [eE] at f3 f4 f5 hn3 hn4
  have ff := free_final h pre [y, x] post
    (store (store (freeMark h.mem (h.first_blk + total pre + sz y)
      (h.first_blk + total pre + (sz y + sz x) - 4)).1 (h.first_blk + total pre)
      (sz y + sz x + 2)) (h.first_blk + total pre + (sz y + sz x) - 4) (sz y + sz x))
    (freeMark h.mem (h.first_blk + total pre + sz y)
      (h.first_blk + total pre + (sz y + sz x) - 4)).2
    hwf (by rw [t2]; omega) hlast hb5
    (by rw [t2, store_other _ _ _ _ (by omega), store_same])
    (by rw [t2, store_same])
    (by
      rw [t2]
      intro addr ha
      rw [store_other _ _ _ _ (by omega), store_other _ _ _ _ (by omega)]
      exact f3 addr (by omega) (by omega) (by omega))
    (by
      rw [t2]
      intro hp
      rw [store_other _ _ _ _ (by omega), store_other _ _ _ _ (by omega)]
      exact f4 (hn3 hp))
    (by
      rw [t2]
      intro z zs hp
      obtain ⟨h1, h2⟩ := hn4 z zs hp
      rw [h1] at f5
      rw [store_other _ _ _ _ (by omega), store_other _ _ _ _ (by omega)]
      exact f5 h2)
  rw [t2] at ff
  refine ⟨ff.1, ?_⟩
  rw [ff.2.2 _ (by omega) (by omega), store_other _ _ _ _ (by omega),
    store_other _ _ _ _ (by omega), f1]
  omega

/-! ## `Init_Mem` -/

/-- The heap that a successful `Init_Mem` leaves, when the rounded region size is at most
2^31 and the mapping lies inside the 32-bit address space. At 2^31 the `int` that holds the
size wraps, and the subtraction of 8 wraps it back. -/
theorem init_spec (pagesize fd sp n : Int) (h0 : Heap) (hflag : h0.allocated_once = 0)
    (hfd : fd ≠ -1) (hn : 0 < n) (hp : 0 < pagesize) (hpb : pagesize ≤ 2147483647)
    (hhi : roundUp pagesize n ≤ 2147483648)
    (h16 : 16 ≤ roundUp pagesize n) (hsp : 0 ≤ sp)
    (hsphi : sp + roundUp pagesize n ≤ 4294967296) :
    (Init_Mem pagesize fd (some sp) h0 n).2 = 0 ∧
    (Init_Mem pagesize fd (some sp) h0 n).1.first_blk = sp + 4 ∧
    (Init_Mem pagesize fd (some sp) h0 n).1.allocated_once = 1 ∧
    (Init_Mem pagesize fd (some sp) h0 n).1.mem (sp + 4) = roundUp pagesize n - 8 + 2 ∧
    (Init_Mem pagesize fd (some sp) h0 n).1.mem (sp + 4 + (roundUp pagesize n - 8)) = 1 ∧
    (Init_Mem pagesize fd (some sp) h0 n).1.mem (sp + 4 + (roundUp pagesize n - 8) - 4) =
      roundUp pagesize n - 8 := by
  have hm0 : 0 ≤ n % pagesize := Int.emod_nonneg n (by omega)
  have hm1 : n % pagesize < pagesize := Int.emod_lt_of_pos n hp
  have hq0 : 0 ≤ (pagesize - n % pagesize) % pagesize := Int.emod_nonneg _ (by omega)
  have hq1 : (pagesize - n % pagesize) % pagesize < pagesize := Int.emod_lt_of_pos _ hp
  have hru : roundUp pagesize n = n + (pagesize - n % pagesize) % pagesize := rfl
  have e1 : imod n pagesize = n % pagesize := by
    unfold imod; exact Int.tmod_eq_emod (by omega) (by omega)
  have e2 : isub pagesize (n % pagesize) = pagesize - n % pagesize :=
    isub_eq _ _ (by omega) (by omega)
  have e3 : imod (pagesize - n % pagesize) pagesize = (pagesize - n % pagesize) % pagesize := by
    unfold imod; exact Int.tmod_eq_emod (by omega) (by omega)
  have e5 : isub (iadd n ((pagesize - n % pagesize) % pagesize)) 8 = roundUp pagesize n - 8 := by
    rw [hru]; unfold isub iadd wrap32; omega
  have e6 : padd sp 4 = sp + 4 := padd_eq _ _ (by omega) (by omega)
  have e7 : padd (sp + 4) (roundUp pagesize n - 8) = sp + 4 + (roundUp pagesize n - 8) :=
    padd_eq _ _ (by omega) (by omega)
  have e8 : psub (sp + 4 + (roundUp pagesize n - 8)) 4 = sp + 4 + (roundUp pagesize n - 8) - 4 :=
    psub_eq _ _ (by omega) (by omega)
  have e9 : iadd (roundUp pagesize n - 8) 2 = roundUp pagesize n - 8 + 2 :=
    iadd_eq _ _ (by omega) (by omega)
  have hnn : ¬ (n ≤ 0) := by omega
  unfold Init_Mem
  rw [if_neg (by rw [hflag]; decide), if_neg hnn, if_neg hfd]
  simp only [e1, e2, e3, e5, e6, e7, e8, store_same, e9]
  refine ⟨trivial, trivial, trivial, ?_, ?_, ?_⟩
  · rw [store_other _ _ _ _ (by omega), store_other _ _ _ _ (by omega), store_same]
  · rw [store_other _ _ _ _ (by omega), store_same]
  · trivial

theorem roundUp_mod (pagesize n : Int) : roundUp pagesize n % pagesize = 0 := by
  unfold roundUp
  rw [Int.add_emod_emod]
  have e : n + (pagesize - n % pagesize) = pagesize * (1 + n / pagesize) := by
    have h := Int.emod_add_ediv n pagesize
    rw [Int.mul_add, Int.mul_one]
    omega
  rw [e, Int.mul_emod_right]

theorem roundUp_facts (pagesize n : Int) (hn : 0 < n) (hp : 0 < pagesize)
    (h8 : pagesize % 8 = 0) :
    roundUp pagesize n % 8 = 0 ∧ pagesize ≤ roundUp pagesize n ∧ n ≤ roundUp pagesize n := by
  have h1 := roundUp_mod pagesize n
  have hq0 : 0 ≤ (pagesize - n % pagesize) % pagesize := Int.emod_nonneg _ (by omega)
  have hru : roundUp pagesize n = n + (pagesize - n % pagesize) % pagesize := rfl
  have hpos : 0 < roundUp pagesize n := by omega
  have hd : pagesize ∣ roundUp pagesize n := Int.dvd_of_emod_eq_zero h1
  have h2 : pagesize ≤ roundUp pagesize n := Int.le_of_dvd hpos hd
  have h3 : (8 : Int) ∣ pagesize := Int.dvd_of_emod_eq_zero h8
  have h4 : roundUp pagesize n % 8 = 0 := Int.emod_eq_zero_of_dvd (Dvd.dvd.trans h3 hd)
  exact ⟨h4, h2, by omega⟩

/-- A successful `Init_Mem` on a sound platform leaves a well-formed heap with one free
block. -/
theorem init_WF (pagesize fd sp n : Int) (h0 h : Heap) (henv : Env pagesize sp n)
    (hinit : Init_Mem pagesize fd (some sp) h0 n = (h, 0)) :
    WF h [roundUp pagesize n - 8 + 2] ∧ h.first_blk = sp + 4 ∧ h.allocated_once = 1 := by
  have hflag : h0.allocated_once = 0 := by
    by_contra hc
    unfold Init_Mem at hinit
    rw [if_pos hc] at hinit
    injection hinit with h1 h2
    exact absurd h2 (by decide)
  have hn : 0 < n := by
    by_contra hc
    unfold Init_Mem at hinit
    rw [if_neg (by rw [hflag]; decide), if_pos (by omega)] at hinit
    injection hinit with h1 h2
    exact absurd h2 (by decide)
  have hfd : fd ≠ -1 := by
    intro hc
    unfold Init_Mem at hinit
    rw [if_neg (by rw [hflag]; decide), if_neg (by omega)] at hinit
    simp only [hc, if_true] at hinit
    injection hinit with h1 h2
    exact absurd h2 (by decide)
  obtain ⟨e16, e8, eint, efits, ebase, eal, etop⟩ := henv
  obtain ⟨r8, rge, -⟩ := roundUp_facts pagesize n hn (by omega) e8
  have hsp8 : sp % 8 = 0 := by
    have h3 : (8 : Int) ∣ pagesize := Int.dvd_of_emod_eq_zero e8
    exact Int.emod_eq_zero_of_dvd (Dvd.dvd.trans h3 (Int.dvd_of_emod_eq_zero eal))
  obtain ⟨i1, i2, i3, i4, i5, i6⟩ :=
    init_spec pagesize fd sp n h0 hflag hfd hn (by omega) eint (by omega) (by omega) ebase etop
  rw [hinit] at i1 i2 i3 i4 i5 i6
  dsimp only at i2 i3 i4 i5 i6
  have s1 : sz (roundUp pagesize n - 8 + 2) = roundUp pagesize n - 8 := by unfold sz; omega
  have t1 : total [roundUp pagesize n - 8 + 2] = roundUp pagesize n - 8 := by
    show sz (roundUp pagesize n - 8 + 2) + 0 = _
    rw [s1]; omega
  refine ⟨⟨?_, ?_, ?_, ?_, ?_, ?_, ?_, ?_, ?_⟩, i2, i3⟩
  · refine ⟨?_, ?_, trivial⟩
    · rw [i2]; exact i4
    · intro _
      rw [s1, i2]; exact i6
  · rw [t1, i2]; exact i5
  · intro y hy
    rw [List.mem_singleton.mp hy, s1]; omega
  · refine ⟨by omega, by omega, trivial⟩
  · rw [i2]; omega
  · rw [i2]; omega
  · rw [t1, i2]; omega
  · rw [t1]; omega
  · rw [t1]; omega

/-! ## The walk over the block list -/

/-- The search loop needs more than `post.length` evaluations of its condition. -/
theorem scan_short (m : Memory) (fb R : Int) (hs : List Int)
    (hseg : Seg m fb hs) (hsz : Sizes hs)
    (hlo : 0 < fb) (hhi : fb + total hs + 4 ≤ 4294967296) (hsmall : total hs ≤ 2147483640) :
    ∀ (post pre : List Int) (cur st fit : Int), hs = pre ++ post →
      cur = fb + total pre →
      ∀ fuel : Nat, fuel ≤ post.length → scan m fb R fuel cur st fit = none := by
  intro post
  induction post with
  | nil =>
    intro pre cur st fit _ _ fuel hfuel
    have h0 : fuel = 0 := by simpa using hfuel
    subst h0
    rfl
  | cons x xs ih =>
    intro pre cur st fit hpre hcur
    obtain ⟨hmx, hx8, -, hx8', hxr, hn1, hn2, htot, hband4, -⟩ :=
      block_at m fb hs pre xs x hseg hsz hlo hhi hsmall hpre
    rw [← hcur] at hmx
    have hpadd : padd cur (sz x) = fb + total (pre ++ [x]) := by
      rw [total_append, padd_eq cur (sz x) (by omega) (by omega)]
      show cur + sz x = fb + (total pre + (sz x + 0))
      omega
    have hne : m cur ≠ 1 := by
      rw [hmx]; intro h; rw [h] at hx8'; exact absurd hx8' (by decide)
    have hb4 : band (m cur) (-4) = sz x := by rw [hmx]; exact hband4
    have hrun := ih (pre ++ [x]) (fb + total (pre ++ [x]))
      (scanStep m fb R cur st fit).1 (scanStep m fb R cur st fit).2 (by rw [hpre]; simp) rfl
    intro fuel hfuel
    cases fuel with
    | zero => rfl
    | succ f =>
      have hlen : f ≤ xs.length := by simpa using hfuel
      unfold scan
      rw [if_pos hne, hb4, hpadd]
      exact hrun f hlen

/-- The walk from a block of a well-formed list meets exactly the remaining blocks, in
address order, and stops on the end mark. -/
theorem walk_spec (m : Memory) (fb : Int) (hs : List Int)
    (hseg : Seg m fb hs) (hend : m (fb + total hs) = 1) (hsz : Sizes hs)
    (hlo : 0 < fb) (hhi : fb + total hs + 4 ≤ 4294967296) (hsmall : total hs ≤ 2147483640) :
    ∀ (post pre : List Int) (cur : Int), hs = pre ++ post → cur = fb + total pre →
      (∀ fuel : Nat, post.length < fuel →
        walk m fuel cur = some (List.zip (addrs cur post) post)) ∧
      (∀ fuel : Nat, fuel ≤ post.length → walk m fuel cur = none) := by
  intro post
  induction post with
  | nil =>
    intro pre cur hpre hcur
    simp only [List.append_nil] at hpre
    subst hpre
    have h1 : m cur = 1 := by rw [hcur]; exact hend
    constructor
    · intro fuel hfuel
      cases fuel with
      | zero => simp at hfuel
      | succ f =>
        unfold walk
        rw [if_pos h1]
        rfl
    · intro fuel hfuel
      have h0 : fuel = 0 := by simpa using hfuel
      subst h0
      rfl
  | cons x xs ih =>
    intro pre cur hpre hcur
    obtain ⟨hmx, hx8, -, hx8', hxr, hn1, hn2, htot, hband4, -⟩ :=
      block_at m fb hs pre xs x hseg hsz hlo hhi hsmall hpre
    rw [← hcur] at hmx
    have hpadd : padd cur (sz x) = fb + total (pre ++ [x]) := by
      rw [total_append, padd_eq cur (sz x) (by omega) (by omega)]
      show cur + sz x = fb + (total pre + (sz x + 0))
      omega
    have hcx : cur + sz x = fb + total (pre ++ [x]) := by
      rw [total_append]
      show cur + sz x = fb + (total pre + (sz x + 0))
      omega
    have hne : ¬ (m cur = 1) := by
      rw [hmx]; intro h; rw [h] at hx8'; exact absurd hx8' (by decide)
    have hb4 : band (m cur) (-4) = sz x := by rw [hmx]; exact hband4
    obtain ⟨hrun, hshort⟩ := ih (pre ++ [x]) (fb + total (pre ++ [x])) (by rw [hpre]; simp) rfl
    constructor
    · intro fuel hfuel
      cases fuel with
      | zero => simp at hfuel
      | succ f =>
        have hlen : xs.length < f := by simpa using hfuel
        unfold walk
        rw [if_neg hne, hb4, hpadd, hrun f hlen, hmx]
        show _ = some (List.zip (cur :: addrs (cur + sz x) xs) (x :: xs))
        rw [hcx]
        rfl
    · intro fuel hfuel
      cases fuel with
      | zero => rfl
      | succ f =>
        have hlen : f ≤ xs.length := by simpa using hfuel
        unfold walk
        rw [if_neg hne, hb4, hpadd, hshort f hlen]
        rfl

theorem zip_addrs_fst (hs : List Int) : ∀ a : Int,
    (List.zip (addrs a hs) hs).map Prod.fst = addrs a hs := by
  induction hs with
  | nil => intro a; rfl
  | cons x xs ih =>
    intro a
    show a :: (List.zip (addrs (a + sz x) xs) xs).map Prod.fst = a :: addrs (a + sz x) xs
    rw [ih]

theorem mem_addrs (hs : List Int) : ∀ a b : Int, b ∈ addrs a hs →
    ∃ pre x post, hs = pre ++ x :: post ∧ b = a + total pre := by
  induction hs with
  | nil => intro a b hb; cases hb
  | cons x xs ih =>
    intro a b hb
    have hb2 : b = a ∨ b ∈ addrs (a + sz x) xs := by
      have : b ∈ a :: addrs (a + sz x) xs := hb
      simpa using this
    rcases hb2 with hb2 | hb2
    · exact ⟨[], x, xs, rfl, by rw [hb2]; show a = a + 0; omega⟩
    · obtain ⟨pre, y, post, h1, h2⟩ := ih (a + sz x) b hb2
      refine ⟨x :: pre, y, post, by rw [h1]; rfl, ?_⟩
      rw [h2]
      show a + sz x + total pre = a + (sz x + total pre)
      omega

/-- On a well-formed heap the walk returns the block list, whatever the fuel. -/
theorem walk_WF (h : Heap) (hs : List Int) (hwf : WF h hs) :
    (∀ fuel : Nat, hs.length < fuel →
      walk h.mem fuel h.first_blk = some (List.zip (addrs h.first_blk hs) hs)) ∧
    (∀ fuel : Nat, fuel ≤ hs.length → walk h.mem fuel h.first_blk = none) :=
  walk_spec h.mem h.first_blk hs hwf.seg hwf.endm hwf.sizes hwf.lo hwf.hi hwf.small hs []
    h.first_blk (by simp) (by show h.first_blk = h.first_blk + 0; omega)

/-- A payload address of the block list is the payload address of some block of `hs`. -/
theorem onList_split (h : Heap) (hs : List Int) (hwf : WF h hs) (p : Int) (hp : OnList h p) :
    ∃ pre x post, hs = pre ++ x :: post ∧ p = h.first_blk + total pre + 4 := by
  obtain ⟨fuel, l, hw, hmem⟩ := hp
  obtain ⟨h1, h2⟩ := walk_WF h hs hwf
  have hl : l = List.zip (addrs h.first_blk hs) hs := by
    rcases Nat.lt_or_ge hs.length fuel with hf | hf
    · rw [h1 fuel hf] at hw
      injection hw with hw
      exact hw.symm
    · rw [h2 fuel hf] at hw
      cases hw
  rw [hl, zip_addrs_fst] at hmem
  obtain ⟨pre, x, post, e1, e2⟩ := mem_addrs hs _ _ hmem
  exact ⟨pre, x, post, e1, by omega⟩

/-! ## Steps of the reachability relation -/

theorem total_fwdBlocks (S : Int) (hS : S % 4 = 0) (post : List Int) (hb : Bits 1 post) :
    total (fwdBlocks S post) = S + total post := by
  have s1 : sz (S + 2) = S := by unfold sz; omega
  cases post with
  | nil =>
    show sz (S + 2) + 0 = S + 0
    rw [s1]
  | cons z zs =>
    obtain ⟨hb1, -, -⟩ := hb
    have hz : sz z = z - z % 4 := rfl
    by_cases hzf : z % 2 = 0
    · have e : fwdBlocks S (z :: zs) = (S + sz z + 2) :: zs := by
        show (if z % 2 = 0 then _ else _) = _
        rw [if_pos hzf]
      have s2 : sz (S + sz z + 2) = S + sz z := by unfold sz; omega
      rw [e]
      show sz (S + sz z + 2) + total zs = S + (sz z + total zs)
      rw [s2]; omega
    · have e : fwdBlocks S (z :: zs) = (S + 2) :: (z - 2) :: zs := by
        show (if z % 2 = 0 then _ else _) = _
        rw [if_neg hzf]
      have s2 : sz (z - 2) = sz z := by unfold sz; omega
      rw [e]
      show sz (S + 2) + (sz (z - 2) + total zs) = S + (sz z + total zs)
      rw [s1, s2]

/-- A block whose previous-allocated bit is clear has a free predecessor on the list. -/
theorem pred_free (pre post : List Int) (x : Int) (hb : Bits 1 (pre ++ x :: post))
    (hx : x % 4 = 1) : ∃ pre1 y, pre = pre1 ++ [y] ∧ y % 2 = 0 := by
  rw [Bits_append] at hb
  obtain ⟨-, hb1, -, -⟩ := hb
  rcases List.eq_nil_or_concat pre with hnil | ⟨pre1, y, hcat0⟩
  · rw [hnil] at hb1
    have e : lastBit 1 ([] : List Int) = 1 := rfl
    rw [e] at hb1
    omega
  · have hcat : pre = pre1 ++ [y] := by rw [hcat0, List.concat_eq_append]
    refine ⟨pre1, y, hcat, ?_⟩
    rw [hcat, lastBit_append_cons] at hb1
    omega

/-- The two shapes of a successful `Free_Mem` on a well-formed heap. -/
theorem free_cases (h : Heap) (pre post : List Int) (x : Int) (hwf : WF h (pre ++ x :: post))
    (hx : x % 2 = 1) :
    Free_Mem h (h.first_blk + total pre + 4) =
      ({ h with mem := freeBody h.mem (h.first_blk + total pre) }, 0) ∧
    freeBody h.mem (h.first_blk + total pre) (h.first_blk + total pre) % 2 = 0 ∧
    ((x % 4 = 3 ∧ WF { h with mem := freeBody h.mem (h.first_blk + total pre) }
        (pre ++ fwdBlocks (sz x) post)) ∨
     (x % 4 = 1 ∧ ∃ pre1 y, pre = pre1 ++ [y] ∧ y % 2 = 0 ∧
        WF { h with mem := freeBody h.mem (h.first_blk + total pre) }
          (pre1 ++ fwdBlocks (sz y + sz x) post))) := by
  refine ⟨free_entry h pre post x hwf hx, ?_⟩
  rcases (by omega : x % 4 = 3 ∨ x % 4 = 1) with h3 | h1
  · obtain ⟨f1, f2⟩ := free_nb h pre post x hwf h3
    exact ⟨f2, Or.inl ⟨h3, f1⟩⟩
  · obtain ⟨pre1, y, hcat, hy⟩ := pred_free pre post x hwf.bits h1
    subst hcat
    have hre : (pre1 ++ [y]) ++ x :: post = pre1 ++ y :: x :: post := by simp
    have hwf2 : WF h (pre1 ++ y :: x :: post) := hre ▸ hwf
    have t1 : total (pre1 ++ [y]) = total pre1 + sz y := by
      rw [total_append]; show total pre1 + (sz y + 0) = _; omega
    have ea : h.first_blk + total (pre1 ++ [y]) = h.first_blk + total pre1 + sz y := by
      rw [t1]; omega
    obtain ⟨f1, f2⟩ := free_b h pre1 post y x hwf2 h1
    rw [ea]
    exact ⟨f2, Or.inr ⟨h1, pre1, y, rfl, hy, f1⟩⟩

/-- `Free_Mem` on a free block of the list is rejected and changes nothing. -/
theorem free_reject_free (h : Heap) (pre post : List Int) (x : Int)
    (hwf : WF h (pre ++ x :: post)) (hx : x % 2 = 0) :
    Free_Mem h (h.first_blk + total pre + 4) = (h, -1) := by
  obtain ⟨hmx, hx8, hx8m, hxlo, hxr, hp0, hq0, htot, -, -⟩ :=
    block_at h.mem h.first_blk (pre ++ x :: post) pre post x hwf.seg hwf.sizes hwf.lo hwf.hi
      hwf.small rfl
  have hlo := hwf.lo
  have hhi := hwf.hi
  rw [htot] at hhi
  have e1 : ¬ (h.first_blk + total pre + 4 = 0) := by omega
  have e2 : psub (h.first_blk + total pre + 4) blk_size = h.first_blk + total pre := by
    unfold blk_size
    rw [psub_eq _ _ (by omega) (by omega)]; omega
  have e4 : band (h.mem (h.first_blk + total pre)) 1 = 0 := by
    rw [hmx, band_one]; exact hx
  unfold Free_Mem
  rw [if_neg e1, e2, if_pos (Or.inr e4)]

/-- `Free_Mem` on `NULL` or on a payload address of the block list keeps the heap well
formed and the total size unchanged. -/
theorem free_step (h : Heap) (hs : List Int) (hwf : WF h hs) (p : Int)
    (hp : p = 0 ∨ OnList h p) :
    ∃ hs1, WF (Free_Mem h p).1 hs1 ∧ total hs1 = total hs := by
  rcases hp with hp | hp
  · subst hp
    exact ⟨hs, hwf, rfl⟩
  · obtain ⟨pre, x, post, hsplit, hpe⟩ := onList_split h hs hwf p hp
    subst hsplit
    subst hpe
    have hsz := hwf.sizes
    rw [Sizes_append, Sizes_cons] at hsz
    obtain ⟨sz1, ⟨sx0, sx8⟩, sz3⟩ := hsz
    have hbits := hwf.bits
    rw [Bits_append] at hbits
    obtain ⟨-, -, -, hb3⟩ := hbits
    rcases (by omega : x % 2 = 0 ∨ x % 2 = 1) with h0 | h1
    · rw [free_reject_free h pre post x hwf h0]
      exact ⟨_, hwf, rfl⟩
    · rw [h1] at hb3
      obtain ⟨e, -, hc⟩ := free_cases h pre post x hwf h1
      rw [e]
      rcases hc with ⟨-, hw⟩ | ⟨-, pre1, y, hcat, hy, hw⟩
      · refine ⟨_, hw, ?_⟩
        rw [total_append, total_append, total_fwdBlocks _ (by omega) post hb3]
        rfl
      · refine ⟨_, hw, ?_⟩
        subst hcat
        rw [Sizes_append] at sz1
        have sy := sz1.2 y (by simp)
        rw [total_append, total_append, total_append,
          total_fwdBlocks _ (by omega) post hb3]
        show total pre1 + (sz y + sz x + total post) = total pre1 + (sz y + 0) + (sz x + total post)
        omega

/-- A call of `Alloc_Mem` with a positive request that returns at all has run the search loop
to the end mark. -/
theorem alloc_fuel (h : Heap) (hs : List Int) (hwf : WF h hs) (size : Int) (h0 : 0 < size)
    (fuel : Nat) (r : Heap × Int) (hr : Alloc_Mem fuel h size = some r) : hs.length < fuel := by
  rcases Nat.lt_or_ge hs.length fuel with hf | hf
  · exact hf
  · have hn := scan_short h.mem h.first_blk (roundSize size) hs hwf.seg hwf.sizes hwf.lo hwf.hi
      hwf.small hs [] h.first_blk h.first_blk 0 (by simp)
      (by show h.first_blk = h.first_blk + 0; omega) fuel hf
    unfold Alloc_Mem at hr
    rw [if_neg (not_le.mpr h0), hn] at hr
    cases hr

/-- `Alloc_Mem` keeps the heap well formed and the total size unchanged. -/
theorem alloc_step (h : Heap) (hs : List Int) (hwf : WF h hs) (size : Int)
    (hfit : size ≤ 0 ∨ size + 11 ≤ 2147483647) (fuel : Nat) (h1 : Heap) (p : Int)
    (hr : Alloc_Mem fuel h size = some (h1, p)) :
    ∃ hs1, WF h1 hs1 ∧ total hs1 = total hs := by
  by_cases h0 : size ≤ 0
  · unfold Alloc_Mem at hr
    rw [if_pos h0] at hr
    injection hr with hr
    injection hr with e1 e2
    subst e1
    exact ⟨hs, hwf, rfl⟩
  · have hpos : 0 < size := by omega
    have hfit2 : size + 11 ≤ 2147483647 := by omega
    have hf := alloc_fuel h hs hwf size hpos fuel _ hr
    have hR := reqSize_facts size
    rcases alloc_spec h hs hwf size hpos hfit2 with ⟨-, hno⟩ | ⟨l1, x, l2, hsplit, hfree, hge, hc⟩
    · rw [hno fuel hf] at hr
      injection hr with hr
      injection hr with e1 e2
      subst e1
      exact ⟨hs, hwf, rfl⟩
    · rcases hc with ⟨-, hex⟩ | ⟨hlt, hsp⟩
      · rw [hex fuel hf] at hr
        injection hr with hr
        injection hr with e1 e2
        subst e1
        exact ⟨hs, hwf, rfl⟩
      · rw [hsp fuel hf] at hr
        injection hr with hr
        injection hr with e1 e2
        subst e1
        subst hsplit
        have hw := split_WF h l1 l2 x (reqSize size) hwf hfree (by omega) hR.1 hlt
        refine ⟨_, hw, ?_⟩
        have hsx : sz x = x - x % 4 := rfl
        have s1 : sz (reqSize size + 3) = reqSize size := by unfold sz; omega
        have s2 : sz (sz x - reqSize size + 2) = sz x - reqSize size := by unfold sz; omega
        rw [total_append, total_append]
        show total l1 + (sz (reqSize size + 3) + (sz (sz x - reqSize size + 2) + total l2)) =
          total l1 + (sz x + total l2)
        rw [s1, s2]; omega

/-- Every reachable heap is well formed, and its blocks add up to the usable region size. -/
theorem reach_WF (U : Int) (h : Heap) (hr : Reach U h) : ∃ hs, WF h hs ∧ total hs = U := by
  induction hr with
  | init pagesize fd sp n h0 h henv hinit =>
    obtain ⟨hw, -, -⟩ := init_WF pagesize fd sp n h0 h henv hinit
    refine ⟨_, hw, ?_⟩
    have hn : 0 < n := by
      by_contra hc
      unfold Init_Mem at hinit
      by_cases hf : h0.allocated_once ≠ 0
      · rw [if_pos hf] at hinit
        injection hinit with h1 h2
        exact absurd h2 (by decide)
      · rw [if_neg hf, if_pos (by omega)] at hinit
        injection hinit with h1 h2
        exact absurd h2 (by decide)
    obtain ⟨r8, -, -⟩ := roundUp_facts pagesize n hn (by have := henv.page16; omega) henv.page8
    show sz (roundUp pagesize n - 8 + 2) + 0 = roundUp pagesize n - 8
    unfold sz; omega
  | alloc U h h1 fuel size p _ hfit hal ih =>
    obtain ⟨hs, hw, ht⟩ := ih
    obtain ⟨hs1, hw1, ht1⟩ := alloc_step h hs hw size hfit fuel h1 p hal
    exact ⟨hs1, hw1, by rw [ht1, ht]⟩
  | free U h h1 p r _ hp hfr ih =>
    obtain ⟨hs, hw, ht⟩ := ih
    obtain ⟨hs1, hw1, ht1⟩ := free_step h hs hw p hp
    rw [hfr] at hw1
    exact ⟨hs1, hw1, by rw [ht1, ht]⟩

/-! ## Block lists: addresses and neighbours -/

theorem zip_addrs_snd (hs : List Int) : ∀ a : Int,
    (List.zip (addrs a hs) hs).map Prod.snd = hs := by
  induction hs with
  | nil => intro a; rfl
  | cons x xs ih =>
    intro a
    show x :: (List.zip (addrs (a + sz x) xs) xs).map Prod.snd = x :: xs
    rw [ih]

theorem zip_addrs_length (hs : List Int) : ∀ a : Int,
    (List.zip (addrs a hs) hs).length = hs.length := by
  induction hs with
  | nil => intro a; rfl
  | cons x xs ih =>
    intro a
    show (List.zip (addrs (a + sz x) xs) xs).length + 1 = xs.length + 1
    rw [ih]

/-- A pair of the walk result is a block of the list together with its address. -/
theorem mem_zip_addrs (hs : List Int) : ∀ (a : Int) (b : Int × Int),
    b ∈ List.zip (addrs a hs) hs →
    ∃ pre post, hs = pre ++ b.2 :: post ∧ b.1 = a + total pre := by
  induction hs with
  | nil => intro a b hb; cases hb
  | cons x xs ih =>
    intro a b hb
    have hb2 : b = (a, x) ∨ b ∈ List.zip (addrs (a + sz x) xs) xs := by
      have : b ∈ (a, x) :: List.zip (addrs (a + sz x) xs) xs := hb
      simpa using this
    rcases hb2 with hb2 | hb2
    · subst hb2
      exact ⟨[], xs, rfl, by show a = a + 0; omega⟩
    · obtain ⟨pre, post, h1, h2⟩ := ih (a + sz x) b hb2
      refine ⟨x :: pre, post, by rw [h1]; rfl, ?_⟩
      rw [h2]
      show a + sz x + total pre = a + (sz x + total pre)
      omega

/-- The address of a block of the list is one of the walk addresses. -/
theorem addrs_mem (pre post : List Int) (x : Int) : ∀ a : Int,
    a + total pre ∈ addrs a (pre ++ x :: post) := by
  induction pre with
  | nil =>
    intro a
    show a + 0 ∈ a :: addrs (a + sz x) post
    simp
  | cons y ys ih =>
    intro a
    have h := ih (a + sz y)
    show a + (sz y + total ys) ∈ a :: addrs (a + sz y) (ys ++ x :: post)
    have e : a + (sz y + total ys) = a + sz y + total ys := by omega
    rw [e]
    exact List.mem_cons_of_mem _ h

/-- Two blocks of one list are the same block or do not overlap. -/
theorem split_sep (l1 : List Int) : ∀ (p1 l2 p2 : List Int) (x y : Int),
    Sizes (l1 ++ x :: l2) → l1 ++ x :: l2 = p1 ++ y :: p2 →
    (total p1 = total l1 ∧ y = x) ∨ total p1 + sz y ≤ total l1 ∨ total l1 + sz x ≤ total p1 := by
  induction l1 with
  | nil =>
    intro p1 l2 p2 x y hsz heq
    cases p1 with
    | nil =>
      injection heq with h1 h2
      exact Or.inl ⟨rfl, h1.symm⟩
    | cons b p1t =>
      have heq2 : x :: l2 = b :: (p1t ++ y :: p2) := heq
      injection heq2 with h1 h2
      right; right
      have hs2 : Sizes (x :: l2) := hsz
      rw [Sizes_cons] at hs2
      have hs3 : Sizes l2 := hs2.2
      rw [h2, Sizes_append] at hs3
      have n := total_nonneg p1t hs3.1
      show 0 + sz x ≤ sz b + total p1t
      rw [h1]; omega
  | cons a l1t ih =>
    intro p1 l2 p2 x y hsz heq
    have hsz2 : Sizes (a :: (l1t ++ x :: l2)) := hsz
    rw [Sizes_cons] at hsz2
    have hsz3 := hsz2.2
    rw [Sizes_append] at hsz3
    have n := total_nonneg l1t hsz3.1
    cases p1 with
    | nil =>
      have heq2 : a :: (l1t ++ x :: l2) = y :: p2 := heq
      injection heq2 with h1 h2
      right; left
      show 0 + sz y ≤ sz a + total l1t
      rw [h1]; omega
    | cons b p1t =>
      have heq2 : a :: (l1t ++ x :: l2) = b :: (p1t ++ y :: p2) := heq
      injection heq2 with h1 h2
      have h := ih p1t l2 p2 x y hsz2.2 h2
      show (sz b + total p1t = sz a + total l1t ∧ y = x) ∨ sz b + total p1t + sz y ≤ sz a + total l1t ∨
        sz a + total l1t + sz x ≤ sz b + total p1t
      rw [h1]
      omega

/-- The first block that `fwdBlocks` produces. -/
theorem fwdBlocks_shape (S : Int) (post : List Int) :
    ∃ rest, fwdBlocks S post = (S + succSize post + 2) :: rest := by
  cases post with
  | nil => exact ⟨[], by show [S + 2] = [S + 0 + 2]; rw [Int.add_zero]⟩
  | cons z zs =>
    by_cases hz : z % 2 = 0
    · refine ⟨zs, ?_⟩
      show (if z % 2 = 0 then _ else _) = (S + (if z % 2 = 0 then sz z else 0) + 2) :: zs
      rw [if_pos hz, if_pos hz]
    · refine ⟨(z - 2) :: zs, ?_⟩
      show (if z % 2 = 0 then _ else _) = (S + (if z % 2 = 0 then sz z else 0) + 2) :: _
      rw [if_neg hz, if_neg hz, Int.add_zero]

/-- The search loop of `Alloc_Mem` and the walk stop together. -/
theorem scan_walk_isSome (m : Memory) (fb R : Int) : ∀ (fuel : Nat) (cur st fit : Int),
    (scan m fb R fuel cur st fit).isSome = (walk m fuel cur).isSome := by
  intro fuel
  induction fuel with
  | zero => intro cur st fit; rfl
  | succ f ih =>
    intro cur st fit
    unfold scan walk
    by_cases h1 : m cur = 1
    · rw [if_neg (by simp [h1]), if_pos h1]
      rfl
    · rw [if_pos h1, if_neg h1, ih, Option.isSome_map']

/-- A block of a well-formed list has its payload address on the block list. -/
theorem onList_of_split (h : Heap) (pre post : List Int) (x : Int)
    (hwf : WF h (pre ++ x :: post)) : OnList h (h.first_blk + total pre + 4) := by
  refine ⟨(pre ++ x :: post).length + 1, _, (walk_WF h _ hwf).1 _ (Nat.lt_succ_self _), ?_⟩
  rw [zip_addrs_fst]
  have e : h.first_blk + total pre + 4 - 4 = h.first_blk + total pre := by omega
  rw [e]
  exact addrs_mem pre post x _

/-- Every reachable heap has a block list that the walk returns. -/
theorem reach_walk (U : Int) (h : Heap) (hr : Reach U h) :
    ∃ hs, WF h hs ∧ total hs = U ∧
      walk h.mem (hs.length + 1) h.first_blk = some (List.zip (addrs h.first_blk hs) hs) := by
  obtain ⟨hs, hw, ht⟩ := reach_WF U h hr
  exact ⟨hs, hw, ht, (walk_WF h hs hw).1 _ (Nat.lt_succ_self _)⟩

/-! ## A concrete heap -/

theorem env0 : Env 4096 65536 4096 :=
  ⟨by decide, by decide, by decide, by decide, by decide, by decide, by decide⟩

theorem init0 : Init_Mem 4096 3 (some 65536) initial 4096 = (heap0, 0) :=
  Prod.ext rfl (by decide)

theorem reach_heap0 : Reach 4088 heap0 :=
  Reach.init 4096 3 65536 4096 initial heap0 env0 init0

theorem alloc01 : Alloc_Mem 5 heap0 20 = some (heap1, 65544) := rfl

theorem alloc12 : Alloc_Mem 5 heap1 4 = some (heap2, 65568) := rfl

theorem free23 : Free_Mem heap2 65544 = (heap3, 0) := Prod.ext rfl (by decide)

theorem reach_heap3 : Reach 4088 heap3 :=
  Reach.free 4088 heap2 heap3 65544 0
    (Reach.alloc 4088 heap1 heap2 5 4 65568
      (Reach.alloc 4088 heap0 heap1 5 20 65544 reach_heap0 (Or.inr (by decide)) alloc01)
      (Or.inr (by decide)) alloc12)
    (Or.inr ⟨5, [(65540, 27), (65564, 11), (65572, 4058)], by decide, by decide⟩) free23

/-! ## The walk, without any assumption on the heap -/

/-- A walk that reaches the end mark does so for exactly the fuels above its length. -/
theorem walk_fuel (m : Memory) : ∀ (f : Nat) (a : Int) (l : List (Int × Int)),
    walk m f a = some l →
    ∀ f1 : Nat, (l.length < f1 → walk m f1 a = some l) ∧ (f1 ≤ l.length → walk m f1 a = none) := by
  intro f
  induction f with
  | zero => intro a l h; cases h
  | succ f ih =>
    intro a l h f1
    unfold walk at h
    by_cases h1 : m a = 1
    · rw [if_pos h1] at h
      injection h with h
      subst h
      constructor
      · intro hf
        cases f1 with
        | zero => cases hf
        | succ k =>
          unfold walk
          rw [if_pos h1]
      · intro hf
        have h0 : f1 = 0 := Nat.le_zero.mp hf
        subst h0
        rfl
    · rw [if_neg h1] at h
      obtain ⟨l1, hl1, hl⟩ := Option.map_eq_some'.mp h
      subst hl
      constructor
      · intro hf
        cases f1 with
        | zero => cases hf
        | succ k =>
          unfold walk
          rw [if_neg h1, ((ih _ l1 hl1) k).1 (Nat.lt_of_succ_lt_succ hf)]
          rfl
      · intro hf
        cases f1 with
        | zero => rfl
        | succ k =>
          unfold walk
          rw [if_neg h1, ((ih _ l1 hl1) k).2 (Nat.le_of_succ_le_succ hf)]
          rfl

/-- On a walk that reaches the end mark through blocks of positive size inside the address
space, the addresses increase, stay below the end mark, and the end mark sits right after
the last block. -/
theorem walk_order (m : Memory) : ∀ (f : Nat) (a : Int) (l : List (Int × Int)),
    walk m f a = some l → 0 ≤ a →
    a + (l.map (fun b => band b.2 (-4))).sum < 4294967296 →
    (∀ b ∈ l, 0 < band b.2 (-4)) →
    m (a + (l.map (fun b => band b.2 (-4))).sum) = 1 ∧
    List.Pairwise (fun b c => b < c) (l.map Prod.fst) ∧
    ∀ b ∈ l.map Prod.fst, a ≤ b ∧ b < a + (l.map (fun b => band b.2 (-4))).sum := by
  intro f
  induction f with
  | zero => intro a l h; cases h
  | succ f ih =>
    intro a l h ha hhi hpos
    unfold walk at h
    by_cases h1 : m a = 1
    · rw [if_pos h1] at h
      injection h with h
      subst h
      refine ⟨?_, List.Pairwise.nil, fun b hb => by cases hb⟩
      show m (a + 0) = 1
      rw [Int.add_zero]; exact h1
    · rw [if_neg h1] at h
      obtain ⟨l1, hl1, hl⟩ := Option.map_eq_some'.mp h
      subst hl
      have es : (((a, m a) :: l1).map (fun b => band b.2 (-4))).sum =
          band (m a) (-4) + (l1.map (fun b => band b.2 (-4))).sum := by
        rw [List.map_cons, List.sum_cons]
      have ef : ((a, m a) :: l1).map Prod.fst = a :: l1.map Prod.fst := rfl
      rw [es] at hhi
      rw [es, ef]
      have hp0 : 0 < band (m a) (-4) := hpos (a, m a) (List.mem_cons_self _ _)
      have hpos1 : ∀ b ∈ l1, 0 < band b.2 (-4) := fun b hb => hpos b (List.mem_cons_of_mem _ hb)
      have hsum : 0 ≤ (l1.map (fun b => band b.2 (-4))).sum := by
        apply List.sum_nonneg
        intro x hx
        obtain ⟨b, hb, hbx⟩ := List.mem_map.mp hx
        rw [← hbx]
        exact le_of_lt (hpos1 b hb)
      have hpadd : padd a (band (m a) (-4)) = a + band (m a) (-4) :=
        padd_eq _ _ (by omega) (by omega)
      rw [hpadd] at hl1
      obtain ⟨i1, i2, i3⟩ := ih _ l1 hl1 (by omega) (by omega) hpos1
      refine ⟨?_, List.Pairwise.cons ?_ i2, ?_⟩
      · rw [← Int.add_assoc]; exact i1
      · intro b hb
        have := i3 b hb
        omega
      · intro b hb
        rcases List.mem_cons.mp hb with hb | hb
        · rw [hb]; omega
        · have := i3 b hb
          omega

/-! ## Three adjacent blocks freed in any order -/

/-- One `Free_Mem` call on a block whose predecessor is allocated, at the level of lists. -/
theorem step_nb (h : Heap) (L l1 l2 L1 : List Int) (x p : Int) (hwf : WF h L)
    (hL : L = l1 ++ x :: l2) (hx : x % 4 = 3) (hp : p = h.first_blk + total l1 + 4)
    (hL1 : L1 = l1 ++ fwdBlocks (sz x) l2) :
    (Free_Mem h p).2 = 0 ∧ (Free_Mem h p).1.first_blk = h.first_blk ∧
      WF (Free_Mem h p).1 L1 := by
  subst hL
  subst hp
  subst hL1
  rw [free_entry h l1 l2 x hwf (by omega)]
  exact ⟨rfl, rfl, (free_nb h l1 l2 x hwf hx).1⟩

/-- One `Free_Mem` call on a block whose predecessor `y` is free, at the level of lists. -/
theorem step_b (h : Heap) (L l1 l2 L1 : List Int) (y x p : Int) (hwf : WF h L)
    (hL : L = l1 ++ y :: x :: l2) (hx : x % 4 = 1)
    (hp : p = h.first_blk + total l1 + sz y + 4)
    (hL1 : L1 = l1 ++ fwdBlocks (sz y + sz x) l2) :
    (Free_Mem h p).2 = 0 ∧ (Free_Mem h p).1.first_blk = h.first_blk ∧
      WF (Free_Mem h p).1 L1 := by
  subst hL
  subst hp
  subst hL1
  have hre : l1 ++ y :: x :: l2 = (l1 ++ [y]) ++ x :: l2 := by simp
  have hwf1 : WF h ((l1 ++ [y]) ++ x :: l2) := hre ▸ hwf
  have t1 : total (l1 ++ [y]) = total l1 + sz y := by
    rw [total_append]; show total l1 + (sz y + 0) = _; omega
  have e := free_entry h (l1 ++ [y]) l2 x hwf1 (by omega)
  rw [t1] at e
  have e2 : h.first_blk + (total l1 + sz y) = h.first_blk + total l1 + sz y := by omega
  rw [e2] at e
  rw [e]
  exact ⟨rfl, rfl, (free_b h l1 l2 y x hwf hx).1⟩

/-- Three `Free_Mem` calls in a row. -/
theorem chain3 (h : Heap) (p1 p2 p3 : Int) (L1 L2 L3 : List Int)
    (s1 : (Free_Mem h p1).2 = 0 ∧ (Free_Mem h p1).1.first_blk = h.first_blk ∧
      WF (Free_Mem h p1).1 L1)
    (s2 : ∀ h1 : Heap, h1.first_blk = h.first_blk → WF h1 L1 →
      (Free_Mem h1 p2).2 = 0 ∧ (Free_Mem h1 p2).1.first_blk = h1.first_blk ∧
        WF (Free_Mem h1 p2).1 L2)
    (s3 : ∀ h2 : Heap, h2.first_blk = h.first_blk → WF h2 L2 →
      (Free_Mem h2 p3).2 = 0 ∧ (Free_Mem h2 p3).1.first_blk = h2.first_blk ∧
        WF (Free_Mem h2 p3).1 L3) :
    (freeSeq h [p1, p2, p3]).2 = [0, 0, 0] ∧ (freeSeq h [p1, p2, p3]).1.first_blk = h.first_blk ∧
      WF (freeSeq h [p1, p2, p3]).1 L3 := by
  obtain ⟨a1, a2, a3⟩ := s1
  obtain ⟨b1, b2, b3⟩ := s2 _ a2 a3
  obtain ⟨c1, c2, c3⟩ := s3 _ (b2.trans a2) b3
  have e1 : (freeSeq h [p1, p2, p3]).1 =
      (Free_Mem (Free_Mem (Free_Mem h p1).1 p2).1 p3).1 := rfl
  have e2 : (freeSeq h [p1, p2, p3]).2 =
      [(Free_Mem h p1).2, (Free_Mem (Free_Mem h p1).1 p2).2,
        (Free_Mem (Free_Mem (Free_Mem h p1).1 p2).1 p3).2] := rfl
  rw [e1, e2, a1, b1, c1]
  exact ⟨rfl, c2.trans (b2.trans a2), c3⟩

/-- When the successor is allocated or the end mark, the new free block does not merge
forward, and the blocks after it do not depend on its size. -/
theorem fwd_alloc_shape (post : List Int)
    (hpost : post = [] ∨ ∃ z zs, post = z :: zs ∧ z % 2 = 1) :
    ∃ post1, ∀ S : Int, fwdBlocks S post = (S + 2) :: post1 := by
  rcases hpost with hp | ⟨z, zs, hp, hz⟩
  · subst hp
    exact ⟨[], fun S => rfl⟩
  · subst hp
    refine ⟨(z - 2) :: zs, fun S => ?_⟩
    show (if z % 2 = 0 then _ else _) = _
    rw [if_neg (by omega)]

theorem fwd_odd (S z : Int) (zs : List Int) (hz : z % 2 = 1) :
    fwdBlocks S (z :: zs) = (S + 2) :: (z - 2) :: zs := by
  show (if z % 2 = 0 then _ else _) = _
  rw [if_neg (by omega)]

theorem fwd_even (S z : Int) (zs : List Int) (hz : z % 2 = 0) :
    fwdBlocks S (z :: zs) = (S + sz z + 2) :: zs := by
  show (if z % 2 = 0 then _ else _) = _
  rw [if_pos hz]

theorem total_snoc1 (l : List Int) (x : Int) : total (l ++ [x]) = total l + sz x := by
  rw [total_append]; show total l + (sz x + 0) = _; omega

theorem total_snoc2 (l : List Int) (x y : Int) :
    total (l ++ [x, y]) = total l + sz x + sz y := by
  rw [total_append]; show total l + (sz x + (sz y + 0)) = _; omega

/-- The six orders of freeing three adjacent allocated blocks `A`, `B`, `C` all return 0
three times and leave the same block list. -/
theorem three_core (h : Heap) (pre post post1 : List Int) (A B C : Int)
    (hwf : WF h (pre ++ A :: B :: C :: post)) (hA : A % 4 = 3) (hB : B % 2 = 1)
    (hC : C % 2 = 1) (hsh : ∀ S : Int, fwdBlocks S post = (S + 2) :: post1)
    (p1 p2 p3 : Int)
    (hps : [p1, p2, p3] ∈
      [[h.first_blk + total pre + 4, h.first_blk + total pre + sz A + 4,
          h.first_blk + total pre + sz A + sz B + 4],
       [h.first_blk + total pre + 4, h.first_blk + total pre + sz A + sz B + 4,
          h.first_blk + total pre + sz A + 4],
       [h.first_blk + total pre + sz A + 4, h.first_blk + total pre + 4,
          h.first_blk + total pre + sz A + sz B + 4],
       [h.first_blk + total pre + sz A + 4, h.first_blk + total pre + sz A + sz B + 4,
          h.first_blk + total pre + 4],
       [h.first_blk + total pre + sz A + sz B + 4, h.first_blk + total pre + 4,
          h.first_blk + total pre + sz A + 4],
       [h.first_blk + total pre + sz A + sz B + 4, h.first_blk + total pre + sz A + 4,
          h.first_blk + total pre + 4]]) :
    (freeSeq h [p1, p2, p3]).2 = [0, 0, 0] ∧
    (freeSeq h [p1, p2, p3]).1.first_blk = h.first_blk ∧
    WF (freeSeq h [p1, p2, p3]).1 (pre ++ (sz A + sz B + sz C + 2) :: post1) := by
  have hsz := hwf.sizes
  rw [Sizes_append, Sizes_cons, Sizes_cons, Sizes_cons] at hsz
  obtain ⟨-, ⟨a0, a8⟩, ⟨b0, b8⟩, ⟨c0, c8⟩, -⟩ := hsz
  have hbits := hwf.bits
  rw [Bits_append] at hbits
  obtain ⟨-, -, -, hb1, -, hc1, -, -⟩ := hbits
  have hB4 : B % 4 = 3 := by omega
  have hC4 : C % 4 = 3 := by omega
  have hsA : sz A = A - A % 4 := rfl
  have hsB : sz B = B - B % 4 := rfl
  have hsC : sz C = C - C % 4 := rfl
  have zA : sz (sz A + 2) = sz A := by unfold sz; omega
  have zB : sz (sz B + 2) = sz B := by unfold sz; omega
  have zC : sz (sz C + 2) = sz C := by unfold sz; omega
  have zAB : sz (sz A + sz B + 2) = sz A + sz B := by unfold sz; omega
  have zBC : sz (sz B + sz C + 2) = sz B + sz C := by unfold sz; omega
  have zB2 : sz (B - 2) = sz B := by unfold sz; omega
  have zC2 : sz (C - 2) = sz C := by unfold sz; omega
  have oB2 : (B - 2) % 4 = 1 := by omega
  have oC2 : (C - 2) % 4 = 1 := by omega
  have eA : (sz A + 2) % 2 = 0 := by omega
  have eB : (sz B + 2) % 2 = 0 := by omega
  have eC : (sz C + 2) % 2 = 0 := by omega
  have eBC : (sz B + sz C + 2) % 2 = 0 := by omega
  -- the twelve single steps
  have t0A : ∀ g : Heap, g.first_blk = h.first_blk → WF g (pre ++ A :: B :: C :: post) →
      (Free_Mem g (h.first_blk + total pre + 4)).2 = 0 ∧
      (Free_Mem g (h.first_blk + total pre + 4)).1.first_blk = g.first_blk ∧
      WF (Free_Mem g (h.first_blk + total pre + 4)).1
        (pre ++ (sz A + 2) :: (B - 2) :: C :: post) := fun g hg hw =>
    step_nb g _ pre (B :: C :: post) _ A _ hw rfl hA (by rw [hg]) (by rw [fwd_odd _ _ _ hB])
  have t0B : ∀ g : Heap, g.first_blk = h.first_blk → WF g (pre ++ A :: B :: C :: post) →
      (Free_Mem g (h.first_blk + total pre + sz A + 4)).2 = 0 ∧
      (Free_Mem g (h.first_blk + total pre + sz A + 4)).1.first_blk = g.first_blk ∧
      WF (Free_Mem g (h.first_blk + total pre + sz A + 4)).1
        (pre ++ A :: (sz B + 2) :: (C - 2) :: post) := fun g hg hw =>
    step_nb g _ (pre ++ [A]) (C :: post) _ B _ hw (by simp) hB4
      (by rw [hg, total_snoc1]; omega) (by rw [fwd_odd _ _ _ hC]; simp)
  have t0C : ∀ g : Heap, g.first_blk = h.first_blk → WF g (pre ++ A :: B :: C :: post) →
      (Free_Mem g (h.first_blk + total pre + sz A + sz B + 4)).2 = 0 ∧
      (Free_Mem g (h.first_blk + total pre + sz A + sz B + 4)).1.first_blk = g.first_blk ∧
      WF (Free_Mem g (h.first_blk + total pre + sz A + sz B + 4)).1
        (pre ++ A :: B :: (sz C + 2) :: post1) := fun g hg hw =>
    step_nb g _ (pre ++ [A, B]) post _ C _ hw (by simp) hC4
      (by rw [hg, total_snoc2]; omega) (by rw [hsh]; simp)
  have tAB : ∀ g : Heap, g.first_blk = h.first_blk →
      WF g (pre ++ (sz A + 2) :: (B - 2) :: C :: post) →
      (Free_Mem g (h.first_blk + total pre + sz A + 4)).2 = 0 ∧
      (Free_Mem g (h.first_blk + total pre + sz A + 4)).1.first_blk = g.first_blk ∧
      WF (Free_Mem g (h.first_blk + total pre + sz A + 4)).1
        (pre ++ (sz A + sz B + 2) :: (C - 2) :: post) := fun g hg hw =>
    step_b g _ pre (C :: post) _ (sz A + 2) (B - 2) _ hw rfl oB2
      (by rw [hg, zA]) (by rw [fwd_odd _ _ _ hC, zA, zB2])
  have tAC : ∀ g : Heap, g.first_blk = h.first_blk →
      WF g (pre ++ (sz A + 2) :: (B - 2) :: C :: post) →
      (Free_Mem g (h.first_blk + total pre + sz A + sz B + 4)).2 = 0 ∧
      (Free_Mem g (h.first_blk + total pre + sz A + sz B + 4)).1.first_blk = g.first_blk ∧
      WF (Free_Mem g (h.first_blk + total pre + sz A + sz B + 4)).1
        (pre ++ (sz A + 2) :: (B - 2) :: (sz C + 2) :: post1) := fun g hg hw =>
    step_nb g _ (pre ++ [sz A + 2, B - 2]) post _ C _ hw (by simp) hC4
      (by rw [hg, total_snoc2, zA, zB2]; omega) (by rw [hsh]; simp)
  have tBA : ∀ g : Heap, g.first_blk = h.first_blk →
      WF g (pre ++ A :: (sz B + 2) :: (C - 2) :: post) →
      (Free_Mem g (h.first_blk + total pre + 4)).2 = 0 ∧
      (Free_Mem g (h.first_blk + total pre + 4)).1.first_blk = g.first_blk ∧
      WF (Free_Mem g (h.first_blk + total pre + 4)).1
        (pre ++ (sz A + sz B + 2) :: (C - 2) :: post) := fun g hg hw =>
    step_nb g _ pre ((sz B + 2) :: (C - 2) :: post) _ A _ hw rfl hA (by rw [hg])
      (by rw [fwd_even _ _ _ eB, zB])
  have tBC : ∀ g : Heap, g.first_blk = h.first_blk →
      WF g (pre ++ A :: (sz B + 2) :: (C - 2) :: post) →
      (Free_Mem g (h.first_blk + total pre + sz A + sz B + 4)).2 = 0 ∧
      (Free_Mem g (h.first_blk + total pre + sz A + sz B + 4)).1.first_blk = g.first_blk ∧
      WF (Free_Mem g (h.first_blk + total pre + sz A + sz B + 4)).1
        (pre ++ A :: (sz B + sz C + 2) :: post1) := fun g hg hw =>
    step_b g _ (pre ++ [A]) post _ (sz B + 2) (C - 2) _ hw (by simp) oC2
      (by rw [hg, total_snoc1, zB]; omega) (by rw [hsh, zB, zC2]; simp)
  have tCA : ∀ g : Heap, g.first_blk = h.first_blk →
      WF g (pre ++ A :: B :: (sz C + 2) :: post1) →
      (Free_Mem g (h.first_blk + total pre + 4)).2 = 0 ∧
      (Free_Mem g (h.first_blk + total pre + 4)).1.first_blk = g.first_blk ∧
      WF (Free_Mem g (h.first_blk + total pre + 4)).1
        (pre ++ (sz A + 2) :: (B - 2) :: (sz C + 2) :: post1) := fun g hg hw =>
    step_nb g _ pre (B :: (sz C + 2) :: post1) _ A _ hw rfl hA (by rw [hg])
      (by rw [fwd_odd _ _ _ hB])
  have tCB : ∀ g : Heap, g.first_blk = h.first_blk →
      WF g (pre ++ A :: B :: (sz C + 2) :: post1) →
      (Free_Mem g (h.first_blk + total pre + sz A + 4)).2 = 0 ∧
      (Free_Mem g (h.first_blk + total pre + sz A + 4)).1.first_blk = g.first_blk ∧
      WF (Free_Mem g (h.first_blk + total pre + sz A + 4)).1
        (pre ++ A :: (sz B + sz C + 2) :: post1) := fun g hg hw =>
    step_nb g _ (pre ++ [A]) ((sz C + 2) :: post1) _ B _ hw (by simp) hB4
      (by rw [hg, total_snoc1]; omega) (by rw [fwd_even _ _ _ eC, zC]; simp)
  have tABC : ∀ g : Heap, g.first_blk = h.first_blk →
      WF g (pre ++ (sz A + sz B + 2) :: (C - 2) :: post) →
      (Free_Mem g (h.first_blk + total pre + sz A + sz B + 4)).2 = 0 ∧
      (Free_Mem g (h.first_blk + total pre + sz A + sz B + 4)).1.first_blk = g.first_blk ∧
      WF (Free_Mem g (h.first_blk + total pre + sz A + sz B + 4)).1
        (pre ++ (sz A + sz B + sz C + 2) :: post1) := fun g hg hw =>
    step_b g _ pre post _ (sz A + sz B + 2) (C - 2) _ hw rfl oC2
      (by rw [hg, zAB]; omega) (by rw [hsh, zAB, zC2])
  have tACB : ∀ g : Heap, g.first_blk = h.first_blk →
      WF g (pre ++ (sz A + 2) :: (B - 2) :: (sz C + 2) :: post1) →
      (Free_Mem g (h.first_blk + total pre + sz A + 4)).2 = 0 ∧
      (Free_Mem g (h.first_blk + total pre + sz A + 4)).1.first_blk = g.first_blk ∧
      WF (Free_Mem g (h.first_blk + total pre + sz A + 4)).1
        (pre ++ (sz A + sz B + sz C + 2) :: post1) := fun g hg hw =>
    step_b g _ pre ((sz C + 2) :: post1) _ (sz A + 2) (B - 2) _ hw rfl oB2
      (by rw [hg, zA]) (by rw [fwd_even _ _ _ eC, zA, zB2, zC])
  have tBCA : ∀ g : Heap, g.first_blk = h.first_blk →
      WF g (pre ++ A :: (sz B + sz C + 2) :: post1) →
      (Free_Mem g (h.first_blk + total pre + 4)).2 = 0 ∧
      (Free_Mem g (h.first_blk + total pre + 4)).1.first_blk = g.first_blk ∧
      WF (Free_Mem g (h.first_blk + total pre + 4)).1
        (pre ++ (sz A + sz B + sz C + 2) :: post1) := fun g hg hw =>
    step_nb g _ pre ((sz B + sz C + 2) :: post1) _ A _ hw rfl hA (by rw [hg])
      (by rw [fwd_even _ _ _ eBC, zBC]; simp [Int.add_assoc])
  simp only [List.mem_cons, List.mem_singleton, List.not_mem_nil, or_false,
    List.cons.injEq, and_true] at hps
  rcases hps with ⟨e1, e2, e3⟩ | ⟨e1, e2, e3⟩ | ⟨e1, e2, e3⟩ | ⟨e1, e2, e3⟩ | ⟨e1, e2, e3⟩ |
    ⟨e1, e2, e3⟩
  · subst e1; subst e2; subst e3
    exact chain3 h _ _ _ _ _ _ (t0A h rfl hwf) tAB tABC
  · subst e1; subst e2; subst e3
    exact chain3 h _ _ _ _ _ _ (t0A h rfl hwf) tAC tACB
  · subst e1; subst e2; subst e3
    exact chain3 h _ _ _ _ _ _ (t0B h rfl hwf) tBA tABC
  · subst e1; subst e2; subst e3
    exact chain3 h _ _ _ _ _ _ (t0B h rfl hwf) tBC tBCA
  · subst e1; subst e2; subst e3
    exact chain3 h _ _ _ _ _ _ (t0C h rfl hwf) tCA tACB
  · subst e1; subst e2; subst e3
    exact chain3 h _ _ _ _ _ _ (t0C h rfl hwf) tCB tBCA

/-! ## Requests whose rounding overflows -/

/-- The block size that `Alloc_Mem` computes when the rounding leaves the range of `int`. -/
theorem roundSize_overflow (size : Int) (h1 : size ≤ 2147483647)
    (h2 : 2147483647 < size + 11) :
    roundSize size = -2147483648 ∨ roundSize size = -2147483632 := by
  have h3 : 2147483637 ≤ size := by omega
  interval_cases size <;> decide

/-- A heap stays well formed when the words of its region are not changed. -/
theorem WF_frame (h : Heap) (hs : List Int) (m1 : Memory) (hwf : WF h hs)
    (hframe : ∀ addr, h.first_blk ≤ addr → addr ≤ h.first_blk + total hs →
      m1 addr = h.mem addr) :
    WF { h with mem := m1 } hs := by
  obtain ⟨wseg, wend, wsizes, wbits, walign, wlo, whi, wsmall, wregion⟩ := hwf
  have n := total_nonneg hs wsizes
  refine ⟨?_, ?_, wsizes, wbits, walign, wlo, whi, wsmall, wregion⟩
  · show Seg m1 h.first_blk hs
    exact Seg_frame h.mem m1 hs h.first_blk wsizes wseg
      (fun a h1 h2 => hframe a h1 (by omega))
  · show m1 (h.first_blk + total hs) = 1
    rw [hframe _ (by omega) (by omega)]
    exact wend

/-- Address and size arithmetic of a split with a wrapped, negative block size `R`: `sh` is
the address of the split header and `V` the size written there. -/
theorem ovf_arith (a T R fb tot sh V : Int) (hsh : sh = padd a R) (hV : V = isub T R)
    (hR1 : -2147483648 ≤ R) (hR2 : R ≤ -2147483632) (hR8 : R % 8 = 0)
    (hT8 : 8 ≤ T) (hTm : T % 8 = 0) (ha8 : a % 8 = 4)
    (hfb : 0 < fb) (hafb : fb ≤ a) (haT : a + T ≤ fb + tot)
    (hreg : tot + 8 ≤ 2147483647) (hhi : fb + tot + 4 ≤ 4294967296) :
    (V % 8 = 0 ∧ -2147483648 ≤ V ∧ V ≤ 2147483640 ∧ V ≠ 0) ∧
    (sh ≠ a ∧ sh ≠ a + T - 4 ∧ sh - 4 ≠ a ∧ sh - 4 ≠ a + T - 4 ∧ 4 ≤ sh ∧ sh < 4294967296) ∧
    (padd sh V = a + T ∧ psub sh 4 = sh - 4 ∧ padd (sh - 4) 4 = sh ∧
      padd (sh - 4) V = a + T - 4 ∧ iadd V R = T) ∧
    (sh < fb ∨ fb + tot < sh - 4) := by
  unfold padd ptr32 at hsh
  unfold isub wrap32 at hV
  refine ⟨⟨by omega, by omega, by omega, by omega⟩,
    ⟨by omega, by omega, by omega, by omega, by omega, by omega⟩, ⟨?_, ?_, ?_, ?_, ?_⟩, by omega⟩
  · unfold padd ptr32; omega
  · unfold psub ptr32; omega
  · unfold padd ptr32; omega
  · unfold padd ptr32; omega
  · unfold iadd wrap32; omega

/-- The split of `Alloc_Mem` with a wrapped, negative block size `R`: split header `sh` and
remainder size `V` are computed modulo 2^32. -/
theorem ovf_alloc (m : Memory) (a R x sh V : Int) (hx : m a = x) (hx4 : x % 4 = 2)
    (hx0 : 8 ≤ x) (hxr : x ≤ 2147483643)
    (hR1 : -2147483648 ≤ R) (hR2 : R ≤ -2147483632) (hR8 : R % 8 = 0)
    (hsh : padd a R = sh) (hV : isub (sz x) R = V)
    (hV8 : V % 8 = 0) (hV1 : -2147483648 ≤ V) (hV2 : V ≤ 2147483640)
    (hne : sh ≠ a) (hpad : padd sh V = a + sz x) (ha : 0 < a)
    (hhi : a + sz x + 4 ≤ 4294967296) :
    allocFinish m R a 1 =
      (store (store (store m sh (V + 2)) a (R + 3)) (a + sz x - 4) V, a + 4) := by
  have hsz : sz x = x - x % 4 := rfl
  have b4 : band (m a) (-4) = sz x := by rw [hx]; exact band_neg4 x (by omega)
  have e3 : bor V 2 = V + 2 := bor_low V 2 (by omega) (by omega) (by decide)
  have e4 : store m sh (V + 2) a = x := by
    rw [store_other _ _ _ _ (fun hh => hne hh.symm)]; exact hx
  have e5 : band x 2 = 2 := by rw [band_two]; omega
  have e6 : bor 2 R = R + 2 := bor_low_left 2 R (by omega) (by omega) (by decide)
  have e7 : bor (R + 2) 1 = R + 3 := by rw [bor_one _ (by omega) (by omega)]; omega
  have e8 : store (store m sh (V + 2)) a (R + 3) sh = V + 2 := by
    rw [store_other _ _ _ _ hne, store_same]
  have e9 : band (V + 2) (-4) = V := by
    rw [band_neg4 _ (by omega)]; omega
  have e11 : psub (a + sz x) blk_size = a + sz x - 4 := by
    unfold blk_size; exact psub_eq _ _ (by omega) (by omega)
  have e12 : padd a blk_size = a + 4 := by
    unfold blk_size; exact padd_eq _ _ (by omega) (by omega)
  unfold allocFinish
  rw [if_neg (by decide), b4, if_neg (by omega), if_pos (by omega)]
  simp only [hsh, hV, e3, e4, e5, e6, e7, e8, e9, hpad, e11, e12]

/-- The call `Free_Mem` on the block that `ovf_alloc` produced: the footer is written at
`sh - 4`, the split header at `sh` is taken for the next block, and the forward merge
rebuilds header and footer of the original free block of size `T`. -/
theorem ovf_free (m : Memory) (a R T sh V : Int) (hA : m a = R + 3) (hS : m sh = V + 2)
    (hR1 : -2147483648 ≤ R) (hR2 : R ≤ -2147483632) (hR8 : R % 8 = 0)
    (hV8 : V % 8 = 0) (hV1 : -2147483648 ≤ V) (hV2 : V ≤ 2147483640)
    (hT8 : 8 ≤ T) (hT2 : T ≤ 2147483640)
    (hsh : padd a R = sh) (hps : psub sh 4 = sh - 4) (hpa : padd (sh - 4) 4 = sh)
    (hpv : padd (sh - 4) V = a + T - 4) (hsum : iadd V R = T)
    (hne : sh ≠ a) (hne2 : sh - 4 ≠ a) :
    freeBody m a =
      store (store (store (store (store m (sh - 4) R) a (R + 2)) sh V) (a + T - 4) T) a
        (T + 2) := by
  have b4 : band (m a) (-4) = R := by rw [hA, band_neg4 _ (by omega)]; omega
  have f0 : psub sh blk_size = sh - 4 := hps
  have f1 : store m (sh - 4) R a = R + 3 := by
    rw [store_other _ _ _ _ (fun hh => hne2 hh.symm)]; exact hA
  have f2 : band (R + 3) (-2) = R + 2 := by rw [band_neg2 _ (by omega)]; omega
  have f3 : store (store m (sh - 4) R) a (R + 2) sh = V + 2 := by
    rw [store_other _ _ _ _ hne, store_other _ _ _ _ (by omega)]; exact hS
  have f4 : ¬ (V + 2 = 1) := by omega
  have f5 : isub (V + 2) 2 = V := by rw [isub_eq _ _ (by omega) (by omega)]; omega
  have hmark : freeMark m a (sh - 4) =
      (store (store (store m (sh - 4) R) a (R + 2)) sh V, 0) := by
    unfold freeMark
    simp only [b4, f1, f2, hpa, f3, f4, f5, if_false]
  have g1 : store (store (store m (sh - 4) R) a (R + 2)) sh V a = R + 2 := by
    rw [store_other _ _ _ _ (fun hh => hne hh.symm), store_same]
  have hback := freeBack_no (store (store (store m (sh - 4) R) a (R + 2)) sh V) a (sh - 4)
    (R + 2) g1 (by omega)
  have k1 : store (store (store m (sh - 4) R) a (R + 2)) sh V sh = V := store_same _ _ _
  have k2 : band V 1 = 0 := by rw [band_one]; omega
  have k3 : band V (-4) = V := by rw [band_neg4 _ (by omega)]; omega
  have k4 : store (store (store m (sh - 4) R) a (R + 2)) sh V (sh - 4) = R := by
    rw [store_other _ _ _ _ (by omega), store_other _ _ _ _ hne2, store_same]
  have k5 : store (store (store (store m (sh - 4) R) a (R + 2)) sh V) (a + T - 4) T a
      = R + 2 := by
    rw [store_other _ _ _ _ (by omega)]; exact g1
  have k6 : band (R + 2) 3 = 2 := by rw [band_three]; omega
  have k7 : store (store (store (store m (sh - 4) R) a (R + 2)) sh V) (a + T - 4) T
      (a + T - 4) = T := store_same _ _ _
  have k8 : iadd T 2 = T + 2 := iadd_eq _ _ (by omega) (by omega)
  have hfwd : freeFwd (store (store (store m (sh - 4) R) a (R + 2)) sh V) a (sh - 4) 0 =
      store (store (store (store (store m (sh - 4) R) a (R + 2)) sh V) (a + T - 4) T) a
        (T + 2) := by
    unfold freeFwd
    rw [if_neg (by decide)]
    simp only [hpa, k1, k2, k3, k4, hpv, hsum, k5, k6, k7, k8, if_true]
  unfold freeBody
  simp only [b4, hsh, f0, hmark, hback, hfwd]

/-- After `ovf_alloc` and `ovf_free` every word of the region holds its old value: the words
at `sh` and `sh - 4` lie outside the region, and header and footer of the block are
written back. -/
theorem ovf_restore (m : Memory) (a R T x sh V fb tot addr : Int) (hx : m a = x)
    (hxT : T + 2 = x) (hft : m (a + T - 4) = T)
    (hout : sh < fb ∨ fb + tot < sh - 4) (h1 : fb ≤ addr) (h2 : addr ≤ fb + tot) :
    store (store (store (store (store
      (store (store (store m sh (V + 2)) a (R + 3)) (a + T - 4) V)
        (sh - 4) R) a (R + 2)) sh V) (a + T - 4) T) a (T + 2) addr = m addr := by
  by_cases c1 : addr = a
  · rw [c1, store_same, hx, hxT]
  · rw [store_other _ _ _ _ c1]
    by_cases c2 : addr = a + T - 4
    · rw [c2, store_same, hft]
    · have c3 : addr ≠ sh := by omega
      have c4 : addr ≠ sh - 4 := by omega
      rw [store_other _ _ _ _ c2, store_other _ _ _ _ c3, store_other _ _ _ _ c1,
        store_other _ _ _ _ c4, store_other _ _ _ _ c2, store_other _ _ _ _ c1,
        store_other _ _ _ _ c3]

/-- Round trip for a request whose rounding overflows: `Alloc_Mem` takes the split path
with a negative block size, and the `Free_Mem` that follows restores the region. -/
theorem ovf_round_trip (h : Heap) (hs : List Int) (hwf : WF h hs) (size : Int)
    (h0 : 0 < size) (hint : size ≤ 2147483647) (ho : 2147483647 < size + 11)
    (fuel : Nat) (h1 : Heap) (p : Int)
    (hal : Alloc_Mem fuel h size = some (h1, p)) (hp : p ≠ 0) :
    WF (Free_Mem h1 p).1 hs ∧ (Free_Mem h1 p).1.first_blk = h.first_blk := by
  have hf := alloc_fuel h hs hwf size h0 fuel _ hal
  obtain ⟨R, hRdef⟩ : ∃ R, R = roundSize size := ⟨_, rfl⟩
  have hRf : -2147483648 ≤ R ∧ R ≤ -2147483632 ∧ R % 8 = 0 := by
    rcases roundSize_overflow size hint ho with e | e <;> rw [hRdef, e] <;> decide
  obtain ⟨hR1, hR2, hR8⟩ := hRf
  obtain ⟨st1, fit1, hinv, hscan⟩ :=
    scan_spec h.mem h.first_blk R hs hwf.seg hwf.endm hwf.sizes hwf.lo hwf.hi
      hwf.small hs [] h.first_blk h.first_blk 0 (by simp) (by simp [total])
      (Or.inl ⟨rfl, rfl, by simp⟩)
  unfold Alloc_Mem at hal
  rw [if_neg (not_le.mpr h0), ← hRdef, hscan fuel hf] at hal
  injection hal with hal
  injection hal with e1 e2
  rcases hinv with ⟨hfit, -, -⟩ | ⟨hfit, l1, x, l2, hsplit, hst, hfree, hge⟩
  · exfalso
    apply hp
    rw [← e2, hfit]
    unfold allocFinish
    rw [if_pos rfl]
  · obtain ⟨hmx, hx8, hx8m, hxlo, hxr, hp0, hq0, htot, -, hfoot⟩ :=
      block_at h.mem h.first_blk hs l1 l2 x hwf.seg hwf.sizes hwf.lo hwf.hi hwf.small hsplit
    have hft := hfoot hfree
    have hlo := hwf.lo
    have hhi := hwf.hi
    have hreg := hwf.region
    have hal8 := hwf.align
    have hbits := hwf.bits
    have hsz := hwf.sizes
    rw [hsplit] at hbits hsz
    rw [Sizes_append] at hsz
    have m8 := total_mod8 l1 hsz.1
    have hx4 := free_pbit 1 l1 l2 x rfl hbits hfree
    have hsx : sz x = x - x % 4 := rfl
    have hxT : sz x + 2 = x := by omega
    have hT2 : sz x ≤ 2147483640 := by omega
    have ha8 : (h.first_blk + total l1) % 8 = 4 := by omega
    have hafb : h.first_blk ≤ h.first_blk + total l1 := by omega
    have haT : h.first_blk + total l1 + sz x ≤ h.first_blk + total hs := by omega
    have hapos : 0 < h.first_blk + total l1 := by omega
    have hahi : h.first_blk + total l1 + sz x + 4 ≤ 4294967296 := by omega
    obtain ⟨⟨hV8, hV1, hV2, -⟩, ⟨n1, n2, n3, n4, n5, n6⟩, ⟨q1, q2, q3, q4, q5⟩, hout⟩ :=
      ovf_arith (h.first_blk + total l1) (sz x) R h.first_blk (total hs)
        (padd (h.first_blk + total l1) R) (isub (sz x) R) rfl rfl hR1 hR2 hR8 hx8 hx8m ha8
        hlo hafb haT hreg hhi
    have ea := ovf_alloc h.mem (h.first_blk + total l1) R x
      (padd (h.first_blk + total l1) R) (isub (sz x) R) hmx hx4 hxlo hxr hR1 hR2 hR8 rfl rfl
      hV8 hV1 hV2 n1 q1 hapos hahi
    rw [hfit, hst, ea] at e1 e2
    dsimp only at e1 e2
    have hne3 : h.first_blk + total l1 ≠ h.first_blk + total l1 + sz x - 4 := by omega
    have r1 : h1.mem (h.first_blk + total l1) = R + 3 := by
      rw [← e1]
      show store _ _ _ _ = _
      rw [store_other _ _ _ _ hne3, store_same]
    have r2 : h1.mem (padd (h.first_blk + total l1) R) = isub (sz x) R + 2 := by
      rw [← e1]
      show store _ _ _ _ = _
      rw [store_other _ _ _ _ n2, store_other _ _ _ _ n1, store_same]
    have ef := ovf_free h1.mem (h.first_blk + total l1) R (sz x)
      (padd (h.first_blk + total l1) R) (isub (sz x) R) r1 r2 hR1 hR2 hR8 hV8 hV1 hV2 hx8 hT2
      rfl q2 q3 q4 q5 n1 n3
    have g1 : ¬ (h.first_blk + total l1 + 4 = 0) := by omega
    have g2 : psub (h.first_blk + total l1 + 4) blk_size = h.first_blk + total l1 := by
      unfold blk_size
      rw [psub_eq _ _ (by omega) (by omega)]; omega
    have g3 : imod (wrap32 (h.first_blk + total l1 + 4)) 8 = 0 :=
      (imod8_wrap _).mpr (by omega)
    have g4 : band (h1.mem (h.first_blk + total l1)) 1 = 1 := by
      rw [r1, band_one]; omega
    have hfree2 : Free_Mem h1 p =
        ({ h1 with mem := freeBody h1.mem (h.first_blk + total l1) }, 0) := by
      rw [← e2]
      unfold Free_Mem
      rw [if_neg g1, g2, g3, g4, if_neg (by decide)]
    rw [hfree2, ef, ← e1]
    refine ⟨?_, rfl⟩
    apply WF_frame h hs _ hwf
    intro addr b1 b2
    exact ovf_restore h.mem (h.first_blk + total l1) R (sz x) x
      (padd (h.first_blk + total l1) R) (isub (sz x) R) h.first_blk (total hs) addr hmx hxT hft
      hout b1 b2

/-! # Properties of the specification -/

theorem sum_sizes (hs : List Int) (hb : ∀ x ∈ hs, band x (-4) = sz x) : ∀ a : Int,
    ((List.zip (addrs a hs) hs).map (fun b => band b.2 (-4))).sum = total hs := by
  induction hs with
  | nil => intro a; rfl
  | cons x xs ih =>
    intro a
    have e : List.zip (addrs a (x :: xs)) (x :: xs) =
        (a, x) :: List.zip (addrs (a + sz x) xs) xs := rfl
    have t : total (x :: xs) = sz x + total xs := rfl
    rw [e, t, List.map_cons, List.sum_cons,
      ih (fun y hy => hb y (List.mem_cons_of_mem _ hy)), hb x (List.mem_cons_self _ _)]

/-- Splitting the walk result splits the header list the same way. -/
theorem zip_split (hs : List Int) (a : Int) (l1 l2 : List (Int × Int))
    (h : List.zip (addrs a hs) hs = l1 ++ l2) :
    hs = l1.map Prod.snd ++ l2.map Prod.snd := by
  have e := zip_addrs_snd hs a
  rw [h, List.map_append] at e
  exact e.symm

/-- C1 (partition invariant). In every heap reached from a successful `Init_Mem` by
`Alloc_Mem` calls whose rounding does not overflow and `Free_Mem` calls on `NULL` or on a
payload address of the block list, the walk from `first_blk` that adds each size field
`size_status & -4` stops on the end mark, every visited size is a positive multiple of 8,
and the visited sizes add up to the usable region size fixed by `Init_Mem`. -/
theorem C1_partition (U : Int) (h : Heap) (hr : Reach U h) :
    ∃ l : List (Int × Int), walk h.mem (l.length + 1) h.first_blk = some l ∧
      (∀ b ∈ l, 0 < band b.2 (-4) ∧ band b.2 (-4) % 8 = 0) ∧
      (l.map (fun b => band b.2 (-4))).sum = U := by
  obtain ⟨hs, hw, ht, hwalk⟩ := reach_walk U h hr
  have hb : ∀ x ∈ hs, band x (-4) = sz x := fun x hx =>
    (hdr_facts hs hw.sizes hw.small x hx).2.2.2.2.2.1
  refine ⟨List.zip (addrs h.first_blk hs) hs, ?_, ?_, ?_⟩
  · rw [zip_addrs_length]; exact hwalk
  · intro b hb2
    have hmem : b.2 ∈ hs := by
      obtain ⟨pre, post, h1, -⟩ := mem_zip_addrs hs _ b hb2
      rw [h1]; simp
    rw [hb b.2 hmem]
    exact hw.sizes b.2 hmem
  · rw [sum_sizes hs hb, ht]

/-- C1 at the heap reached by `Init_Mem(4096)`, `Alloc_Mem(20)`, `Alloc_Mem(4)` and
`Free_Mem(65544)`. -/
theorem C1_partition_witness :
    Reach 4088 heap3 ∧
    ∃ l : List (Int × Int), walk heap3.mem (l.length + 1) heap3.first_blk = some l ∧
      (∀ b ∈ l, 0 < band b.2 (-4) ∧ band b.2 (-4) % 8 = 0) ∧
      (l.map (fun b => band b.2 (-4))).sum = 4088 :=
  ⟨reach_heap3, C1_partition 4088 heap3 reach_heap3⟩

/-- Eager coalescing on the defined range of `int`: in every heap reached from a successful
`Init_Mem` by `Alloc_Mem` calls whose rounding stays inside `int` and `Free_Mem` calls on
`NULL` or on a payload address of the block list, no two address-adjacent blocks of the
block list both have the allocated bit clear. -/
theorem reach_no_adjacent_free (U : Int) (h : Heap) (hr : Reach U h) :
    ∃ l : List (Int × Int), walk h.mem (l.length + 1) h.first_blk = some l ∧
      ∀ (l1 l2 : List (Int × Int)) (b c : Int × Int), l = l1 ++ b :: c :: l2 →
        ¬ (band b.2 1 = 0 ∧ band c.2 1 = 0) := by
  obtain ⟨hs, hw, -, hwalk⟩ := reach_walk U h hr
  refine ⟨List.zip (addrs h.first_blk hs) hs, ?_, ?_⟩
  · rw [zip_addrs_length]; exact hwalk
  · intro l1 l2 b c hl
    have e := zip_split hs _ l1 (b :: c :: l2) hl
    have hbits := hw.bits
    rw [e, Bits_append] at hbits
    obtain ⟨-, -, -, -, hb2, -⟩ := hbits
    rw [band_one, band_one]
    intro hh
    have := hb2 hh.1
    omega

/-- Previous-allocated bits on the defined range of `int`: in every heap reached from a
successful `Init_Mem` by `Alloc_Mem` calls whose rounding stays inside `int` and `Free_Mem`
calls on `NULL` or on a payload address of the block list, each block of the block list
other than the first has bit 1 of its header set exactly when the block before it has bit 0
set, and the first block has bit 1 set. -/
theorem reach_prev_bit (U : Int) (h : Heap) (hr : Reach U h) :
    ∃ l : List (Int × Int), walk h.mem (l.length + 1) h.first_blk = some l ∧
      (∀ (l1 l2 : List (Int × Int)) (b c : Int × Int), l = l1 ++ b :: c :: l2 →
        (band c.2 2 = 2 ↔ band b.2 1 = 1)) ∧
      (∀ (b : Int × Int) (l2 : List (Int × Int)), l = b :: l2 → band b.2 2 = 2) := by
  obtain ⟨hs, hw, -, hwalk⟩ := reach_walk U h hr
  refine ⟨List.zip (addrs h.first_blk hs) hs, ?_, ?_, ?_⟩
  · rw [zip_addrs_length]; exact hwalk
  · intro l1 l2 b c hl
    have e := zip_split hs _ l1 (b :: c :: l2) hl
    have hbits := hw.bits
    rw [e, Bits_append] at hbits
    obtain ⟨-, -, -, hb1, -, -⟩ := hbits
    rw [band_one, band_two]
    omega
  · intro b l2 hl
    have e := zip_split hs _ [] (b :: l2) hl
    have hbits := hw.bits
    rw [e] at hbits
    obtain ⟨hb1, -, -⟩ := hbits
    rw [band_two]
    omega

/-- Header/footer agreement on the defined range of `int`: in every heap reached from a
successful `Init_Mem` by `Alloc_Mem` calls whose rounding stays inside `int` and `Free_Mem`
calls on `NULL` or on a payload address of the block list, each free block of the block
list, at address `a` with size field `s`, has the word at `a + s - 4` equal to `s`. -/
theorem reach_footer (U : Int) (h : Heap) (hr : Reach U h) :
    ∃ l : List (Int × Int), walk h.mem (l.length + 1) h.first_blk = some l ∧
      ∀ b ∈ l, band b.2 1 = 0 → h.mem (b.1 + band b.2 (-4) - 4) = band b.2 (-4) := by
  obtain ⟨hs, hw, -, hwalk⟩ := reach_walk U h hr
  refine ⟨List.zip (addrs h.first_blk hs) hs, ?_, ?_⟩
  · rw [zip_addrs_length]; exact hwalk
  · intro b hb hfree
    obtain ⟨pre, post, h1, h2⟩ := mem_zip_addrs hs _ b hb
    obtain ⟨-, -, -, -, -, -, -, -, hb4, hft⟩ :=
      block_at h.mem h.first_blk hs pre post b.2 hw.seg hw.sizes hw.lo hw.hi hw.small h1
    rw [band_one] at hfree
    rw [hb4, h2]
    exact hft hfree


/-- C17 (request rounding). For `0 < size` with `size + 11` not above the largest `int`, the
block size that `Alloc_Mem` computes is the least multiple of 8 that is at least `size + 4`;
it is a multiple of 8, at least 8, and lies in `[size + 4, size + 12)`. -/
theorem C17_rounding (size : Int) (h0 : 0 < size) (h1 : size + 11 ≤ 2147483647) :
    roundSize size % 8 = 0 ∧ 8 ≤ roundSize size ∧ size + 4 ≤ roundSize size ∧
    roundSize size < size + 12 ∧
    ∀ k : Int, k % 8 = 0 → size + 4 ≤ k → roundSize size ≤ k := by
  rw [roundSize_eq size h0 h1]
  have h := reqSize_facts size
  refine ⟨h.1, by omega, h.2.1, h.2.2, ?_⟩
  intro k hk1 hk2
  omega

/-- C17 at the request size 20: the block size is 24. -/
theorem C17_rounding_witness :
    (0 : Int) < 20 ∧ (20 : Int) + 11 ≤ 2147483647 ∧
    (roundSize 20 % 8 = 0 ∧ 8 ≤ roundSize 20 ∧ (20 : Int) + 4 ≤ roundSize 20 ∧
    roundSize 20 < 20 + 12 ∧
    ∀ k : Int, k % 8 = 0 → 20 + 4 ≤ k → roundSize 20 ≤ k) :=
  ⟨by decide, by decide, C17_rounding 20 (by decide) (by decide)⟩

/-- C8 (free rejection without mutation). For every heap and every pointer value `ptr`:
when `ptr` is `NULL`, or is not a multiple of 8, or the word at `ptr - 4` has its allocated
bit clear, `Free_Mem(ptr)` returns -1 and leaves the heap as it was. -/
theorem C8_free_reject (h : Heap) (ptr : Int) (hp0 : 0 ≤ ptr) (hp1 : ptr < 4294967296)
    (hrej : ptr = 0 ∨ ptr % 8 ≠ 0 ∨ band (h.mem (ptr - 4)) 1 = 0) :
    Free_Mem h ptr = (h, -1) := by
  unfold Free_Mem
  by_cases hz : ptr = 0
  · rw [if_pos hz]
  · rw [if_neg hz]
    by_cases h8 : ptr % 8 = 0
    · have hb : band (h.mem (ptr - 4)) 1 = 0 := by
        rcases hrej with hr | hr | hr
        · exact absurd hr hz
        · exact absurd h8 hr
        · exact hr
      have e : psub ptr blk_size = ptr - 4 := by
        unfold blk_size; exact psub_eq _ _ (by omega) (by omega)
      rw [e, if_pos (Or.inr hb)]
    · have e : imod (wrap32 ptr) 8 ≠ 0 := fun hh => h8 ((imod8_wrap ptr).mp hh)
      rw [if_pos (Or.inl e)]

/-- C8 at the free block of the heap left by `Init_Mem(4096)`. -/
theorem C8_free_reject_witness :
    ((0 : Int) ≤ 65544 ∧ (65544 : Int) < 4294967296 ∧
      ((65544 : Int) = 0 ∨ (65544 : Int) % 8 ≠ 0 ∨ band (heap0.mem (65544 - 4)) 1 = 0)) ∧
    Free_Mem heap0 65544 = (heap0, -1) :=
  ⟨⟨by decide, by decide, Or.inr (Or.inr (by decide))⟩,
    C8_free_reject heap0 65544 (by decide) (by decide) (Or.inr (Or.inr (by decide)))⟩

/-- A successful `Init_Mem` sets the flag. -/
theorem init_sets_flag (pagesize fd n : Int) (sp : Option Int) (h0 h : Heap)
    (hinit : Init_Mem pagesize fd sp h0 n = (h, 0)) : h.allocated_once = 1 := by
  unfold Init_Mem at hinit
  by_cases c1 : h0.allocated_once ≠ 0
  · rw [if_pos c1] at hinit
    injection hinit with e1 e2
    exact absurd e2 (by decide)
  · rw [if_neg c1] at hinit
    by_cases c2 : n ≤ 0
    · rw [if_pos c2] at hinit
      injection hinit with e1 e2
      exact absurd e2 (by decide)
    · rw [if_neg c2] at hinit
      by_cases c3 : fd = -1
      · simp only [c3, if_true] at hinit
        injection hinit with e1 e2
        exact absurd e2 (by decide)
      · simp only [c3, if_false] at hinit
        cases sp with
        | none =>
          injection hinit with e1 e2
          exact absurd e2 (by decide)
        | some s =>
          injection hinit with e1 e2
          rw [← e1]

/-- Once the flag is set, `Init_Mem` fails and changes nothing. -/
theorem init_again (pagesize fd n : Int) (sp : Option Int) (h : Heap)
    (hflag : h.allocated_once = 1) : Init_Mem pagesize fd sp h n = (h, -1) := by
  unfold Init_Mem
  rw [if_pos (by rw [hflag]; decide)]

/-- No call of `Alloc_Mem`, `Free_Mem` or `Init_Mem` clears the flag once it is set. -/
theorem later_flag (h h1 : Heap) (hl : Later h h1) (hflag : h.allocated_once = 1) :
    h1.allocated_once = 1 := by
  induction hl with
  | refl => exact hflag
  | alloc h1 h2 fuel size p _ hal ih =>
    unfold Alloc_Mem at hal
    by_cases c : size ≤ 0
    · rw [if_pos c] at hal
      injection hal with hal
      injection hal with e1 e2
      rw [← e1]; exact ih
    · rw [if_neg c] at hal
      cases hsc : scan h1.mem h1.first_blk (roundSize size) fuel h1.first_blk h1.first_blk 0 with
      | none =>
        rw [hsc] at hal
        cases hal
      | some r =>
        rw [hsc] at hal
        injection hal with hal
        injection hal with e1 e2
        rw [← e1]; exact ih
  | free h1 h2 p r _ hfr ih =>
    unfold Free_Mem at hfr
    by_cases c1 : p = 0
    · rw [if_pos c1] at hfr
      injection hfr with e1 e2
      rw [← e1]; exact ih
    · rw [if_neg c1] at hfr
      by_cases c2 : imod (wrap32 p) 8 ≠ 0 ∨ band (h1.mem (psub p blk_size)) 1 = 0
      · rw [if_pos c2] at hfr
        injection hfr with e1 e2
        rw [← e1]; exact ih
      · rw [if_neg c2] at hfr
        injection hfr with e1 e2
        rw [← e1]; exact ih
  | init h1 h2 pagesize fd n r sp _ hin ih =>
    rw [init_again pagesize fd n sp h1 ih] at hin
    injection hin with e1 e2
    rw [← e1]; exact ih

/-- C15 (bootstrap once). After one `Init_Mem` call has returned 0, every later `Init_Mem`
call, after any calls of `Alloc_Mem`, `Free_Mem` and `Init_Mem` in between, for every
argument and every outcome of the page-size query, the open and the mapping, returns -1 and
leaves `first_blk`, the flag and the memory unchanged. -/
theorem C15_init_once (pagesize fd n : Int) (sp : Option Int) (h0 h h1 : Heap)
    (hinit : Init_Mem pagesize fd sp h0 n = (h, 0)) (hlater : Later h h1)
    (pagesize1 fd1 n1 : Int) (sp1 : Option Int) :
    Init_Mem pagesize1 fd1 sp1 h1 n1 = (h1, -1) :=
  init_again pagesize1 fd1 n1 sp1 h1
    (later_flag h h1 hlater (init_sets_flag pagesize fd n sp h0 h hinit))

/-- The heap `heap3` comes from `heap0` by `Alloc_Mem(20)`, `Alloc_Mem(4)` and
`Free_Mem(65544)`. -/
theorem later_heap3 : Later heap0 heap3 :=
  Later.free heap0 heap2 heap3 65544 0
    (Later.alloc heap0 heap1 heap2 5 4 65568
      (Later.alloc heap0 heap0 heap1 5 20 65544 (Later.refl heap0) alloc01) alloc12) free23

/-- C15 after `Init_Mem(4096)`, `Alloc_Mem(20)`, `Alloc_Mem(4)` and `Free_Mem(65544)`: a
second `Init_Mem(8192)` fails and changes nothing. -/
theorem C15_init_once_witness :
    (Init_Mem 4096 3 (some 65536) initial 4096 = (heap0, 0) ∧ Later heap0 heap3) ∧
    Init_Mem 4096 3 (some 131072) heap3 8192 = (heap3, -1) :=
  ⟨⟨init0, later_heap3⟩,
    C15_init_once 4096 3 4096 (some 65536) initial heap0 heap3 init0 later_heap3 4096 3 8192
      (some 131072)⟩

/-- C18 (scan termination). On a heap whose walk from `first_blk` reaches the end mark
through the blocks `l`, every one of a size that is a positive multiple of 8, inside the
32-bit address space: the search loop of `Alloc_Mem` returns exactly when it is given more
than `l.length` evaluations of its loop condition, that is after `l.length` iterations,
whatever the request; its cursor runs through the blocks `l`, whose addresses increase
strictly and lie below the end mark, and the end mark is the word right after the last
block. -/
theorem C18_scan_terminates (h : Heap) (fuel0 : Nat) (l : List (Int × Int))
    (hwalk : walk h.mem fuel0 h.first_blk = some l)
    (hsizes : ∀ b ∈ l, 0 < band b.2 (-4) ∧ band b.2 (-4) % 8 = 0)
    (hlo : 0 ≤ h.first_blk)
    (hhi : h.first_blk + (l.map (fun b => band b.2 (-4))).sum < 4294967296) (R : Int) :
    (∀ fuel : Nat, (scan h.mem h.first_blk R fuel h.first_blk h.first_blk 0).isSome = true ↔
      l.length < fuel) ∧
    (∀ fuel : Nat, l.length < fuel → walk h.mem fuel h.first_blk = some l) ∧
    List.Pairwise (fun a b => a < b) (l.map Prod.fst) ∧
    (∀ a ∈ l.map Prod.fst,
      h.first_blk ≤ a ∧ a < h.first_blk + (l.map (fun b => band b.2 (-4))).sum) ∧
    h.mem (h.first_blk + (l.map (fun b => band b.2 (-4))).sum) = 1 := by
  have hf := walk_fuel h.mem fuel0 h.first_blk l hwalk
  obtain ⟨o1, o2, o3⟩ :=
    walk_order h.mem fuel0 h.first_blk l hwalk hlo hhi (fun b hb => (hsizes b hb).1)
  refine ⟨?_, fun fuel hfuel => (hf fuel).1 hfuel, o2, o3, o1⟩
  intro fuel
  rw [scan_walk_isSome]
  constructor
  · intro hsome
    rcases Nat.lt_or_ge l.length fuel with hlt | hge
    · exact hlt
    · rw [(hf fuel).2 hge] at hsome
      cases hsome
  · intro hlt
    rw [(hf fuel).1 hlt]
    rfl

/-- C18 at the heap reached by `Init_Mem(4096)`, `Alloc_Mem(20)`, `Alloc_Mem(4)` and
`Free_Mem(65544)`, for the block size 24: three blocks, three iterations. -/
theorem C18_scan_terminates_witness :
    (walk heap3.mem 4 heap3.first_blk = some [(65540, 26), (65564, 9), (65572, 4058)] ∧
      (∀ b ∈ [((65540 : Int), (26 : Int)), (65564, 9), (65572, 4058)],
        0 < band b.2 (-4) ∧ band b.2 (-4) % 8 = 0) ∧
      0 ≤ heap3.first_blk ∧
      heap3.first_blk +
        ([((65540 : Int), (26 : Int)), (65564, 9), (65572, 4058)].map
          (fun b => band b.2 (-4))).sum < 4294967296) ∧
    ((∀ fuel : Nat,
      (scan heap3.mem heap3.first_blk 24 fuel heap3.first_blk heap3.first_blk 0).isSome = true ↔
      [((65540 : Int), (26 : Int)), (65564, 9), (65572, 4058)].length < fuel) ∧
    (∀ fuel : Nat, [((65540 : Int), (26 : Int)), (65564, 9), (65572, 4058)].length < fuel →
      walk heap3.mem fuel heap3.first_blk = some [(65540, 26), (65564, 9), (65572, 4058)]) ∧
    List.Pairwise (fun a b => a < b)
      ([((65540 : Int), (26 : Int)), (65564, 9), (65572, 4058)].map Prod.fst) ∧
    (∀ a ∈ [((65540 : Int), (26 : Int)), (65564, 9), (65572, 4058)].map Prod.fst,
      heap3.first_blk ≤ a ∧ a < heap3.first_blk +
        ([((65540 : Int), (26 : Int)), (65564, 9), (65572, 4058)].map
          (fun b => band b.2 (-4))).sum) ∧
    heap3.mem (heap3.first_blk +
      ([((65540 : Int), (26 : Int)), (65564, 9), (65572, 4058)].map
        (fun b => band b.2 (-4))).sum) = 1) :=
  ⟨⟨by decide, by decide, by decide, by decide⟩,
    C18_scan_terminates heap3 4 _ (by decide) (by decide) (by decide) (by decide) 24⟩

/-! ## Evaluations on concrete heaps -/

/-- C3 (best fit), evaluated on a reachable heap. After `Init_Mem(4096)`, `Alloc_Mem(20)`,
`Alloc_Mem(4)` and `Free_Mem` of the first payload the block list is: free 24 bytes at 65540,
allocated 8 bytes at 65564, free 4056 bytes at 65572. `Alloc_Mem(20)` needs 24 bytes and
returns 65576: it takes the 4056 byte block although the free 24 byte block fits. -/
theorem C3_best_fit_violated :
    Reach 4088 heap3 ∧
    walk heap3.mem 4 heap3.first_blk = some [(65540, 26), (65564, 9), (65572, 4058)] ∧
    roundSize 20 = 24 ∧
    (Alloc_Mem 4 heap3 20).map Prod.snd = some 65576 :=
  ⟨reach_heap3, by decide, by decide, by decide⟩

/-- C4 (exact fit), evaluated. After `Init_Mem(4096)` the only block is free with size 4088.
`Alloc_Mem(4084)` needs exactly 4088 bytes and returns the payload address 65544, yet the
header at 65540 is still 4090: its allocated bit is clear. -/
theorem C4_exact_fit_violated :
    roundSize 4084 = 4088 ∧ band (heap0.mem 65540) (-4) = 4088 ∧
    (Alloc_Mem 2 heap0 4084).map Prod.snd = some 65544 ∧
    (Alloc_Mem 2 heap0 4084).map (fun r => r.1.mem 65540) = some 4090 ∧
    (Alloc_Mem 2 heap0 4084).map (fun r => band (r.1.mem 65540) 1) = some 0 := by
  decide

/-- C19 (live allocations are distinct), evaluated. After `Init_Mem(4096)` two consecutive
calls `Alloc_Mem(4084)` both return the address 65544. -/
theorem C19_same_address_twice :
    Reach 4088 heap0 ∧
    (Alloc_Mem 2 heap0 4084).map Prod.snd = some 65544 ∧
    (Alloc_Mem 2 heap0 4084).bind (fun r => (Alloc_Mem 2 r.1 4084).map Prod.snd) =
      some 65544 :=
  ⟨reach_heap0, by decide, by decide⟩

/-- C20 (returned block is large enough), evaluated with `int` arithmetic modulo 2^32. After
`Init_Mem(4096)` the call `Alloc_Mem(2147483647)` computes the block size -2147483632,
returns the non-null address 65544, leaves the size field -2147483632 in the header at
65540, and writes the word at 2147549204, far outside the selected block. -/
theorem C20_overflow_violated :
    roundSize 2147483647 = -2147483632 ∧
    (Alloc_Mem 2 heap0 2147483647).map Prod.snd = some 65544 ∧
    (Alloc_Mem 2 heap0 2147483647).map (fun r => band (r.1.mem 65540) (-4)) =
      some (-2147483632) ∧
    heap0.mem 2147549204 = 0 ∧
    (Alloc_Mem 2 heap0 2147483647).map (fun r => r.1.mem 2147549204) = some (-2147479574) := by
  decide

/-- Page sizes that are powers of two between 16 and 2^30. -/
theorem pow2_page (k : Nat) (hk : 4 ≤ k) (hk2 : k ≤ 30) :
    (16 : Int) ≤ 2 ^ k ∧ (2 : Int) ^ k ≤ 1073741824 ∧ (2 : Int) ^ k % 8 = 0 ∧
      (2147483648 : Int) % 2 ^ k = 0 := by
  interval_cases k <;> norm_num

/-- Rounding an `int` up to a multiple of a page size that divides 2^31 gives at most 2^31. -/
theorem roundUp_le (pagesize n : Int) (hp : 0 < pagesize) (hdiv : 2147483648 % pagesize = 0)
    (hn : n ≤ 2147483647) : roundUp pagesize n ≤ 2147483648 := by
  by_contra hc
  have hq1 : (pagesize - n % pagesize) % pagesize < pagesize := Int.emod_lt_of_pos _ hp
  have hru : roundUp pagesize n = n + (pagesize - n % pagesize) % pagesize := rfl
  have hd : pagesize ∣ roundUp pagesize n - 2147483648 :=
    Int.dvd_sub (Int.dvd_of_emod_eq_zero (roundUp_mod pagesize n))
      (Int.dvd_of_emod_eq_zero hdiv)
  have hle := Int.le_of_dvd (by omega) hd
  omega

/-- C14 (bootstrap layout). For a first `Init_Mem(n)` with any `int` `n > 0`, on a platform
whose page size is a power of two between 16 and 2^30, when the open and the mapping
succeed with the region inside the 32-bit address space: the call returns 0 and leaves
exactly one block before the end mark; it is free with the previous-allocated bit set, its
size is `n` rounded up to a multiple of the page size, minus 8, its header is that size plus
2, its last word holds that size, and the next word is the end mark 1. -/
theorem C14_bootstrap (pagesize fd sp n : Int) (h0 : Heap) (k : Nat)
    (hflag : h0.allocated_once = 0) (hfd : fd ≠ -1) (hn : 0 < n) (hni : n ≤ 2147483647)
    (hk : 4 ≤ k) (hk2 : k ≤ 30) (hP : pagesize = 2 ^ k) (hsp : 0 ≤ sp)
    (hsphi : sp + roundUp pagesize n ≤ 4294967296) :
    (Init_Mem pagesize fd (some sp) h0 n).2 = 0 ∧
    walk (Init_Mem pagesize fd (some sp) h0 n).1.mem 2
      (Init_Mem pagesize fd (some sp) h0 n).1.first_blk =
      some [((Init_Mem pagesize fd (some sp) h0 n).1.first_blk, roundUp pagesize n - 8 + 2)] ∧
    band (roundUp pagesize n - 8 + 2) 1 = 0 ∧
    band (roundUp pagesize n - 8 + 2) 2 = 2 ∧
    band (roundUp pagesize n - 8 + 2) (-4) = roundUp pagesize n - 8 ∧
    (Init_Mem pagesize fd (some sp) h0 n).1.mem
      ((Init_Mem pagesize fd (some sp) h0 n).1.first_blk + (roundUp pagesize n - 8) - 4) =
      roundUp pagesize n - 8 ∧
    (Init_Mem pagesize fd (some sp) h0 n).1.mem
      ((Init_Mem pagesize fd (some sp) h0 n).1.first_blk + (roundUp pagesize n - 8)) = 1 := by
  obtain ⟨p16, p30, p8, pdiv⟩ := pow2_page k hk hk2
  rw [← hP] at p16 p30 p8 pdiv
  have hle := roundUp_le pagesize n (by omega) pdiv hni
  obtain ⟨r8, rge, -⟩ := roundUp_facts pagesize n hn (by omega) p8
  obtain ⟨i1, i2, -, i4, i5, i6⟩ :=
    init_spec pagesize fd sp n h0 hflag hfd hn (by omega) (by omega) hle (by omega) hsp hsphi
  have b1 : band (roundUp pagesize n - 8 + 2) 1 = 0 := by rw [band_one]; omega
  have b2 : band (roundUp pagesize n - 8 + 2) 2 = 2 := by rw [band_two]; omega
  have b4 : band (roundUp pagesize n - 8 + 2) (-4) = roundUp pagesize n - 8 := by
    rw [band_neg4 _ (by omega)]; omega
  have e1 : padd (sp + 4) (roundUp pagesize n - 8) = sp + 4 + (roundUp pagesize n - 8) :=
    padd_eq _ _ (by omega) (by omega)
  have hne : ¬ (roundUp pagesize n - 8 + 2 = 1) := by omega
  refine ⟨i1, ?_, b1, b2, b4, ?_, ?_⟩
  · rw [i2]
    unfold walk
    rw [i4, if_neg hne, b4, e1]
    unfold walk
    rw [i5, if_pos rfl]
    rfl
  · rw [i2]; exact i6
  · rw [i2]; exact i5

/-- C14 at `Init_Mem(2147483647)` with page size 4096 and the mapping at 65536: the rounded
size is 2^31, the block has size 2147483640. -/
theorem C14_bootstrap_witness :
    (initial.allocated_once = 0 ∧ (3 : Int) ≠ -1 ∧ (0 : Int) < 2147483647 ∧
      (2147483647 : Int) ≤ 2147483647 ∧ 4 ≤ 12 ∧ 12 ≤ 30 ∧ (4096 : Int) = 2 ^ 12 ∧
      (0 : Int) ≤ 65536 ∧ (65536 : Int) + roundUp 4096 2147483647 ≤ 4294967296) ∧
    ((Init_Mem 4096 3 (some 65536) initial 2147483647).2 = 0 ∧
    walk (Init_Mem 4096 3 (some 65536) initial 2147483647).1.mem 2
      (Init_Mem 4096 3 (some 65536) initial 2147483647).1.first_blk =
      some [((Init_Mem 4096 3 (some 65536) initial 2147483647).1.first_blk,
        roundUp 4096 2147483647 - 8 + 2)] ∧
    band (roundUp 4096 2147483647 - 8 + 2) 1 = 0 ∧
    band (roundUp 4096 2147483647 - 8 + 2) 2 = 2 ∧
    band (roundUp 4096 2147483647 - 8 + 2) (-4) = roundUp 4096 2147483647 - 8 ∧
    (Init_Mem 4096 3 (some 65536) initial 2147483647).1.mem
      ((Init_Mem 4096 3 (some 65536) initial 2147483647).1.first_blk +
        (roundUp 4096 2147483647 - 8) - 4) = roundUp 4096 2147483647 - 8 ∧
    (Init_Mem 4096 3 (some 65536) initial 2147483647).1.mem
      ((Init_Mem 4096 3 (some 65536) initial 2147483647).1.first_blk +
        (roundUp 4096 2147483647 - 8)) = 1) :=
  ⟨⟨by decide, by decide, by decide, by decide, by decide, by decide, by decide, by decide,
      by decide⟩,
    C14_bootstrap 4096 3 65536 2147483647 initial 12 (by decide) (by decide) (by decide)
      (by decide) (by decide) (by decide) (by decide) (by decide) (by decide)⟩

/-! ## Allocation: failure, payload address, split -/

/-- C10 (allocation failure). On a well-formed heap with block list `hs`, for a request
whose rounding does not overflow, `Alloc_Mem` returns, and it returns `NULL` exactly when
`size <= 0` or no free block of the list has a size of at least `R`, the request plus 4
rounded up to a multiple of 8; when it returns `NULL` the heap is unchanged. -/
theorem C10_alloc_null (h : Heap) (hs : List Int) (hwf : WF h hs) (size : Int)
    (hfit : size ≤ 0 ∨ size + 11 ≤ 2147483647) (fuel : Nat) (hf : hs.length < fuel) :
    ∃ h1 p, Alloc_Mem fuel h size = some (h1, p) ∧
      (p = 0 ↔ (size ≤ 0 ∨ ∀ x ∈ hs, ¬ (band x 1 = 0 ∧ reqSize size ≤ band x (-4)))) ∧
      (p = 0 → h1 = h) := by
  have hb : ∀ x ∈ hs, band x (-4) = sz x ∧ band x 1 = x % 2 := fun x hx =>
    (hdr_facts hs hwf.sizes hwf.small x hx).2.2.2.2.2
  by_cases h0 : size ≤ 0
  · refine ⟨h, 0, ?_, ?_, fun _ => rfl⟩
    · unfold Alloc_Mem
      rw [if_pos h0]
    · exact ⟨fun _ => Or.inl h0, fun _ => rfl⟩
  · have hpos : 0 < size := by omega
    have hfit2 : size + 11 ≤ 2147483647 := by omega
    rcases alloc_spec h hs hwf size hpos hfit2 with ⟨hnone, hno⟩ | ⟨l1, x, l2, hsplit, hfree, hge, hc⟩
    · refine ⟨h, 0, hno fuel hf, ?_, fun _ => rfl⟩
      refine ⟨fun _ => Or.inr ?_, fun _ => rfl⟩
      intro x hx
      rw [(hb x hx).1, (hb x hx).2]
      exact hnone x hx
    · have hxmem : x ∈ hs := by rw [hsplit]; simp
      have hsz := hwf.sizes
      rw [hsplit, Sizes_append] at hsz
      have n1 := total_nonneg l1 hsz.1
      have hlo := hwf.lo
      have hne : ¬ (h.first_blk + total l1 + 4 = 0) := by omega
      have hright : ¬ (size ≤ 0 ∨ ∀ y ∈ hs, ¬ (band y 1 = 0 ∧ reqSize size ≤ band y (-4))) := by
        intro hh
        rcases hh with hh | hh
        · exact h0 hh
        · refine hh x hxmem ?_
          rw [(hb x hxmem).1, (hb x hxmem).2]
          exact ⟨hfree, hge⟩
      rcases hc with ⟨-, hex⟩ | ⟨-, hsp⟩
      · exact ⟨_, _, hex fuel hf, ⟨fun hp => absurd hp hne, fun hh => absurd hh hright⟩,
          fun hp => absurd hp hne⟩
      · exact ⟨_, _, hsp fuel hf, ⟨fun hp => absurd hp hne, fun hh => absurd hh hright⟩,
          fun hp => absurd hp hne⟩

/-- C10 at the heap left by `Init_Mem(4096)` and the request 5000, which does not fit. -/
theorem C10_alloc_null_witness :
    (WF heap0 [4090] ∧ ((5000 : Int) ≤ 0 ∨ (5000 : Int) + 11 ≤ 2147483647) ∧
      [(4090 : Int)].length < 2) ∧
    ∃ h1 p, Alloc_Mem 2 heap0 5000 = some (h1, p) ∧
      (p = 0 ↔ ((5000 : Int) ≤ 0 ∨
        ∀ x ∈ [(4090 : Int)], ¬ (band x 1 = 0 ∧ reqSize 5000 ≤ band x (-4)))) ∧
      (p = 0 → h1 = heap0) :=
  ⟨⟨by decide, by decide, by decide⟩,
    C10_alloc_null heap0 [4090] (by decide) 5000 (by decide) 2 (by decide)⟩

/-- The pointer that the last part of `Alloc_Mem` returns. -/
theorem allocFinish_ptr (m : Memory) (R st fit : Int) :
    (allocFinish m R st fit).2 = 0 ∨ (allocFinish m R st fit).2 = padd st blk_size := by
  unfold allocFinish
  by_cases c1 : fit = 0
  · rw [if_pos c1]; exact Or.inl rfl
  · rw [if_neg c1]
    by_cases c2 : band (m st) (-4) < R
    · rw [if_pos c2]; exact Or.inl rfl
    · rw [if_neg c2]
      by_cases c3 : band (m st) (-4) > R
      · rw [if_pos c3]; exact Or.inr rfl
      · rw [if_neg c3]; exact Or.inr rfl

/-- Payload addresses on the defined range of `int`: in every heap reached from a successful
`Init_Mem` by `Alloc_Mem` calls whose rounding stays inside `int` and `Free_Mem` calls on
`NULL` or on a payload address of the block list, every non-null address that `Alloc_Mem`
returns is 4 more than the header address of a block of the block list before the call, is
a multiple of 8, and passes the alignment check of `Free_Mem`; when the rounding of the
request does not overflow, the address is a payload address of the block list after the
call as well. -/
theorem reach_payload (U : Int) (h : Heap) (hr : Reach U h) (size : Int) (fuel : Nat)
    (h1 : Heap) (p : Int) (hal : Alloc_Mem fuel h size = some (h1, p)) (hp : p ≠ 0) :
    OnList h p ∧ p % 8 = 0 ∧ imod (wrap32 p) 8 = 0 ∧
    (size + 11 ≤ 2147483647 → OnList h1 p) := by
  obtain ⟨hs, hwf, -⟩ := reach_WF U h hr
  have hpos : 0 < size := by
    by_contra hc
    unfold Alloc_Mem at hal
    rw [if_pos (by omega)] at hal
    injection hal with hal
    injection hal with e1 e2
    exact hp e2.symm
  have hf := alloc_fuel h hs hwf size hpos fuel _ hal
  have key : ∀ (l1 l2 : List Int) (x : Int), hs = l1 ++ x :: l2 →
      p = h.first_blk + total l1 + 4 → OnList h p ∧ p % 8 = 0 ∧ imod (wrap32 p) 8 = 0 := by
    intro l1 l2 x hsplit hpe
    have hwf2 := hwf
    rw [hsplit] at hwf2
    have hsz := hwf.sizes
    rw [hsplit, Sizes_append] at hsz
    have m8 := total_mod8 l1 hsz.1
    have hal8 := hwf.align
    have h8 : p % 8 = 0 := by omega
    refine ⟨?_, h8, (imod8_wrap p).mpr h8⟩
    rw [hpe]
    exact onList_of_split h l1 l2 x hwf2
  obtain ⟨st1, fit1, hinv, hscan⟩ :=
    scan_spec h.mem h.first_blk (roundSize size) hs hwf.seg hwf.endm hwf.sizes hwf.lo hwf.hi
      hwf.small hs [] h.first_blk h.first_blk 0 (by simp) (by simp [total])
      (Or.inl ⟨rfl, rfl, by simp⟩)
  have hal2 := hal
  unfold Alloc_Mem at hal2
  rw [if_neg (not_le.mpr hpos), hscan fuel hf] at hal2
  injection hal2 with hal2
  injection hal2 with e1 e2
  have hfirst : OnList h p ∧ p % 8 = 0 ∧ imod (wrap32 p) 8 = 0 := by
    rcases hinv with ⟨hfit, -, -⟩ | ⟨-, l1, x, l2, hsplit, hst, -, -⟩
    · rw [hfit] at e2
      unfold allocFinish at e2
      rw [if_pos rfl] at e2
      exact absurd e2.symm hp
    · rcases allocFinish_ptr h.mem (roundSize size) st1 fit1 with h0 | h4
      · rw [h0] at e2
        exact absurd e2.symm hp
      · rw [h4] at e2
        have hsz := hwf.sizes
        rw [hsplit, Sizes_append, Sizes_cons] at hsz
        have n1 := total_nonneg l1 hsz.1
        have n2 := total_nonneg l2 hsz.2.2
        have ht : total hs = total l1 + (sz x + total l2) := by
          rw [hsplit, total_append]; rfl
        have hlo := hwf.lo
        have hhi := hwf.hi
        have e3 : padd st1 blk_size = st1 + 4 := by
          unfold blk_size
          exact padd_eq _ _ (by omega) (by omega)
        rw [e3, hst] at e2
        exact key l1 l2 x hsplit e2.symm
  refine ⟨hfirst.1, hfirst.2.1, hfirst.2.2, ?_⟩
  intro hfit
  rcases alloc_spec h hs hwf size hpos hfit with ⟨-, hno⟩ | ⟨l1, x, l2, hsplit, hfree, hge, hc⟩
  · rw [hno fuel hf] at hal
    injection hal with hal
    injection hal with e3 e4
    exact absurd e4.symm hp
  · have hR := reqSize_facts size
    rcases hc with ⟨-, hex⟩ | ⟨hlt, hsp⟩
    · rw [hex fuel hf] at hal
      injection hal with hal
      injection hal with e3 e4
      rw [← e3]
      exact hfirst.1
    · rw [hsp fuel hf] at hal
      injection hal with hal
      injection hal with e3 e4
      subst hsplit
      have hw := split_WF h l1 l2 x (reqSize size) hwf hfree (by omega) hR.1 hlt
      rw [e3] at hw
      have hol := onList_of_split h1 l1 ((sz x - reqSize size + 2) :: l2) (reqSize size + 3) hw
      have hfb : h1.first_blk = h.first_blk := by rw [← e3]
      rw [hfb, e4] at hol
      exact hol


theorem toU32_small (x : Int) (h0 : 0 ≤ x) (h1 : x < 4294967296) : ((toU32 x : Nat) : Int) = x := by
  rw [toU32_cast]; omega

/-- The header value `R | 1 | p`, with the three parts in this order. -/
theorem bor_hdr (R pb : Int) (hR : 0 ≤ R ∧ R < 2147483644) (h4 : R % 4 = 0)
    (hpb : pb = 0 ∨ pb = 2) : bor (bor R 1) pb = R + 1 + pb := by
  have e1 : bor R 1 = R + 1 := bor_one R (by omega) (by omega)
  rw [e1]
  have c1 := toU32_small (R + 1) (by omega) (by omega)
  have c0 := toU32_small R (by omega) (by omega)
  have hn : toU32 (R + 1) = toU32 R + 1 := by omega
  have hm : toU32 R % 4 = 0 := by omega
  unfold bor
  rcases hpb with hp | hp
  · subst hp
    have z : toU32 0 = 0 := by decide
    have e : Nat.lor (toU32 (R + 1)) 0 = toU32 (R + 1) := Nat.or_zero _
    rw [z, e]
    simp only [wrap32, Int.ofNat_eq_coe]
    omega
  · subst hp
    have z : toU32 2 = 2 := by decide
    have e : Nat.lor (toU32 R + 1) 2 = toU32 R + 3 := by
      have a1 : toU32 R + 1 = Nat.lor (toU32 R) 1 := (nat_or_one _ (by omega)).symm
      rw [a1]
      show (toU32 R ||| 1) ||| 2 = toU32 R + 3
      rw [Nat.or_assoc]
      exact nat_or_low (toU32 R) 3 hm (by decide)
    rw [z, hn, e]
    simp only [wrap32, Int.ofNat_eq_coe]
    omega

/-- C5 (split postcondition). On a well-formed heap, when the search of `Alloc_Mem(size)`
selects the block at address `a` and its size `T` is greater than the required size `R`,
the call returns `a + 4`; afterwards the header at `a` is `R | 1 | p` with `p` the
previous-allocated bit the block had, the word at `a + R` is `(T - R) | 2`, the word at
`a + T - 4` is `T - R`, every other block header of the list and the end mark are unchanged,
and so is every word outside the selected block. -/
theorem C5_split (h : Heap) (hs : List Int) (hwf : WF h hs) (size : Int) (h0 : 0 < size)
    (fuel : Nat) (a fit : Int)
    (hsel : scan h.mem h.first_blk (roundSize size) fuel h.first_blk h.first_blk 0 =
      some (a, fit))
    (hfit : fit ≠ 0) (hT : reqSize size < band (h.mem a) (-4)) :
    ∃ h1, Alloc_Mem fuel h size = some (h1, a + 4) ∧
      h1.mem a = bor (bor (reqSize size) 1) (band (h.mem a) 2) ∧
      h1.mem (a + reqSize size) = bor (band (h.mem a) (-4) - reqSize size) 2 ∧
      h1.mem (a + band (h.mem a) (-4) - 4) = band (h.mem a) (-4) - reqSize size ∧
      (∀ b ∈ addrs h.first_blk hs, b ≠ a → h1.mem b = h.mem b) ∧
      h1.mem (h.first_blk + total hs) = 1 ∧
      (∀ addr, addr < a ∨ a + band (h.mem a) (-4) ≤ addr → h1.mem addr = h.mem addr) := by
  have hf : hs.length < fuel := by
    rcases Nat.lt_or_ge hs.length fuel with hf | hf
    · exact hf
    · have hn := scan_short h.mem h.first_blk (roundSize size) hs hwf.seg hwf.sizes hwf.lo
        hwf.hi hwf.small hs [] h.first_blk h.first_blk 0 (by simp)
        (by show h.first_blk = h.first_blk + 0; omega) fuel hf
      rw [hn] at hsel
      cases hsel
  obtain ⟨st1, fit1, hinv, hscan⟩ :=
    scan_spec h.mem h.first_blk (roundSize size) hs hwf.seg hwf.endm hwf.sizes hwf.lo hwf.hi
      hwf.small hs [] h.first_blk h.first_blk 0 (by simp) (by simp [total])
      (Or.inl ⟨rfl, rfl, by simp⟩)
  have hsc := hscan fuel hf
  rw [hsel] at hsc
  injection hsc with hsc
  injection hsc with e1 e2
  subst e1
  subst e2
  rcases hinv with ⟨hz, -, -⟩ | ⟨hone, l1, x, l2, hsplit, hst, hfree, -⟩
  · exact absurd hz hfit
  · obtain ⟨hmx, hx8, hx8m, hxlo, hxr, hp0, hq0, htot, hb4, -⟩ :=
      block_at h.mem h.first_blk hs l1 l2 x hwf.seg hwf.sizes hwf.lo hwf.hi hwf.small hsplit
    rw [← hst] at hmx
    rw [hmx, hb4] at hT
    rw [hmx, hb4]
    have hR := reqSize_facts size
    have hsmall := hwf.small
    have hlo := hwf.lo
    have hhi := hwf.hi
    rw [htot] at hsmall hhi
    have hrs := roundSize_eq size h0 (by omega)
    have hbits := hwf.bits
    rw [hsplit] at hbits
    have hx4 := free_pbit 1 l1 l2 x rfl hbits hfree
    have hsx : sz x = x - x % 4 := rfl
    have esp := allocFinish_split h.mem a (reqSize size) x hmx hfree (by omega) hR.1 hT hx8m
      hxr (by omega) (by omega)
    have e3 : reqSize size + (x % 4 - x % 2) + 1 = reqSize size + 3 := by omega
    rw [e3] at esp
    have hb2 : band x 2 = 2 := by rw [band_two]; omega
    have hh1 : bor (bor (reqSize size) 1) (band x 2) = reqSize size + 3 := by
      rw [hb2, bor_hdr _ 2 (by omega) (by omega) (Or.inr rfl)]; omega
    have hh2 : bor (sz x - reqSize size) 2 = sz x - reqSize size + 2 :=
      bor_low _ 2 (by omega) (by omega) (by decide)
    have hframe : ∀ addr, addr < a ∨ a + sz x ≤ addr →
        store (store (store h.mem (a + reqSize size) (sz x - reqSize size + 2)) a
          (reqSize size + 3)) (a + sz x - 4) (sz x - reqSize size) addr = h.mem addr := by
      intro addr ha
      rw [store_other _ _ _ _ (by omega), store_other _ _ _ _ (by omega),
        store_other _ _ _ _ (by omega)]
    refine ⟨{ h with mem := (store (store (store h.mem (a + reqSize size)
        (sz x - reqSize size + 2)) a (reqSize size + 3)) (a + sz x - 4)
        (sz x - reqSize size)) }, ?_, ?_, ?_, ?_, ?_, ?_, hframe⟩
    · unfold Alloc_Mem
      rw [if_neg (not_le.mpr h0), hsel]
      dsimp only
      rw [hrs, hone, esp]
    · show store (store (store h.mem (a + reqSize size) (sz x - reqSize size + 2)) a
        (reqSize size + 3)) (a + sz x - 4) (sz x - reqSize size) a = _
      rw [hh1, store_other _ _ _ _ (by omega), store_same]
    · show store (store (store h.mem (a + reqSize size) (sz x - reqSize size + 2)) a
        (reqSize size + 3)) (a + sz x - 4) (sz x - reqSize size) (a + reqSize size) = _
      rw [hh2, store_other _ _ _ _ (by omega), store_other _ _ _ _ (by omega), store_same]
    · show store (store (store h.mem (a + reqSize size) (sz x - reqSize size + 2)) a
        (reqSize size + 3)) (a + sz x - 4) (sz x - reqSize size) (a + sz x - 4) = _
      rw [store_same]
    · intro b hb hne
      obtain ⟨p1, y, p2, hsp2, hbe⟩ := mem_addrs hs _ b hb
      have hsz := hwf.sizes
      rw [hsplit] at hsz
      have hsz2 := hwf.sizes
      rw [hsp2, Sizes_append, Sizes_cons] at hsz2
      have hsep := split_sep l1 p1 l2 p2 x y hsz (by rw [← hsplit, hsp2])
      exact hframe b (by omega)
    · show store (store (store h.mem (a + reqSize size) (sz x - reqSize size + 2)) a
        (reqSize size + 3)) (a + sz x - 4) (sz x - reqSize size) (h.first_blk + total hs) = 1
      rw [hframe _ (by omega)]
      exact hwf.endm

/-- C5 at `Alloc_Mem(20)` on the heap left by `Init_Mem(4096)`: the block at 65540 of size
4088 is split into 24 and 4064 bytes. -/
theorem C5_split_witness :
    (WF heap0 [4090] ∧ (0 : Int) < 20 ∧
      scan heap0.mem heap0.first_blk (roundSize 20) 2 heap0.first_blk heap0.first_blk 0 =
        some (65540, 1) ∧
      (1 : Int) ≠ 0 ∧ reqSize 20 < band (heap0.mem 65540) (-4)) ∧
    ∃ h1, Alloc_Mem 2 heap0 20 = some (h1, 65540 + 4) ∧
      h1.mem 65540 = bor (bor (reqSize 20) 1) (band (heap0.mem 65540) 2) ∧
      h1.mem (65540 + reqSize 20) = bor (band (heap0.mem 65540) (-4) - reqSize 20) 2 ∧
      h1.mem (65540 + band (heap0.mem 65540) (-4) - 4) =
        band (heap0.mem 65540) (-4) - reqSize 20 ∧
      (∀ b ∈ addrs heap0.first_blk [4090], b ≠ 65540 → h1.mem b = heap0.mem b) ∧
      h1.mem (heap0.first_blk + total [4090]) = 1 ∧
      (∀ addr, addr < 65540 ∨ 65540 + band (heap0.mem 65540) (-4) ≤ addr →
        h1.mem addr = heap0.mem addr) :=
  ⟨⟨by decide, by decide, by decide, by decide, by decide⟩,
    C5_split heap0 [4090] (by decide) 20 (by decide) 2 65540 1 (by decide) (by decide)
      (by decide)⟩

/-! ## Double free -/

/-- C9 (double free). On a well-formed heap, for every allocated block of the block list
with payload address `p`, the first `Free_Mem(p)` returns 0 and a second `Free_Mem(p)` right
after it returns -1 and leaves the heap as the first call left it. The block may or may not
merge with either neighbour. -/
theorem C9_double_free (h : Heap) (pre post : List Int) (x : Int)
    (hwf : WF h (pre ++ x :: post)) (hx : band x 1 = 1) :
    (Free_Mem h (h.first_blk + total pre + 4)).2 = 0 ∧
    Free_Mem (Free_Mem h (h.first_blk + total pre + 4)).1 (h.first_blk + total pre + 4) =
      ((Free_Mem h (h.first_blk + total pre + 4)).1, -1) := by
  rw [band_one] at hx
  obtain ⟨e, hev, -⟩ := free_cases h pre post x hwf hx
  obtain ⟨-, -, -, -, -, hp0, hq0, htot, -, -⟩ :=
    block_at h.mem h.first_blk (pre ++ x :: post) pre post x hwf.seg hwf.sizes hwf.lo hwf.hi
      hwf.small rfl
  have hlo := hwf.lo
  have hhi := hwf.hi
  rw [htot] at hhi
  have hsz := hwf.sizes
  rw [Sizes_append, Sizes_cons] at hsz
  have e1 : ¬ (h.first_blk + total pre + 4 = 0) := by omega
  have e2 : psub (h.first_blk + total pre + 4) blk_size = h.first_blk + total pre := by
    unfold blk_size
    rw [psub_eq _ _ (by omega) (by omega)]; omega
  have e4 : band (freeBody h.mem (h.first_blk + total pre) (h.first_blk + total pre)) 1 = 0 := by
    rw [band_one]; exact hev
  rw [e]
  refine ⟨rfl, ?_⟩
  unfold Free_Mem
  rw [if_neg e1, e2, if_pos (Or.inr e4)]

/-- C9 at the heap after `Init_Mem(4096)` and `Alloc_Mem(20)`: freeing 65544 twice. -/
theorem C9_double_free_witness :
    (WF heap1 ([] ++ 27 :: [4066]) ∧ band 27 1 = 1) ∧
    ((Free_Mem heap1 (heap1.first_blk + total [] + 4)).2 = 0 ∧
    Free_Mem (Free_Mem heap1 (heap1.first_blk + total [] + 4)).1
        (heap1.first_blk + total [] + 4) =
      ((Free_Mem heap1 (heap1.first_blk + total [] + 4)).1, -1)) :=
  ⟨⟨by decide, by decide⟩, C9_double_free heap1 [] [4066] 27 (by decide) (by decide)⟩

/-! ## Free with coalescing, and the round trip -/

theorem succSize_facts (post : List Int) (hsz : Sizes post) :
    0 ≤ succSize post ∧ succSize post % 8 = 0 := by
  cases post with
  | nil => exact ⟨by decide, by decide⟩
  | cons z zs =>
    rw [Sizes_cons] at hsz
    show 0 ≤ (if z % 2 = 0 then sz z else 0) ∧ (if z % 2 = 0 then sz z else 0) % 8 = 0
    by_cases hz : z % 2 = 0
    · rw [if_pos hz]; omega
    · rw [if_neg hz]; omega

/-- What a well-formed heap says about a free block `F` placed after the blocks `preA`. -/
theorem freed_block (h : Heap) (preA rest : List Int) (F S : Int)
    (hwf : WF h (preA ++ F :: rest)) (hF : F = S + 2) (hS : S % 4 = 0) :
    band F 1 = 0 ∧ band F 2 = 2 ∧ band F (-4) = S ∧
    h.mem (h.first_blk + total preA) = F ∧
    h.mem (h.first_blk + total preA + band F (-4) - 4) = band F (-4) ∧
    (∀ z zs, rest = z :: zs → band z 2 = 0) := by
  obtain ⟨hmx, -, -, -, -, -, -, -, hb4, hft⟩ :=
    block_at h.mem h.first_blk (preA ++ F :: rest) preA rest F hwf.seg hwf.sizes hwf.lo hwf.hi
      hwf.small rfl
  have hsF : sz F = F - F % 4 := rfl
  have hbits := hwf.bits
  rw [Bits_append] at hbits
  obtain ⟨-, -, -, hb3⟩ := hbits
  have hF2 : F % 2 = 0 := by omega
  refine ⟨by rw [band_one]; exact hF2, by rw [band_two]; omega, by rw [hb4]; omega, hmx, ?_, ?_⟩
  · rw [hb4]; exact hft hF2
  · intro z zs hr
    rw [hr] at hb3
    obtain ⟨hz, -, -⟩ := hb3
    rw [band_two]
    omega

/-- C6 (free with coalescing). On a well-formed heap, for every allocated block `x` of the
block list at address `a`, `Free_Mem(a + 4)` returns 0, and afterwards the block list has a
free block `F` that starts at the predecessor's header when the previous-allocated bit of
`x` was clear and at `a` otherwise; its size is the size of `x` plus the size of a free
predecessor plus the size of a free successor; its header keeps the previous-allocated bit
of the header it starts at; its last word holds its size; and the block after it, if any,
has its previous-allocated bit clear. -/
theorem C6_free_coalesce (h : Heap) (pre post : List Int) (x : Int)
    (hwf : WF h (pre ++ x :: post)) (hx : band x 1 = 1) :
    (Free_Mem h (h.first_blk + total pre + 4)).2 = 0 ∧
    ∃ preA F rest, WF (Free_Mem h (h.first_blk + total pre + 4)).1 (preA ++ F :: rest) ∧
      ((band x 2 = 2 ∧ preA = pre ∧ band F (-4) = band x (-4) + succSize post ∧
          band F 2 = band x 2) ∨
       (band x 2 = 0 ∧ ∃ y, pre = preA ++ [y] ∧ band y 1 = 0 ∧
          band F (-4) = band y (-4) + band x (-4) + succSize post ∧ band F 2 = band y 2)) ∧
      band F 1 = 0 ∧
      (Free_Mem h (h.first_blk + total pre + 4)).1.mem (h.first_blk + total preA) = F ∧
      (Free_Mem h (h.first_blk + total pre + 4)).1.mem
        (h.first_blk + total preA + band F (-4) - 4) = band F (-4) ∧
      (∀ z zs, rest = z :: zs → band z 2 = 0) := by
  rw [band_one] at hx
  obtain ⟨e, -, hc⟩ := free_cases h pre post x hwf hx
  have hsz := hwf.sizes
  rw [Sizes_append, Sizes_cons] at hsz
  obtain ⟨sz1, ⟨sx0, sx8⟩, sz3⟩ := hsz
  obtain ⟨su0, su8⟩ := succSize_facts post sz3
  have hbx : band x (-4) = sz x :=
    (hdr_facts _ hwf.sizes hwf.small x (by simp)).2.2.2.2.2.1
  rw [e]
  refine ⟨rfl, ?_⟩
  rcases hc with ⟨h3, hw⟩ | ⟨h1, pre1, y, hcat, hy, hw⟩
  · obtain ⟨rest, hshape⟩ := fwdBlocks_shape (sz x) post
    rw [hshape] at hw
    obtain ⟨g1, g2, g3, g4, g5, g6⟩ :=
      freed_block _ pre rest _ (sz x + succSize post) hw rfl (by omega)
    refine ⟨pre, _, rest, hw, Or.inl ⟨?_, rfl, ?_, ?_⟩, g1, g4, g5, g6⟩
    · rw [band_two]; omega
    · rw [g3, hbx]
    · rw [g2, band_two]; omega
  · obtain ⟨rest, hshape⟩ := fwdBlocks_shape (sz y + sz x) post
    rw [hshape] at hw
    have hymem : y ∈ pre ++ x :: post := by rw [hcat]; simp
    have hby : band y (-4) = sz y := (hdr_facts _ hwf.sizes hwf.small y hymem).2.2.2.2.2.1
    have sy := hwf.sizes y hymem
    have hbits := hwf.bits
    rw [hcat, List.append_assoc, Bits_append] at hbits
    obtain ⟨-, hy1, hy2, -⟩ := hbits
    obtain ⟨g1, g2, g3, g4, g5, g6⟩ :=
      freed_block _ pre1 rest _ (sz y + sz x + succSize post) hw rfl (by omega)
    refine ⟨pre1, _, rest, hw, Or.inr ⟨?_, y, hcat, ?_, ?_, ?_⟩, g1, g4, g5, g6⟩
    · rw [band_two]; omega
    · rw [band_one]; exact hy
    · rw [g3, hbx, hby]
    · rw [g2, band_two]; omega

/-- C6 at the heap after `Init_Mem(4096)` and `Alloc_Mem(20)`: freeing the block at 65540
merges it with the free block that follows. -/
theorem C6_free_coalesce_witness :
    (WF heap1 ([] ++ 27 :: [4066]) ∧ band 27 1 = 1) ∧
    ((Free_Mem heap1 (heap1.first_blk + total [] + 4)).2 = 0 ∧
    ∃ preA F rest, WF (Free_Mem heap1 (heap1.first_blk + total [] + 4)).1 (preA ++ F :: rest) ∧
      ((band 27 2 = 2 ∧ preA = [] ∧ band F (-4) = band 27 (-4) + succSize [4066] ∧
          band F 2 = band 27 2) ∨
       (band 27 2 = 0 ∧ ∃ y, [] = preA ++ [y] ∧ band y 1 = 0 ∧
          band F (-4) = band y (-4) + band 27 (-4) + succSize [4066] ∧ band F 2 = band y 2)) ∧
      band F 1 = 0 ∧
      (Free_Mem heap1 (heap1.first_blk + total [] + 4)).1.mem (heap1.first_blk + total preA) = F ∧
      (Free_Mem heap1 (heap1.first_blk + total [] + 4)).1.mem
        (heap1.first_blk + total preA + band F (-4) - 4) = band F (-4) ∧
      (∀ z zs, rest = z :: zs → band z 2 = 0)) :=
  ⟨⟨by decide, by decide⟩, C6_free_coalesce heap1 [] [4066] 27 (by decide) (by decide)⟩

/-- C11 (allocate/free round trip). On a well-formed heap with block list `hs`, for every
request size (an `int`, so at most 2147483647, requests whose rounding overflows included)
for which `Alloc_Mem` returns a non-null address `p`, the heap after an immediate
`Free_Mem(p)` has the block list `hs` again: same first block, same headers at the same
addresses, footers of free blocks equal to their sizes, and the same walk. -/
theorem C11_round_trip (h : Heap) (hs : List Int) (hwf : WF h hs) (size : Int)
    (hint : size ≤ 2147483647) (fuel : Nat) (h1 : Heap) (p : Int)
    (hal : Alloc_Mem fuel h size = some (h1, p)) (hp : p ≠ 0) :
    WF (Free_Mem h1 p).1 hs ∧ (Free_Mem h1 p).1.first_blk = h.first_blk ∧
    walk (Free_Mem h1 p).1.mem (hs.length + 1) (Free_Mem h1 p).1.first_blk =
      some (List.zip (addrs h.first_blk hs) hs) ∧
    walk h.mem (hs.length + 1) h.first_blk = some (List.zip (addrs h.first_blk hs) hs) := by
  have hpos : 0 < size := by
    by_contra hc
    unfold Alloc_Mem at hal
    rw [if_pos (by omega)] at hal
    injection hal with hal
    injection hal with e1 e2
    exact hp e2.symm
  have hf := alloc_fuel h hs hwf size hpos fuel _ hal
  have hR := reqSize_facts size
  have main : WF (Free_Mem h1 p).1 hs ∧ (Free_Mem h1 p).1.first_blk = h.first_blk := by
    by_cases hfit : size + 11 ≤ 2147483647
    case neg =>
      exact ovf_round_trip h hs hwf size hpos hint (by omega) fuel h1 p hal hp
    rcases alloc_spec h hs hwf size hpos hfit with ⟨-, hno⟩ | ⟨l1, x, l2, hsplit, hfree, hge, hc⟩
    · rw [hno fuel hf] at hal
      injection hal with hal
      injection hal with e3 e4
      exact absurd e4.symm hp
    · subst hsplit
      rcases hc with ⟨-, hex⟩ | ⟨hlt, hsp⟩
      · rw [hex fuel hf] at hal
        injection hal with hal
        injection hal with e3 e4
        rw [← e3, ← e4, free_reject_free h l1 l2 x hwf hfree]
        exact ⟨hwf, rfl⟩
      · rw [hsp fuel hf] at hal
        injection hal with hal
        injection hal with e3 e4
        have hw := split_WF h l1 l2 x (reqSize size) hwf hfree (by omega) hR.1 hlt
        rw [e3] at hw
        have hfb : h1.first_blk = h.first_blk := by rw [← e3]
        have hsx : sz x = x - x % 4 := rfl
        have hx4 := free_pbit 1 l1 l2 x rfl hwf.bits hfree
        have s1 : sz (reqSize size + 3) = reqSize size := by unfold sz; omega
        have s2 : sz (sz x - reqSize size + 2) = sz x - reqSize size := by unfold sz; omega
        obtain ⟨e, -, hcase⟩ := free_cases h1 l1 ((sz x - reqSize size + 2) :: l2)
          (reqSize size + 3) hw (by omega)
        have e4b : p = h1.first_blk + total l1 + 4 := by rw [hfb]; exact e4.symm
        rw [e4b, e]
        refine ⟨?_, hfb⟩
        rcases hcase with ⟨-, hw2⟩ | ⟨hbad, -⟩
        · have hfw : fwdBlocks (sz (reqSize size + 3)) ((sz x - reqSize size + 2) :: l2) =
              x :: l2 := by
            show (if (sz x - reqSize size + 2) % 2 = 0 then _ else _) = _
            rw [if_pos (by omega), s1, s2]
            have e5 : reqSize size + (sz x - reqSize size) + 2 = x := by omega
            rw [e5]
          rw [hfw] at hw2
          exact hw2
        · omega
  obtain ⟨w1, w2⟩ := main
  refine ⟨w1, w2, ?_, (walk_WF h hs hwf).1 _ (Nat.lt_succ_self _)⟩
  have hwalk := (walk_WF _ hs w1).1 _ (Nat.lt_succ_self _)
  rw [w2] at hwalk
  rw [w2]
  exact hwalk

/-- C11 at `Alloc_Mem(20)` and at `Alloc_Mem(2147483644)`, whose rounding overflows, on the
heap left by `Init_Mem(4096)`. -/
theorem C11_round_trip_witness :
    ((WF heap0 [4090] ∧ (20 : Int) ≤ 2147483647 ∧
      Alloc_Mem 5 heap0 20 = some (heap1, 65544) ∧ (65544 : Int) ≠ 0) ∧
    (WF (Free_Mem heap1 65544).1 [4090] ∧ (Free_Mem heap1 65544).1.first_blk = heap0.first_blk ∧
    walk (Free_Mem heap1 65544).1.mem ([(4090 : Int)].length + 1)
        (Free_Mem heap1 65544).1.first_blk =
      some (List.zip (addrs heap0.first_blk [4090]) [4090]) ∧
    walk heap0.mem ([(4090 : Int)].length + 1) heap0.first_blk =
      some (List.zip (addrs heap0.first_blk [4090]) [4090]))) ∧
    ((WF heap0 [4090] ∧ (2147483644 : Int) ≤ 2147483647 ∧
      Alloc_Mem 8 heap0 2147483644 = some (heapY1, 65544) ∧ (65544 : Int) ≠ 0) ∧
    (WF (Free_Mem heapY1 65544).1 [4090] ∧
      (Free_Mem heapY1 65544).1.first_blk = heap0.first_blk ∧
    walk (Free_Mem heapY1 65544).1.mem ([(4090 : Int)].length + 1)
        (Free_Mem heapY1 65544).1.first_blk =
      some (List.zip (addrs heap0.first_blk [4090]) [4090]) ∧
    walk heap0.mem ([(4090 : Int)].length + 1) heap0.first_blk =
      some (List.zip (addrs heap0.first_blk [4090]) [4090]))) :=
  ⟨⟨⟨by decide, by decide, alloc01, by decide⟩,
    C11_round_trip heap0 [4090] (by decide) 20 (by decide) 5 heap1 65544 alloc01 (by decide)⟩,
   ⟨⟨by decide, by decide, rfl, by decide⟩,
    C11_round_trip heap0 [4090] (by decide) 2147483644 (by decide) 8 heapY1 65544 rfl
      (by decide)⟩⟩

/-- C12 (three-block coalescing, in any order). On a well-formed heap with three adjacent
allocated blocks `A`, `B`, `C`, where the previous-allocated bit of `A` is set and the block
after `C` is allocated or `C` is followed by the end mark: for each of the six orders of
`Free_Mem` on the three payload addresses, all three calls return 0, and the final heap has
one and the same block list, in which a single free block `F` stands at the address of `A`,
with size field `a + b + c`, the previous-allocated bit of `A`, and a footer `a + b + c`. -/
theorem C12_three_blocks (h : Heap) (pre post : List Int) (A B C : Int)
    (hwf : WF h (pre ++ A :: B :: C :: post)) (hA1 : band A 1 = 1) (hA2 : band A 2 = 2)
    (hB : band B 1 = 1) (hC : band C 1 = 1)
    (hpost : post = [] ∨ ∃ z zs, post = z :: zs ∧ band z 1 = 1) :
    ∃ F rest, band F (-4) = band A (-4) + band B (-4) + band C (-4) ∧ band F 1 = 0 ∧
      band F 2 = band A 2 ∧
      ∀ ps ∈
        [[h.first_blk + total pre + 4, h.first_blk + total pre + band A (-4) + 4,
            h.first_blk + total pre + band A (-4) + band B (-4) + 4],
         [h.first_blk + total pre + 4, h.first_blk + total pre + band A (-4) + band B (-4) + 4,
            h.first_blk + total pre + band A (-4) + 4],
         [h.first_blk + total pre + band A (-4) + 4, h.first_blk + total pre + 4,
            h.first_blk + total pre + band A (-4) + band B (-4) + 4],
         [h.first_blk + total pre + band A (-4) + 4,
            h.first_blk + total pre + band A (-4) + band B (-4) + 4,
            h.first_blk + total pre + 4],
         [h.first_blk + total pre + band A (-4) + band B (-4) + 4, h.first_blk + total pre + 4,
            h.first_blk + total pre + band A (-4) + 4],
         [h.first_blk + total pre + band A (-4) + band B (-4) + 4,
            h.first_blk + total pre + band A (-4) + 4, h.first_blk + total pre + 4]],
        (freeSeq h ps).2 = [0, 0, 0] ∧
        WF (freeSeq h ps).1 (pre ++ F :: rest) ∧
        (freeSeq h ps).1.first_blk = h.first_blk ∧
        (freeSeq h ps).1.mem (h.first_blk + total pre) = F ∧
        (freeSeq h ps).1.mem (h.first_blk + total pre + band F (-4) - 4) = band F (-4) ∧
        walk (freeSeq h ps).1.mem ((pre ++ F :: rest).length + 1) h.first_blk =
          some (List.zip (addrs h.first_blk (pre ++ F :: rest)) (pre ++ F :: rest)) := by
  rw [band_one] at hA1 hB hC
  rw [band_two] at hA2
  have hA : A % 4 = 3 := by omega
  have hpost2 : post = [] ∨ ∃ z zs, post = z :: zs ∧ z % 2 = 1 := by
    rcases hpost with hp | ⟨z, zs, hp, hz⟩
    · exact Or.inl hp
    · rw [band_one] at hz
      exact Or.inr ⟨z, zs, hp, hz⟩
  obtain ⟨post1, hsh⟩ := fwd_alloc_shape post hpost2
  have bA : band A (-4) = sz A := (hdr_facts _ hwf.sizes hwf.small A (by simp)).2.2.2.2.2.1
  have bB : band B (-4) = sz B := (hdr_facts _ hwf.sizes hwf.small B (by simp)).2.2.2.2.2.1
  have bC : band C (-4) = sz C := (hdr_facts _ hwf.sizes hwf.small C (by simp)).2.2.2.2.2.1
  have hsz := hwf.sizes
  rw [Sizes_append, Sizes_cons, Sizes_cons, Sizes_cons] at hsz
  obtain ⟨-, ⟨a0, a8⟩, ⟨b0, b8⟩, ⟨c0, c8⟩, -⟩ := hsz
  rw [bA, bB, bC]
  have fin : ∀ p1 p2 p3 : Int, [p1, p2, p3] ∈
      [[h.first_blk + total pre + 4, h.first_blk + total pre + sz A + 4,
          h.first_blk + total pre + sz A + sz B + 4],
       [h.first_blk + total pre + 4, h.first_blk + total pre + sz A + sz B + 4,
          h.first_blk + total pre + sz A + 4],
       [h.first_blk + total pre + sz A + 4, h.first_blk + total pre + 4,
          h.first_blk + total pre + sz A + sz B + 4],
       [h.first_blk + total pre + sz A + 4, h.first_blk + total pre + sz A + sz B + 4,
          h.first_blk + total pre + 4],
       [h.first_blk + total pre + sz A + sz B + 4, h.first_blk + total pre + 4,
          h.first_blk + total pre + sz A + 4],
       [h.first_blk + total pre + sz A + sz B + 4, h.first_blk + total pre + sz A + 4,
          h.first_blk + total pre + 4]] →
      (freeSeq h [p1, p2, p3]).2 = [0, 0, 0] ∧
      WF (freeSeq h [p1, p2, p3]).1 (pre ++ (sz A + sz B + sz C + 2) :: post1) ∧
      (freeSeq h [p1, p2, p3]).1.first_blk = h.first_blk ∧
      (freeSeq h [p1, p2, p3]).1.mem (h.first_blk + total pre) = sz A + sz B + sz C + 2 ∧
      (freeSeq h [p1, p2, p3]).1.mem
        (h.first_blk + total pre + band (sz A + sz B + sz C + 2) (-4) - 4) =
        band (sz A + sz B + sz C + 2) (-4) ∧
      walk (freeSeq h [p1, p2, p3]).1.mem
        ((pre ++ (sz A + sz B + sz C + 2) :: post1).length + 1) h.first_blk =
        some (List.zip (addrs h.first_blk (pre ++ (sz A + sz B + sz C + 2) :: post1))
          (pre ++ (sz A + sz B + sz C + 2) :: post1)) := by
    intro p1 p2 p3 hps
    obtain ⟨r1, r2, r3⟩ := three_core h pre post post1 A B C hwf hA hB hC hsh p1 p2 p3 hps
    obtain ⟨-, -, -, g4, g5, -⟩ :=
      freed_block _ pre post1 _ (sz A + sz B + sz C) r3 rfl (by omega)
    have hwalk := (walk_WF _ _ r3).1 _ (Nat.lt_succ_self _)
    rw [r2] at g4 g5 hwalk
    exact ⟨r1, r3, r2, g4, g5, hwalk⟩
  obtain ⟨q1, q2, q3, -, -, -⟩ :=
    freed_block _ pre post1 _ (sz A + sz B + sz C)
      (fin _ _ _ (List.mem_cons_self _ _)).2.1 rfl (by omega)
  refine ⟨sz A + sz B + sz C + 2, post1, q3, q1, ?_, ?_⟩
  · rw [q2, band_two]; omega
  · intro ps hps
    simp only [List.mem_cons, List.mem_singleton, List.not_mem_nil, or_false] at hps
    rcases hps with e | e | e | e | e | e
    · subst e; exact fin _ _ _ (by simp)
    · subst e; exact fin _ _ _ (by simp)
    · subst e; exact fin _ _ _ (by simp)
    · subst e; exact fin _ _ _ (by simp)
    · subst e; exact fin _ _ _ (by simp)
    · subst e; exact fin _ _ _ (by simp)

/-- C12 at the heap with allocated blocks of 24, 8, 16 and 8 bytes at 65540, 65564, 65572
and 65588: the first three are freed in all six orders. -/
theorem C12_three_blocks_witness :
    (WF heap5 ([] ++ 27 :: 11 :: 19 :: [11, 4034]) ∧ band 27 1 = 1 ∧ band 27 2 = 2 ∧
      band 11 1 = 1 ∧ band 19 1 = 1 ∧
      (([11, 4034] : List Int) = [] ∨ ∃ z zs, ([11, 4034] : List Int) = z :: zs ∧ band z 1 = 1)) ∧
    ∃ F rest, band F (-4) = band 27 (-4) + band 11 (-4) + band 19 (-4) ∧ band F 1 = 0 ∧
      band F 2 = band 27 2 ∧
      ∀ ps ∈
        [[heap5.first_blk + total [] + 4, heap5.first_blk + total [] + band 27 (-4) + 4,
            heap5.first_blk + total [] + band 27 (-4) + band 11 (-4) + 4],
         [heap5.first_blk + total [] + 4,
            heap5.first_blk + total [] + band 27 (-4) + band 11 (-4) + 4,
            heap5.first_blk + total [] + band 27 (-4) + 4],
         [heap5.first_blk + total [] + band 27 (-4) + 4, heap5.first_blk + total [] + 4,
            heap5.first_blk + total [] + band 27 (-4) + band 11 (-4) + 4],
         [heap5.first_blk + total [] + band 27 (-4) + 4,
            heap5.first_blk + total [] + band 27 (-4) + band 11 (-4) + 4,
            heap5.first_blk + total [] + 4],
         [heap5.first_blk + total [] + band 27 (-4) + band 11 (-4) + 4,
            heap5.first_blk + total [] + 4,
            heap5.first_blk + total [] + band 27 (-4) + 4],
         [heap5.first_blk + total [] + band 27 (-4) + band 11 (-4) + 4,
            heap5.first_blk + total [] + band 27 (-4) + 4, heap5.first_blk + total [] + 4]],
        (freeSeq heap5 ps).2 = [0, 0, 0] ∧
        WF (freeSeq heap5 ps).1 ([] ++ F :: rest) ∧
        (freeSeq heap5 ps).1.first_blk = heap5.first_blk ∧
        (freeSeq heap5 ps).1.mem (heap5.first_blk + total []) = F ∧
        (freeSeq heap5 ps).1.mem (heap5.first_blk + total [] + band F (-4) - 4) = band F (-4) ∧
        walk (freeSeq heap5 ps).1.mem (([] ++ F :: rest).length + 1) heap5.first_blk =
          some (List.zip (addrs heap5.first_blk ([] ++ F :: rest)) ([] ++ F :: rest)) :=
  ⟨⟨by decide, by decide, by decide, by decide, by decide,
      Or.inr ⟨11, [4034], rfl, by decide⟩⟩,
    C12_three_blocks heap5 [] [11, 4034] 27 11 19 (by decide) (by decide) (by decide)
      (by decide) (by decide) (Or.inr ⟨11, [4034], rfl, by decide⟩)⟩

/-! ## Requests whose rounding overflows, evaluated -/

end Mem
